import Mathlib

/-!
# Timed LRU cache (`cpp/timewheel-lru`): shallow embedding and verification

The C++ sources `lrucache.h`, `timewheel.h` and `timelru.h` are embedded as
executable Lean functions.

* Heap nodes live in an explicit store `mem : Nat → Option (LinkNode T)`; a
  pointer is an `Option Nat` (`none` is `nullptr`).  Dereferencing a null or
  dangling pointer is undefined behaviour in C++ and makes the embedded
  function return `none`.
* `new` hands out the address `brk` and bumps it; `delete` clears the cell.
* `std::map` is an association list with at most one entry per key (the
  code never iterates over the map, so its key order is not observable).
* `size_t` fields of the time wheel are natural numbers reduced modulo
  `2 ^ 64`.  The list's `size` counts live nodes of the store, which is
  unbounded here, so its increment is left unreduced; its decrement wraps
  like the machine word does.
* The member functions are embedded sequentially, one function per call.
  The loop of `TimeWheel::Start` runs against a list that says in which
  iterations `Stop()` arrives from another thread.  Where the mutex matters,
  `Shared` runs schedules of atomic steps, one step per statement, with
  `lock` and `unlock` for the `std::scoped_lock`.
-/

namespace TimeWheelLRU

/-- A nullable node address: `none` is `nullptr`. -/
abbrev Ptr := Option Nat

/-- Number of values of a `size_t`. -/
def WORD : Nat := 2 ^ 64

/-- `template <typename T> struct LinkNode`. -/
structure LinkNode (T : Type) where
  data : T
  prev : Ptr
  next : Ptr

/-- `template <typename T> struct LinkList`, together with the node store it
owns (`mem`) and the allocation pointer (`brk`). -/
structure LinkList (T : Type) where
  mem : Nat → Option (LinkNode T)
  brk : Nat
  head : Ptr
  tail : Ptr
  size : Nat

namespace LinkList

variable {T : Type}

/-- Read `*p`; fails on a null or dangling pointer. -/
def load (l : LinkList T) (p : Ptr) : Option (LinkNode T) :=
  match p with
  | none => none
  | some a => l.mem a

/-- The store `mem` with the cell at address `a` replaced by `c`. -/
def upd (mem : Nat → Option (LinkNode T)) (a : Nat) (c : Option (LinkNode T)) :
    Nat → Option (LinkNode T) :=
  fun b => if b = a then c else mem b

/-- Overwrite the cell at address `a`. -/
def setCell (l : LinkList T) (a : Nat) (c : Option (LinkNode T)) : LinkList T :=
  { l with mem := upd l.mem a c }

/-- Assign to fields of `*p` (`p->field = ...`); fails on a null or dangling
pointer. -/
def store (l : LinkList T) (p : Ptr) (f : LinkNode T → LinkNode T) : Option (LinkList T) :=
  match p with
  | none => none
  | some a =>
    match l.mem a with
    | none => none
    | some n => some (l.setCell a (some (f n)))

/-- The expression `new LinkNode<T>{data, nullptr, nullptr}`: the new address
and the store after the allocation. -/
def alloc (l : LinkList T) (data : T) : Ptr × LinkList T :=
  (some l.brk, { l.setCell l.brk (some ⟨data, none, none⟩) with brk := l.brk + 1 })

/-- The statement `delete node`. -/
def free (l : LinkList T) (p : Ptr) : Option (LinkList T) :=
  match p with
  | none => some l
  | some a =>
    match l.mem a with
    | none => none
    | some _ => some (l.setCell a none)

/-- `LinkList<T>::LinkList()`: allocates the sentinel head. -/
def new [Inhabited T] : LinkList T :=
  { mem := upd (fun _ => none) 1 (some ⟨default, none, none⟩)
    brk := 2
    head := some 1
    tail := some 1
    size := 0 }

/-- `LinkList<T>::PushBack(T data)`. -/
def PushBack (l : LinkList T) (data : T) : Option (LinkList T) := do
  let (node, l) := l.alloc data
  let l ← l.store l.tail (fun n => { n with next := node })
  let l ← l.store node (fun n => { n with prev := l.tail })
  let l ← l.store node (fun n => { n with next := none })
  let l := { l with tail := node }
  some { l with size := l.size + 1 }

/-- `LinkList<T>::PushFront(LinkNode<T> *node)`. -/
def PushFrontNode (l : LinkList T) (node : Ptr) : Option (LinkList T) := do
  let h ← l.load l.head
  let l ← l.store node (fun n => { n with next := h.next })
  let h ← l.load l.head
  let l ← if h.next.isSome then l.store h.next (fun n => { n with prev := node }) else some l
  let l ← l.store l.head (fun n => { n with next := node })
  let l ← l.store node (fun n => { n with prev := l.head })
  let l := { l with tail := if l.tail = l.head then node else l.tail }
  some { l with size := l.size + 1 }

/-- `LinkList<T>::PushFront(T data)`. -/
def PushFront (l : LinkList T) (data : T) : Option (LinkList T) :=
  let (node, l) := l.alloc data
  l.PushFrontNode node

/-- `LinkList<T>::Spare(LinkNode<T> *node)`. -/
def Spare (l : LinkList T) (node : Ptr) : Option (LinkList T) := do
  let n ← l.load node
  let l ← l.store n.prev (fun p => { p with next := n.next })
  let n ← l.load node
  let l ← if n.next.isSome then l.store n.next (fun x => { x with prev := n.prev })
          else some { l with tail := n.prev }
  some { l with size := if l.size = 0 then WORD - 1 else l.size - 1 }

/-- `LinkList<T>::Delete(LinkNode<T> *node)`. -/
def Delete (l : LinkList T) (node : Ptr) : Option (LinkList T) := do
  let l ← l.Spare node
  l.free node

/-- `LinkList<T>::PopBack()`. -/
def PopBack (l : LinkList T) : Option (LinkList T) :=
  if l.size = 0 then some l else l.Delete l.tail

/-- Follow `next` from `p`, collecting the data of the nodes visited, for at
most `fuel` nodes. -/
def walk (mem : Nat → Option (LinkNode T)) : Nat → Ptr → List T
  | 0, _ => []
  | _ + 1, none => []
  | fuel + 1, some a =>
    match mem a with
    | none => []
    | some n => n.data :: walk mem fuel n.next

/-- The data of the nodes from `head->next` to the end of the chain. Every
live address is below `brk`, which therefore bounds the walk. -/
def toList (l : LinkList T) : List T :=
  match l.load l.head with
  | none => []
  | some h => walk l.mem l.brk h.next

end LinkList

/-- `template <typename Key, typename Value> struct LRUCache`; `map` is the
`std::map<Key, LinkNode<KeyValue> *>`. -/
structure LRUCache (K V : Type) where
  list : LinkList (K × V)
  map : List (K × Ptr)

namespace LRUCache

variable {K V : Type} [DecidableEq K]

/-- `map.find(key)`: the mapped pointer, or `none` for `map.end()`. -/
def mapFind : List (K × Ptr) → K → Option Ptr
  | [], _ => none
  | (k, p) :: m, key => if k = key then some p else mapFind m key

/-- `map.erase(key)`. -/
def mapErase (m : List (K × Ptr)) (key : K) : List (K × Ptr) :=
  m.filter (fun e => decide (e.1 ≠ key))

/-- `map.emplace(key, p)`: inserts only when `key` has no entry yet. -/
def mapEmplace (m : List (K × Ptr)) (key : K) (p : Ptr) : List (K × Ptr) :=
  match mapFind m key with
  | some _ => m
  | none => (key, p) :: m

/-- The cache as constructed by default. -/
def new [Inhabited K] [Inhabited V] : LRUCache K V :=
  { list := LinkList.new, map := [] }

/-- `LRUCache::Size`. -/
def Size (c : LRUCache K V) : Nat := c.list.size

/-- `LRUCache::Put`. -/
def Put (c : LRUCache K V) (key : K) (value : V) : Option (LRUCache K V) :=
  match mapFind c.map key with
  | some node => do
    let list ← c.list.store node (fun n => { n with data := (key, value) })
    some { c with list := list }
  | none => do
    let list ← c.list.PushFront (key, value)
    let h ← list.load list.head
    some { list := list, map := mapEmplace c.map key h.next }

/-- `LRUCache::TryPut`. -/
def TryPut (c : LRUCache K V) (key : K) (value : V) : Option (Bool × LRUCache K V) :=
  match mapFind c.map key with
  | some _ => some (false, c)
  | none => do
    let list ← c.list.PushBack (key, value)
    some (true, { list := list, map := mapEmplace c.map key list.tail })

/-- `Value *LRUCache::Get(const Key &)`: the result is the value the returned
pointer refers to, `none` for a null result. -/
def Get (c : LRUCache K V) (key : K) : Option (Option V × LRUCache K V) :=
  match mapFind c.map key with
  | none => some (none, c)
  | some node => do
    let list ← c.list.Spare node
    let list ← list.PushFrontNode node
    let n ← list.load node
    some (some n.data.2, { c with list := list })

/-- `const Value *LRUCache::Get(const Key &) const`: casts constness away and
calls the mutable form. -/
def GetConst (c : LRUCache K V) (key : K) : Option (Option V × LRUCache K V) :=
  c.Get key

/-- `LRUCache::Evict()`. -/
def Evict (c : LRUCache K V) : Option (LRUCache K V) :=
  if c.list.size = 0 then some c
  else do
    let node := c.list.tail
    let n ← c.list.load node
    let map := mapErase c.map n.data.1
    let list ← c.list.PopBack
    some { list := list, map := map }

/-- `LRUCache::Evict(const Key &)`. -/
def EvictKey (c : LRUCache K V) (key : K) : Option (LRUCache K V) :=
  match mapFind c.map key with
  | none => some c
  | some node => do
    let map := mapErase c.map key
    let list ← c.list.Delete node
    some { list := list, map := map }

/-- The recency sequence: the entries from `head->next` to the tail. -/
def entries (c : LRUCache K V) : List (K × V) := c.list.toList

/-- The keys of the index. -/
def keys (c : LRUCache K V) : List K := c.map.map Prod.fst

end LRUCache

/-- One call of the public interface of `LRUCache`. -/
inductive Op (K V : Type) where
  | put (key : K) (value : V)
  | tryPut (key : K) (value : V)
  | get (key : K)
  | evict
  | evictKey (key : K)

namespace LRUCache

variable {K V : Type} [DecidableEq K]

/-- The state after one call. -/
def step (c : LRUCache K V) : Op K V → Option (LRUCache K V)
  | .put k v => c.Put k v
  | .tryPut k v => (c.TryPut k v).map Prod.snd
  | .get k => (c.Get k).map Prod.snd
  | .evict => c.Evict
  | .evictKey k => c.EvictKey k

/-- The state after a sequence of calls. -/
def run (c : LRUCache K V) : List (Op K V) → Option (LRUCache K V)
  | [] => some c
  | o :: os => (c.step o).bind (fun c1 => run c1 os)

/-- States reachable from the empty cache. -/
def Reachable [Inhabited K] [Inhabited V] (c : LRUCache K V) : Prop :=
  ∃ ops : List (Op K V), run LRUCache.new ops = some c

end LRUCache

/-! ## The time wheel and the timed cache -/

/-- `template <typename T, size_t SlotNum, template <typename> typename Container>
struct TimeWheel`, with `std::vector` as the container. -/
structure TimeWheel (T : Type) (SlotNum : Nat) where
  slots : List (List T)
  times : Nat
  stop : Bool

namespace TimeWheel

variable {T : Type} {SlotNum : Nat}

/-- `TimeWheel::TimeWheel()`. -/
def new : TimeWheel T SlotNum :=
  { slots := List.replicate SlotNum [], times := 0, stop := false }

/-- `TimeWheel::Stop`. -/
def Stop (w : TimeWheel T SlotNum) : TimeWheel T SlotNum :=
  { w with stop := true }

/-- `TimeWheel::AddTask`. The index is computed on `size_t`; a remainder by
`SlotNum = 0` and an index outside `slots` are undefined behaviour. -/
def AddTask (w : TimeWheel T SlotNum) (task : T) (interval : Nat) :
    Option (TimeWheel T SlotNum) :=
  if interval > SlotNum then some w
  else if SlotNum = 0 then none
  else
    let slot_index := (w.times + interval + (WORD - 1)) % WORD % SlotNum
    match w.slots.get? slot_index with
    | none => none
    | some slot => some { w with slots := w.slots.set slot_index (slot ++ [task]) }

/-- The loop `for (auto &task : slot) task.Evict()`, where `fire` is the
effect of `task.Evict()` on the state `σ` the tasks refer to. -/
def fireAll {σ : Type} (fire : T → σ → Option σ) : List T → σ → Option σ
  | [], s => some s
  | task :: rest, s => (fire task s).bind (fireAll fire rest)

/-- The body of one iteration of the loop of `TimeWheel::Start`, after the
`sleep(1)`: fire the tasks of the current slot, clear it, increment `times`. -/
def tick {σ : Type} (fire : T → σ → Option σ) (w : TimeWheel T SlotNum) (s : σ) :
    Option (TimeWheel T SlotNum × σ) :=
  if SlotNum = 0 then none
  else
    match w.slots.get? (w.times % SlotNum) with
    | none => none
    | some slot => do
      let s ← fireAll fire slot s
      some ({ w with slots := w.slots.set (w.times % SlotNum) [], times := (w.times + 1) % WORD }, s)

end TimeWheel

/-- `TimeLRUCache::TimerTask`; its `cache` member always points to the cache
that owns the wheel, so only the key is kept. -/
structure TimerTask (K : Type) where
  key : K
deriving DecidableEq

/-- `template <typename Key, typename Value, size_t SlotNum> struct
TimeLRUCache`. The mutex plays no role in the sequential embedding; `Shared`
adds its holder. -/
structure TimeLRUCache (K V : Type) (SlotNum : Nat) where
  cache : LRUCache K V
  timeWheel : TimeWheel (TimerTask K) SlotNum

namespace TimeLRUCache

variable {K V : Type} [DecidableEq K] {SlotNum : Nat}

/-- The timed cache as constructed by default. -/
def new [Inhabited K] [Inhabited V] : TimeLRUCache K V SlotNum :=
  { cache := LRUCache.new, timeWheel := TimeWheel.new }

/-- `TimeLRUCache::Size`. -/
def Size (s : TimeLRUCache K V SlotNum) : Nat := s.cache.Size

/-- `TimeLRUCache::Stop`. -/
def Stop (s : TimeLRUCache K V SlotNum) : TimeLRUCache K V SlotNum :=
  { s with timeWheel := s.timeWheel.Stop }

/-- `TimeLRUCache::Put`. -/
def Put (s : TimeLRUCache K V SlotNum) (key : K) (value : V) (interval : Nat) :
    Option (TimeLRUCache K V SlotNum) := do
  let cache ← s.cache.Put key value
  let timeWheel ← s.timeWheel.AddTask ⟨key⟩ interval
  some { cache := cache, timeWheel := timeWheel }

/-- `TimeLRUCache::TryPut`. -/
def TryPut (s : TimeLRUCache K V SlotNum) (key : K) (value : V) (interval : Nat) :
    Option (Bool × TimeLRUCache K V SlotNum) := do
  let (res, cache) ← s.cache.TryPut key value
  let timeWheel ← s.timeWheel.AddTask ⟨key⟩ interval
  some (res, { cache := cache, timeWheel := timeWheel })

/-- `Value *TimeLRUCache::Get(const Key &)`. -/
def Get (s : TimeLRUCache K V SlotNum) (key : K) :
    Option (Option V × TimeLRUCache K V SlotNum) := do
  let (res, cache) ← s.cache.Get key
  some (res, { s with cache := cache })

/-- `const Value *TimeLRUCache::Get(const Key &) const`. -/
def GetConst (s : TimeLRUCache K V SlotNum) (key : K) :
    Option (Option V × TimeLRUCache K V SlotNum) := do
  let (res, cache) ← s.cache.GetConst key
  some (res, { s with cache := cache })

/-- `TimeLRUCache::Evict()`. -/
def Evict (s : TimeLRUCache K V SlotNum) : Option (TimeLRUCache K V SlotNum) := do
  let cache ← s.cache.Evict
  some { s with cache := cache }

/-- `TimeLRUCache::Evict(const Key &)`. -/
def EvictKey (s : TimeLRUCache K V SlotNum) (key : K) : Option (TimeLRUCache K V SlotNum) := do
  let cache ← s.cache.EvictKey key
  some { s with cache := cache }

/-- `TimerTask::Evict`, as it acts on the cache the task points to. The wheel
belongs to the same object but `Evict(const Key &)` leaves it alone, so the
effect is given on the `LRUCache` member. -/
def fire (task : TimerTask K) (c : LRUCache K V) : Option (LRUCache K V) :=
  c.EvictKey task.key

/-- One tick: one iteration of the loop of `TimeLRUCache::Start`. -/
def tick (s : TimeLRUCache K V SlotNum) : Option (TimeLRUCache K V SlotNum) := do
  let (timeWheel, cache) ← s.timeWheel.tick fire s.cache
  some { cache := cache, timeWheel := timeWheel }

/-- The state after `n` consecutive ticks. -/
def ticks (s : TimeLRUCache K V SlotNum) : Nat → Option (TimeLRUCache K V SlotNum)
  | 0 => some s
  | n + 1 => s.tick.bind (fun s1 => ticks s1 n)

/-- The wheel holds no pending task for `key`. -/
def NoPending (s : TimeLRUCache K V SlotNum) (key : K) : Prop :=
  ∀ slot ∈ s.timeWheel.slots, ∀ task ∈ slot, task.key ≠ key

end TimeLRUCache

/-- One call of the public interface of `TimeLRUCache`, or one tick of its
wheel. -/
inductive TOp (K V : Type) where
  | put (key : K) (value : V) (interval : Nat)
  | tryPut (key : K) (value : V) (interval : Nat)
  | get (key : K)
  | evict
  | evictKey (key : K)
  | tick

namespace TimeLRUCache

variable {K V : Type} [DecidableEq K] {SlotNum : Nat}

/-- The state after one call or tick. -/
def step (s : TimeLRUCache K V SlotNum) : TOp K V → Option (TimeLRUCache K V SlotNum)
  | .put k v i => s.Put k v i
  | .tryPut k v i => (s.TryPut k v i).map Prod.snd
  | .get k => (s.Get k).map Prod.snd
  | .evict => s.Evict
  | .evictKey k => s.EvictKey k
  | .tick => s.tick

/-- The state after a sequence of calls and ticks. -/
def run (s : TimeLRUCache K V SlotNum) : List (TOp K V) → Option (TimeLRUCache K V SlotNum)
  | [] => some s
  | o :: os => (s.step o).bind (fun s1 => run s1 os)

/-- States reachable from the empty timed cache. -/
def Reachable [Inhabited K] [Inhabited V] (s : TimeLRUCache K V SlotNum) : Prop :=
  ∃ ops : List (TOp K V), run TimeLRUCache.new ops = some s

end TimeLRUCache

/-! ## The shape of a well-formed list -/

/-- Address of the first cell of `cells`, `dflt` when there is none. -/
def firstAddr {T : Type} (cells : List (Nat × T)) (dflt : Ptr) : Ptr :=
  match cells with
  | [] => dflt
  | c :: _ => some c.1

/-- Address of the last cell of `cells`, `dflt` when there is none. -/
def lastAddr {T : Type} (cells : List (Nat × T)) (dflt : Ptr) : Ptr :=
  match cells with
  | [] => dflt
  | c :: rest => lastAddr rest (some c.1)

/-- The store holds the doubly linked segment `cells` (address and data of
each node, in `next` order): the first node's `prev` is `prv`, the last
node's `next` is `nxt`. -/
def Seg {T : Type} (mem : Nat → Option (LinkNode T)) : Ptr → List (Nat × T) → Ptr → Prop
  | _, [], _ => True
  | prv, c :: rest, nxt =>
    mem c.1 = some ⟨c.2, prv, firstAddr rest nxt⟩ ∧ Seg mem (some c.1) rest nxt

/-- Well-formedness of a list whose sentinel is at `h` with data `hd` and
whose real nodes are `cells`, from `head->next` to `tail`. -/
structure LinkList.Wf {T : Type} (l : LinkList T) (h : Nat) (hd : T)
    (cells : List (Nat × T)) : Prop where
  head_eq : l.head = some h
  seg : Seg l.mem none ((h, hd) :: cells) none
  nodup : (h :: cells.map Prod.fst).Nodup
  tail_eq : l.tail = lastAddr cells (some h)
  size_eq : l.size = cells.length
  bound : ∀ a ∈ h :: cells.map Prod.fst, a < l.brk

/-- The address and the key of each node. -/
def addrKeys {K V : Type} (cells : List (Nat × (K × V))) : List (Nat × K) :=
  cells.map (fun e => (e.1, e.2.1))

/-- Index/list consistency of a cache: the list is well formed, its nodes
hold pairwise distinct keys, and the index maps exactly the keys of the
nodes, each to the node that holds it. -/
structure LRUCache.InvAt {K V : Type} [DecidableEq K] (c : LRUCache K V) (h : Nat)
    (hd : K × V) (cells : List (Nat × (K × V))) : Prop where
  wf : c.list.Wf h hd cells
  keys_nodup : (cells.map (fun e => e.2.1)).Nodup
  map_nodup : (c.map.map Prod.fst).Nodup
  map_iff : ∀ k p, (k, p) ∈ c.map ↔ ∃ a, p = some a ∧ (a, k) ∈ addrKeys cells

/-- The cache invariant. -/
def LRUCache.Inv {K V : Type} [DecidableEq K] (c : LRUCache K V) : Prop :=
  ∃ h hd cells, c.InvAt h hd cells

/-- The cache after `Put(1, 10); Put(2, 20)`. -/
def cacheTwo : LRUCache Nat Nat :=
  ((LRUCache.new : LRUCache Nat Nat).run [.put 1 10, .put 2 20]).getD LRUCache.new

/-- The cache of the LRU scenario: `Put` of 1, 2, 3, then `Get(1)`, then
`Put` of 4. -/
def cacheScenario : LRUCache Nat Nat :=
  ((LRUCache.new : LRUCache Nat Nat).run
    [.put 1 10, .put 2 20, .put 3 30, .get 1, .put 4 40]).getD LRUCache.new

/-- The key `Evict()` erases from the index: the key stored in the tail node
when the list is not empty. -/
def LRUCache.victim {K V : Type} (c : LRUCache K V) : Option K :=
  if c.list.size = 0 then none else (c.list.load c.list.tail).map (fun n => n.data.1)

/-- The keys inserted and not evicted since, after one more call `o` made in
state `c`, given those before the call. -/
def LRUCache.liveAfter {K V : Type} [DecidableEq K] (c : LRUCache K V) (live : List K) :
    Op K V → List K
  | .put k _ => if k ∈ live then live else k :: live
  | .tryPut k _ => if k ∈ live then live else k :: live
  | .get _ => live
  | .evict =>
    match c.victim with
    | none => live
    | some k => live.erase k
  | .evictKey k => live.erase k

/-- The keys inserted and not evicted since, after the calls `ops` made from
state `c`, given those before the calls. -/
def LRUCache.liveKeys {K V : Type} [DecidableEq K] (c : LRUCache K V) (live : List K) :
    List (Op K V) → List K
  | [] => live
  | o :: os =>
    match c.step o with
    | none => live
    | some c2 => liveKeys c2 (c.liveAfter live o) os

/-- Invariant of the timed cache: the embedded cache is consistent, the wheel
has `SlotNum` slots and `times` is a machine word. -/
def TimeLRUCache.WInv {K V : Type} [DecidableEq K] {SlotNum : Nat}
    (s : TimeLRUCache K V SlotNum) : Prop :=
  s.cache.Inv ∧ s.timeWheel.slots.length = SlotNum ∧ s.timeWheel.times < WORD

/-- The timed cache with ten slots after `Put("a", "x", 2)`. -/
def timedOne : TimeLRUCache String String 10 :=
  ((TimeLRUCache.new : TimeLRUCache String String 10).run [.put "a" "x" 2]).getD
    TimeLRUCache.new

/-- An idle timed cache with ten slots whose tick counter holds the largest
`size_t` value. -/
def timedWrap : TimeLRUCache Nat Nat 10 :=
  { cache := LRUCache.new
    timeWheel := { slots := List.replicate 10 [], times := WORD - 1, stop := false } }

/-- The timed cache that holds cache `c` and an idle wheel (all slots empty)
whose tick counter is `T`. -/
def TimeLRUCache.idle {K V : Type} {SlotNum : Nat} (c : LRUCache K V) (T : Nat) :
    TimeLRUCache K V SlotNum :=
  { cache := c, timeWheel := { slots := List.replicate SlotNum [], times := T, stop := false } }

/-- The cache with string keys after `Put("a", "x")`. -/
def cacheStr : LRUCache String String :=
  ((LRUCache.new : LRUCache String String).run [.put "a" "x"]).getD LRUCache.new

/-- The timed cache with ten slots after `Put("key1", "value1", 10)`. -/
def timedKey1 : TimeLRUCache String String 10 :=
  ((TimeLRUCache.new : TimeLRUCache String String 10).run [.put "key1" "value1" 10]).getD
    TimeLRUCache.new

/-- A task whose `Evict()` does nothing but record, in a log, that it was
fired. -/
def TimeWheel.record {T : Type} (task : T) (log : List T) : Option (List T) :=
  some (log ++ [task])

/-- The wheel and the log after `n` consecutive ticks of a wheel of recording
tasks. -/
def TimeWheel.ticksLog {T : Type} {SlotNum : Nat} (w : TimeWheel T SlotNum) (log : List T) :
    Nat → Option (TimeWheel T SlotNum × List T)
  | 0 => some (w, log)
  | n + 1 => (w.tick TimeWheel.record log).bind (fun r => ticksLog r.1 r.2 n)

/-- The idle wheel with ten slots whose tick counter holds the largest
`size_t` value. -/
def wheelWrap : TimeWheel Nat 10 :=
  { slots := List.replicate 10 [], times := WORD - 1, stop := false }

/-- The addresses of the nodes met from `p` by following `next` until it is
null; `none` when a pointer dangles or more than `fuel` nodes are met. -/
def LinkList.chain {T : Type} (mem : Nat → Option (LinkNode T)) : Nat → Ptr → Option (List Nat)
  | _, none => some []
  | 0, some _ => none
  | fuel + 1, some a =>
    match mem a with
    | none => none
    | some n => (chain mem fuel n.next).map (fun rest => a :: rest)

/-- The real (non-sentinel) nodes in list order: those met from `head->next`.
Every live address is below `brk`, which therefore bounds the walk. -/
def LinkList.nodes {T : Type} (l : LinkList T) : Option (List Nat) :=
  match l.load l.head with
  | none => none
  | some h => LinkList.chain l.mem l.brk h.next

/-- The structural invariant of the recency list as the specification words
it: following `next` from `head`, exactly `size` real nodes are met before
`next` is null; the last node met is `tail`, which is `head` exactly when
`size` is 0; `head->prev` is null; every real node `n` has `n->prev->next == n`. -/
def LinkList.Structural {T : Type} (l : LinkList T) : Prop :=
  ∃ h hn ns, l.head = some h ∧ l.mem h = some hn ∧ hn.prev = none ∧
    l.nodes = some ns ∧ ns.length = l.size ∧
    l.tail = (h :: ns).getLast? ∧ (l.tail = l.head ↔ l.size = 0) ∧
    ∀ a ∈ ns, ∃ n p pn, l.mem a = some n ∧ n.prev = some p ∧ l.mem p = some pn ∧
      pn.next = some a

/-- One call of a member function of `LinkList`; `promote` is `Spare(node)`
followed by `PushFront(node)`, as `LRUCache::Get` does. -/
inductive LOp (T : Type) where
  | pushFront (data : T)
  | pushBack (data : T)
  | spare (node : Nat)
  | delete (node : Nat)
  | popBack
  | promote (node : Nat)

/-- Whether the node at address `a` is a real node linked in the list. -/
def LinkList.linked {T : Type} (l : LinkList T) (a : Nat) : Bool :=
  match l.nodes with
  | none => false
  | some ns => decide (a ∈ ns)

/-- Whether a call is made on a node it may be made on: `Spare`, `Delete` and
the promotion take a linked real node. -/
def LinkList.admits {T : Type} (l : LinkList T) : LOp T → Bool
  | .spare a => l.linked a
  | .delete a => l.linked a
  | .promote a => l.linked a
  | _ => true

/-- The list after one call. -/
def LinkList.perform {T : Type} (l : LinkList T) : LOp T → Option (LinkList T)
  | .pushFront d => l.PushFront d
  | .pushBack d => l.PushBack d
  | .spare a => l.Spare (some a)
  | .delete a => l.Delete (some a)
  | .popBack => l.PopBack
  | .promote a => (l.Spare (some a)).bind (fun l1 => l1.PushFrontNode (some a))

/-- The list after a sequence of calls, each made on a node it may be made
on. -/
def LinkList.performAll {T : Type} (l : LinkList T) : List (LOp T) → Option (LinkList T)
  | [] => some l
  | o :: os => if l.admits o then (l.perform o).bind (fun l1 => performAll l1 os) else none

/-- Lists built from the empty list by such calls. -/
def LinkList.Built {T : Type} [Inhabited T] (l : LinkList T) : Prop :=
  ∃ ops : List (LOp T), LinkList.performAll LinkList.new ops = some l

/-- The list after `PushFront(1); PushBack(2)`: the nodes are at the addresses
2 and 3, in this order. -/
def listTwo : LinkList Nat :=
  ((LinkList.new : LinkList Nat).performAll [.pushFront 1, .pushBack 2]).getD LinkList.new

/-- The node a call of the cache hands to `Spare` or `Delete` (directly, or as
the tail through `PopBack`), if the call gets that far. -/
def LRUCache.detaches {K V : Type} [DecidableEq K] (c : LRUCache K V) : Op K V → Option Ptr
  | .put _ _ => none
  | .tryPut _ _ => none
  | .get k => LRUCache.mapFind c.map k
  | .evict => if c.list.size = 0 then none else some c.list.tail
  | .evictKey k => LRUCache.mapFind c.map k

/-- `TimeWheel::Start`. The loop tests the flag `stop` before each iteration
and runs one tick per iteration (the `sleep(1)` has no effect on the state).
The flag is set by `Stop()` from another thread: the list gives, for the
iterations to come, whether such a call arrives while that iteration is under
way. The result holds the wheel, the state the tasks act on, and whether
`Start` has returned; `false` says that the list ended with the loop still
running. -/
def TimeWheel.Start {T σ : Type} {SlotNum : Nat} (fire : T → σ → Option σ) :
    TimeWheel T SlotNum → σ → List Bool → Option (TimeWheel T SlotNum × σ × Bool)
  | w, s, [] => some (w, s, w.stop)
  | w, s, e :: env =>
    if w.stop then some (w, s, true)
    else (w.tick fire s).bind
      (fun r => TimeWheel.Start fire (if e then r.1.Stop else r.1) r.2 env)

/-- `TimeLRUCache::Start`: runs the loop of the wheel, whose tasks act on the
cache. The result holds the state and whether `Start` has returned. -/
def TimeLRUCache.Start {K V : Type} [DecidableEq K] {SlotNum : Nat}
    (s : TimeLRUCache K V SlotNum) (env : List Bool) :
    Option (TimeLRUCache K V SlotNum × Bool) :=
  (s.timeWheel.Start TimeLRUCache.fire s.cache env).map
    (fun r => ({ cache := r.2.1, timeWheel := r.1 }, r.2.2))

/-- One atomic step of a thread that works on a timed cache. The steps `lock`
and `unlock` are the constructor and the destructor of the
`std::scoped_lock` on `mutex`; the others are the statements of the member
functions of `TimeLRUCache` and of the loop body of `TimeWheel::Start`. -/
inductive Act (K V : Type) where
  | lock
  | unlock
  | cachePut (key : K) (value : V)
  | cacheTryPut (key : K) (value : V)
  | cacheGet (key : K)
  | cacheEvict
  | cacheEvictKey (key : K)
  | cacheSize
  | addTask (key : K) (interval : Nat)
  | readSlot
  | clearSlot
  | incTimes
deriving DecidableEq

/-- Whether a step reads or writes the recency list, the index, the slots or
`times`. -/
def Act.shared {K V : Type} : Act K V → Bool
  | .lock => false
  | .unlock => false
  | _ => true

/-- The steps of `TimeLRUCache::Size`. -/
def TimeLRUCache.SizeSteps {K V : Type} : List (Act K V) :=
  [.lock, .cacheSize, .unlock]

/-- The steps of `TimeLRUCache::Put`. -/
def TimeLRUCache.PutSteps {K V : Type} (key : K) (value : V) (interval : Nat) : List (Act K V) :=
  [.lock, .cachePut key value, .addTask key interval, .unlock]

/-- The steps of `TimeLRUCache::TryPut`. -/
def TimeLRUCache.TryPutSteps {K V : Type} (key : K) (value : V) (interval : Nat) :
    List (Act K V) :=
  [.lock, .cacheTryPut key value, .addTask key interval, .unlock]

/-- The steps of `TimeLRUCache::Get` (either overload). -/
def TimeLRUCache.GetSteps {K V : Type} (key : K) : List (Act K V) :=
  [.lock, .cacheGet key, .unlock]

/-- The steps of `TimeLRUCache::Evict()`. -/
def TimeLRUCache.EvictSteps {K V : Type} : List (Act K V) :=
  [.lock, .cacheEvict, .unlock]

/-- The steps of `TimeLRUCache::Evict(const Key &)`. -/
def TimeLRUCache.EvictKeySteps {K V : Type} (key : K) : List (Act K V) :=
  [.lock, .cacheEvictKey key, .unlock]

/-- The steps of `for (auto &task : slot) task.Evict()`: `TimerTask::Evict`
calls `cache->Evict(key)`. -/
def TimeLRUCache.fireSteps {K V : Type} : List (TimerTask K) → List (Act K V)
  | [] => []
  | task :: rest => TimeLRUCache.EvictKeySteps task.key ++ fireSteps rest

/-- The steps of one iteration of the loop of `TimeWheel::Start`, after the
`sleep(1)`, when `slots.at(times % SlotNum)` is read as `slot`: the loop body
takes no lock of its own. -/
def TimeLRUCache.StartIterSteps {K V : Type} (slot : List (TimerTask K)) : List (Act K V) :=
  .readSlot :: (TimeLRUCache.fireSteps slot ++ [.clearSlot, .incTimes])

/-- Whether every step of a thread that touches the shared state stands
between a `lock` and the following `unlock`; `held` tells whether the lock is
held at the start. -/
def guardedSteps {K V : Type} : Bool → List (Act K V) → Bool
  | _, [] => true
  | _, .lock :: rest => guardedSteps true rest
  | _, .unlock :: rest => guardedSteps false rest
  | held, _ :: rest => held && guardedSteps held rest

/-- A timed cache shared by threads: the data, and the thread that holds
`mutex`, if any. -/
structure Shared (K V : Type) (SlotNum : Nat) where
  data : TimeLRUCache K V SlotNum
  owner : Option Nat

/-- The effect of one step made by thread `t`. A `lock` is possible only while
no thread holds the mutex, an `unlock` only for the holder; the other steps
act on the data as the statement does, whoever holds the mutex. The result is
`none` when the step is not possible or its behaviour is undefined. -/
def Shared.exec {K V : Type} [DecidableEq K] {SlotNum : Nat} (st : Shared K V SlotNum)
    (t : Nat) : Act K V → Option (Shared K V SlotNum)
  | .lock => if st.owner = none then some { st with owner := some t } else none
  | .unlock => if st.owner = some t then some { st with owner := none } else none
  | .cachePut k v =>
    (st.data.cache.Put k v).map (fun c => { st with data := { st.data with cache := c } })
  | .cacheTryPut k v =>
    (st.data.cache.TryPut k v).map (fun r => { st with data := { st.data with cache := r.2 } })
  | .cacheGet k =>
    (st.data.cache.Get k).map (fun r => { st with data := { st.data with cache := r.2 } })
  | .cacheEvict =>
    st.data.cache.Evict.map (fun c => { st with data := { st.data with cache := c } })
  | .cacheEvictKey k =>
    (st.data.cache.EvictKey k).map (fun c => { st with data := { st.data with cache := c } })
  | .cacheSize => some st
  | .addTask k i =>
    (st.data.timeWheel.AddTask ⟨k⟩ i).map
      (fun w => { st with data := { st.data with timeWheel := w } })
  | .readSlot =>
    if SlotNum = 0 then none
    else (st.data.timeWheel.slots.get? (st.data.timeWheel.times % SlotNum)).map (fun _ => st)
  | .clearSlot =>
    if SlotNum = 0 then none
    else (st.data.timeWheel.slots.get? (st.data.timeWheel.times % SlotNum)).map
      (fun _ => { st with data := { st.data with timeWheel := { st.data.timeWheel with
        slots := st.data.timeWheel.slots.set (st.data.timeWheel.times % SlotNum) [] } } })
  | .incTimes =>
    some { st with data := { st.data with timeWheel := { st.data.timeWheel with
      times := (st.data.timeWheel.times + 1) % WORD } } }

/-- Run a schedule, a sequence of steps each made by a named thread. The
result holds the final state and the steps that touched the shared state
while their thread did not hold the mutex. -/
def Shared.runSchedule {K V : Type} [DecidableEq K] {SlotNum : Nat} (st : Shared K V SlotNum) :
    List (Nat × Act K V) → Option (Shared K V SlotNum × List (Nat × Act K V))
  | [] => some (st, [])
  | e :: rest =>
    (st.exec e.1 e.2).bind (fun st1 =>
      (runSchedule st1 rest).map (fun r =>
        (r.1, if e.2.shared && !decide (st.owner = some e.1) then e :: r.2 else r.2)))

/-- The steps a schedule gives to thread `t`, in order. -/
def stepsOf {K V : Type} (sched : List (Nat × Act K V)) (t : Nat) : List (Act K V) :=
  (sched.filter (fun e => decide (e.1 = t))).map Prod.snd

/-- A schedule of two threads on a fresh timed cache with ten slots: thread 0
runs one iteration of the loop of `Start`, thread 1 runs `Put("k", "v", 1)`
after the loop over the current slot and before the slot is cleared. -/
def raceSchedule : List (Nat × Act String String) :=
  [(0, .readSlot), (1, .lock), (1, .cachePut "k" "v"), (1, .addTask "k" 1), (1, .unlock),
    (0, .clearSlot), (0, .incTimes)]

/-- The timed cache that `raceSchedule` leaves behind. -/
def timedRace : TimeLRUCache String String 10 :=
  (((⟨TimeLRUCache.new, none⟩ : Shared String String 10).runSchedule raceSchedule).map
    (fun r => r.1.data)).getD TimeLRUCache.new

/-- The idle wheel with ten slots whose tick counter is six below the wrap of
`size_t`: the state after `2 ^ 64 - 6` ticks of the empty wheel. -/
def wheelLate : TimeWheel Nat 10 :=
  { slots := List.replicate 10 [], times := WORD - 6, stop := false }

/-- Wheel `w1` is wheel `w` with one more `task` at the end of slot `idx`:
same counter, same flag, same slots elsewhere. -/
def TimeWheel.OneMore {T : Type} {SlotNum : Nat} (w w1 : TimeWheel T SlotNum) (idx : Nat)
    (task : T) : Prop :=
  w1.times = w.times ∧ w1.stop = w.stop ∧
    ∃ slot, w.slots[idx]? = some slot ∧ w1.slots = w.slots.set idx (slot ++ [task])

/-- The wheel with ten slots after `AddTask(42, 2)`: the task 42 is pending in
slot 1. -/
def wheelPending : TimeWheel Nat 10 :=
  ((TimeWheel.new : TimeWheel Nat 10).AddTask 42 2).getD TimeWheel.new

/-! ## Lemmas on segments -/

section SegLemmas

variable {T : Type}

theorem LinkList.upd_same (mem : Nat → Option (LinkNode T)) (a : Nat) (c : Option (LinkNode T)) :
    LinkList.upd mem a c a = c := by
  simp [LinkList.upd]

theorem LinkList.upd_ne (mem : Nat → Option (LinkNode T)) (a b : Nat) (c : Option (LinkNode T))
    (hne : b ≠ a) : LinkList.upd mem a c b = mem b := by
  simp [LinkList.upd, hne]

theorem Seg_nil (mem : Nat → Option (LinkNode T)) (prv nxt : Ptr) :
    Seg mem prv [] nxt ↔ True := Iff.rfl

theorem Seg_cons (mem : Nat → Option (LinkNode T)) (prv nxt : Ptr) (c : Nat × T)
    (rest : List (Nat × T)) :
    Seg mem prv (c :: rest) nxt ↔
      mem c.1 = some ⟨c.2, prv, firstAddr rest nxt⟩ ∧ Seg mem (some c.1) rest nxt := Iff.rfl

theorem lastAddr_append (xs ys : List (Nat × T)) (d : Ptr) :
    lastAddr (xs ++ ys) d = lastAddr ys (lastAddr xs d) := by
  induction xs generalizing d with
  | nil => rfl
  | cons x xs ih => simp [lastAddr, ih]

theorem firstAddr_append (xs ys : List (Nat × T)) (d : Ptr) :
    firstAddr (xs ++ ys) d = firstAddr xs (firstAddr ys d) := by
  cases xs <;> rfl

theorem Seg_append (mem : Nat → Option (LinkNode T)) (xs ys : List (Nat × T)) (prv nxt : Ptr) :
    Seg mem prv (xs ++ ys) nxt ↔
      Seg mem prv xs (firstAddr ys nxt) ∧ Seg mem (lastAddr xs prv) ys nxt := by
  induction xs generalizing prv with
  | nil => simp [Seg, lastAddr]
  | cons x xs ih =>
    have h := ih (some x.1)
    have hf := firstAddr_append xs ys nxt
    simp only [List.cons_append, Seg, lastAddr, List.append_eq, h, hf, and_assoc]

theorem Seg_frame (mem mem2 : Nat → Option (LinkNode T)) (xs : List (Nat × T)) (prv nxt : Ptr)
    (hfr : ∀ a ∈ xs.map Prod.fst, mem2 a = mem a) :
    Seg mem2 prv xs nxt ↔ Seg mem prv xs nxt := by
  induction xs generalizing prv with
  | nil => simp [Seg]
  | cons x xs ih =>
    have h1 : mem2 x.1 = mem x.1 := hfr _ (by simp)
    have h2 := ih (some x.1) (fun a ha => hfr a (by simp at ha ⊢; exact Or.inr ha))
    simp only [Seg, h1, h2]

theorem lastAddr_mem (xs : List (Nat × T)) (d : Nat) :
    ∃ a, lastAddr xs (some d) = some a ∧ (a = d ∨ a ∈ xs.map Prod.fst) := by
  induction xs generalizing d with
  | nil => exact ⟨d, rfl, Or.inl rfl⟩
  | cons x xs ih =>
    obtain ⟨a, h1, h2⟩ := ih x.1
    refine ⟨a, h1, Or.inr ?_⟩
    rcases h2 with h2 | h2
    · simp [h2]
    · simp at h2 ⊢; exact Or.inr h2

theorem lastAddr_eq_default_iff (xs : List (Nat × T)) (d : Nat)
    (hnd : (d :: xs.map Prod.fst).Nodup) : lastAddr xs (some d) = some d ↔ xs = [] := by
  cases xs with
  | nil => simp [lastAddr]
  | cons x xs =>
    simp only [lastAddr, reduceCtorEq, iff_false]
    obtain ⟨a, h1, h2⟩ := lastAddr_mem xs x.1
    rw [h1]
    simp only [List.map_cons, List.nodup_cons, List.mem_cons, not_or] at hnd
    intro h
    injection h with h
    subst h
    rcases h2 with h2 | h2
    · exact hnd.1.1 h2
    · exact hnd.1.2 h2

/-! ## The list operations preserve well-formedness -/

open LinkList

theorem Seg_upd_frame (mem : Nat → Option (LinkNode T)) (xs : List (Nat × T)) (prv nxt : Ptr)
    (a : Nat) (c : Option (LinkNode T)) (ha : a ∉ xs.map Prod.fst) :
    Seg (upd mem a c) prv xs nxt ↔ Seg mem prv xs nxt := by
  apply Seg_frame
  intro x hx
  exact upd_ne _ _ _ _ (fun e => ha (e ▸ hx))

theorem Seg_setNext (mem : Nat → Option (LinkNode T)) (xs : List (Nat × T)) (prv nxt nxt2 : Ptr)
    (hseg : Seg mem prv xs nxt) (hnd : (xs.map Prod.fst).Nodup) (hne : xs ≠ []) :
    ∃ t n, lastAddr xs prv = some t ∧ mem t = some n ∧ n.next = nxt ∧ t ∈ xs.map Prod.fst ∧
      Seg (upd mem t (some { n with next := nxt2 })) prv xs nxt2 := by
  induction xs generalizing prv with
  | nil => exact absurd rfl hne
  | cons c rest ih =>
    rw [Seg_cons] at hseg
    simp only [List.map_cons, List.nodup_cons] at hnd
    cases rest with
    | nil =>
      refine ⟨c.1, _, rfl, hseg.1, rfl, by simp, ?_⟩
      simp [Seg_cons, Seg_nil, firstAddr, upd_same]
    | cons c2 rest =>
      obtain ⟨t, n, h1, h2, h3, h4, h5⟩ := ih (some c.1) hseg.2 hnd.2 (by simp)
      have hct : c.1 ≠ t := fun e => hnd.1 (e ▸ h4)
      refine ⟨t, n, h1, h2, h3, List.mem_cons_of_mem _ h4, ?_⟩
      rw [Seg_cons]
      refine ⟨?_, h5⟩
      rw [upd_ne _ _ _ _ hct, hseg.1]
      rfl

theorem Seg_alloc (mem : Nat → Option (LinkNode T)) (xs : List (Nat × T)) (prv nxt : Ptr)
    (hseg : Seg mem prv xs nxt) : ∀ a ∈ xs.map Prod.fst, ∃ n, mem a = some n := by
  induction xs generalizing prv with
  | nil => simp
  | cons c rest ih =>
    rw [Seg_cons] at hseg
    intro a ha
    simp only [List.map_cons, List.mem_cons] at ha
    rcases ha with rfl | ha
    · exact ⟨_, hseg.1⟩
    · exact ih _ hseg.2 a ha

theorem LinkList.store_eq (l : LinkList T) (a : Nat) (n : LinkNode T) (f : LinkNode T → LinkNode T)
    (hn : l.mem a = some n) : l.store (some a) f = some (l.setCell a (some (f n))) := by
  simp [store, hn]

theorem LinkList.alloc_wf (l : LinkList T) (h : Nat) (hd : T) (cells : List (Nat × T)) (d : T)
    (hwf : l.Wf h hd cells) :
    (l.alloc d).1 = some l.brk ∧ (l.alloc d).2.Wf h hd cells ∧
      (l.alloc d).2.mem l.brk = some ⟨d, none, none⟩ ∧ (l.alloc d).2.brk = l.brk + 1 ∧
      l.brk ∉ h :: cells.map Prod.fst := by
  obtain ⟨hhead, hseg, hnd, htail, hsize, hbound⟩ := hwf
  have hfresh : l.brk ∉ h :: cells.map Prod.fst := fun hm => Nat.lt_irrefl _ (hbound _ hm)
  refine ⟨rfl, ⟨hhead, ?_, hnd, htail, hsize, ?_⟩, ?_, rfl, hfresh⟩
  · exact (Seg_upd_frame l.mem ((h, hd) :: cells) none none l.brk _ hfresh).2 hseg
  · intro a ha
    exact Nat.lt_succ_of_lt (hbound a ha)
  · simp [alloc, setCell, upd_same]

theorem LinkList.PushFrontNode_wf (l : LinkList T) (h : Nat) (hd : T) (cells : List (Nat × T))
    (a : Nat) (n : LinkNode T) (hwf : l.Wf h hd cells) (ha : a ∉ h :: cells.map Prod.fst)
    (hlt : a < l.brk) (hn : l.mem a = some n) :
    ∃ l2, l.PushFrontNode (some a) = some l2 ∧ l2.Wf h hd ((a, n.data) :: cells) ∧
      l2.brk = l.brk := by
  obtain ⟨hhead, hseg, hnd, htail, hsize, hbound⟩ := hwf
  have hah : a ≠ h := fun e => ha (by simp [e])
  have htl := lastAddr_eq_default_iff cells h hnd
  cases cells with
  | nil =>
    simp only [Seg_cons, Seg_nil, firstAddr, and_true] at hseg
    simp only [lastAddr] at htail
    simp [PushFrontNode, load, store, setCell, upd, hhead, hseg, hn, hah, hah.symm, htail]
    refine ⟨rfl, ?_, ?_, rfl, by simp [hsize], ?_⟩
    · simp [Seg_cons, Seg_nil, firstAddr, upd, hah, hah.symm]
    · simpa using hah.symm
    · simpa using ⟨hbound h (by simp), hlt⟩
  | cons b rest =>
    simp only [Seg_cons] at hseg
    obtain ⟨hh, hb, hrest⟩ := hseg
    simp only [List.map_cons, List.mem_cons, List.nodup_cons, not_or] at ha hnd hbound
    obtain ⟨⟨hhb, hhr⟩, hbr, hrnd⟩ := hnd
    obtain ⟨-, hab, har⟩ := ha
    have hbh : b.1 ≠ h := Ne.symm hhb
    have hba : b.1 ≠ a := Ne.symm hab
    have htl2 : lastAddr (b :: rest) (some h) ≠ some h := by simp [htl]
    simp only [firstAddr] at hh
    simp [PushFrontNode, load, store, setCell, upd, hhead, hh, hb, hn, hah, hah.symm, htail, hbh,
      hba, hbh.symm, hba.symm, htl2]
    refine ⟨rfl, ?_, ?_, rfl, by simp [hsize], ?_⟩
    · simp only [Seg_cons, firstAddr]
      simp [upd, hah, hah.symm, hbh, hba, hbh.symm, hba.symm]
      refine (Seg_frame l.mem _ _ _ _ ?_).2 hrest
      intro x hx
      have hxa : x ≠ a := by rintro rfl; exact har hx
      have hxh : x ≠ h := by rintro rfl; exact hhr hx
      have hxb : x ≠ b.1 := by rintro rfl; exact hbr hx
      simp [upd, hxa, hxh, hxb]
    · simp only [List.map_cons, List.mem_cons, List.nodup_cons, not_or]
      exact ⟨⟨Ne.symm hah, hhb, hhr⟩, ⟨hab, har⟩, hbr, hrnd⟩
    · intro x hx
      simp only [List.map_cons, List.mem_cons] at hx
      rcases hx with rfl | rfl | hx
      · exact hbound _ (Or.inl rfl)
      · exact hlt
      · exact hbound _ (Or.inr hx)

theorem LinkList.PushFront_wf (l : LinkList T) (h : Nat) (hd : T) (cells : List (Nat × T))
    (d : T) (hwf : l.Wf h hd cells) :
    ∃ l2, l.PushFront d = some l2 ∧ l2.Wf h hd ((l.brk, d) :: cells) ∧ l2.brk = l.brk + 1 := by
  obtain ⟨h1, h2, h3, h4, h5⟩ := l.alloc_wf h hd cells d hwf
  obtain ⟨l2, e1, e2, e3⟩ := (l.alloc d).2.PushFrontNode_wf h hd cells l.brk _ h2 h5
    (by rw [h4]; exact Nat.lt_succ_self _) h3
  refine ⟨l2, ?_, e2, by rw [e3, h4]⟩
  have : l.PushFront d = (l.alloc d).2.PushFrontNode (l.alloc d).1 := rfl
  rw [this, h1, e1]

theorem LinkList.PushBack_wf (l : LinkList T) (h : Nat) (hd : T) (cells : List (Nat × T))
    (d : T) (hwf : l.Wf h hd cells) :
    ∃ l2, l.PushBack d = some l2 ∧ l2.Wf h hd (cells ++ [(l.brk, d)]) ∧ l2.brk = l.brk + 1 ∧
      l2.tail = some l.brk := by
  obtain ⟨hhead, hseg, hnd, htail, hsize, hbound⟩ := hwf
  have hfresh : l.brk ∉ h :: cells.map Prod.fst := fun hm => Nat.lt_irrefl _ (hbound _ hm)
  obtain ⟨t, n, ht1, ht2, ht3, ht4, ht5⟩ :=
    Seg_setNext l.mem ((h, hd) :: cells) none none (some l.brk) hseg hnd (by simp)
  have htb : t ≠ l.brk := fun e => hfresh (e ▸ ht4)
  have ht1b : lastAddr cells (some h) = some t := ht1
  simp [PushBack, alloc, store, setCell, upd, htail, ht1b, ht2, htb, htb.symm]
  refine ⟨hhead, ?_, ?_, ?_, by simp [hsize], ?_⟩
  · have happ : (h, hd) :: (cells ++ [(l.brk, d)]) = ((h, hd) :: cells) ++ [(l.brk, d)] := rfl
    rw [happ, Seg_append]
    constructor
    · refine (Seg_frame _ _ _ _ _ ?_).2 ht5
      intro x hx
      have hxb : x ≠ l.brk := fun e => hfresh (e ▸ hx)
      simp [upd, hxb]
    · rw [ht1]
      simp [Seg_cons, Seg_nil, firstAddr, upd]
  · rw [List.map_append, ← List.cons_append, List.nodup_append]
    refine ⟨hnd, by simp, ?_⟩
    intro x hx hx2
    simp only [List.map_cons, List.map_nil, List.mem_singleton] at hx2
    exact hfresh (hx2 ▸ hx)
  · rw [lastAddr_append]
    rfl
  · intro x hx
    rw [List.map_append, ← List.cons_append, List.mem_append] at hx
    rcases hx with hx | hx
    · exact Nat.lt_succ_of_lt (hbound x hx)
    · simp only [List.map_cons, List.map_nil, List.mem_singleton] at hx
      rw [hx]
      exact Nat.lt_succ_self _

theorem LinkList.Spare_wf (l : LinkList T) (h : Nat) (hd : T) (pre post : List (Nat × T))
    (a : Nat) (d : T) (hwf : l.Wf h hd (pre ++ (a, d) :: post)) :
    ∃ l2, l.Spare (some a) = some l2 ∧ l2.Wf h hd (pre ++ post) ∧ l2.brk = l.brk ∧
      (∃ p n, l2.mem a = some ⟨d, p, n⟩) ∧ a ∉ h :: (pre ++ post).map Prod.fst ∧ a < l.brk := by
  obtain ⟨hhead, hseg, hnd, htail, hsize, hbound⟩ := hwf
  have happ : (h, hd) :: (pre ++ (a, d) :: post) = ((h, hd) :: pre) ++ (a, d) :: post := rfl
  rw [happ, Seg_append] at hseg
  obtain ⟨hseg1, hseg2⟩ := hseg
  have hnd2 : ((h :: pre.map Prod.fst) ++ a :: post.map Prod.fst).Nodup := by
    simpa using hnd
  rw [List.nodup_append] at hnd2
  obtain ⟨hndpre, hndpost, hdisj⟩ := hnd2
  simp only [List.nodup_cons] at hndpost
  obtain ⟨t, n, ht1, ht2, ht3, ht4, ht5⟩ :=
    Seg_setNext l.mem ((h, hd) :: pre) none _ (firstAddr post none) hseg1 hndpre (by simp)
  rw [ht1, Seg_cons] at hseg2
  obtain ⟨hma, hpost⟩ := hseg2
  have hta : t ≠ a := fun e => hdisj ht4 (by simp [e])
  have hapre : a ∉ h :: pre.map Prod.fst := fun hm => hdisj hm (by simp)
  have halt : a < l.brk := hbound a (by simp)
  have hanot : a ∉ h :: (pre ++ post).map Prod.fst := by
    rw [List.map_append, ← List.cons_append, List.mem_append]
    rintro (hm | hm)
    · exact hapre hm
    · exact hndpost.1 hm
  have hsz : l.size ≠ 0 := by simp [hsize]
  have hnd3 : (h :: (pre ++ post).map Prod.fst).Nodup := by
    rw [List.map_append, ← List.cons_append, List.nodup_append]
    exact ⟨hndpre, hndpost.2, fun x hx hx2 => hdisj hx (List.mem_cons_of_mem _ hx2)⟩
  have hbound3 : ∀ x ∈ h :: (pre ++ post).map Prod.fst, x < l.brk := by
    intro x hx
    apply hbound
    rw [List.map_append, ← List.cons_append, List.mem_append] at hx ⊢
    rcases hx with hx | hx
    · exact Or.inl hx
    · exact Or.inr (by simp at hx ⊢; exact Or.inr hx)
  cases post with
  | nil =>
    simp only [firstAddr] at hma ht5
    have hres : l.Spare (some a) = some { l with
        mem := upd l.mem t (some { n with next := none }), tail := some t,
        size := l.size - 1 } := by
      simp [Spare, load, store, setCell, upd, hma, ht2, hta, hta.symm, hsz]
    refine ⟨_, hres, ⟨hhead, ?_, hnd3, ?_, ?_, hbound3⟩, rfl, ?_, hanot, halt⟩
    · simpa using ht5
    · show some t = _
      rw [List.append_nil, ← ht1]; rfl
    · simp [hsize]
    · exact ⟨some t, none, by simp [upd, hta.symm, hma]⟩
  | cons b rest =>
    simp only [firstAddr] at hma ht5
    rw [Seg_cons] at hpost
    obtain ⟨hmb, hrest⟩ := hpost
    simp only [List.map_cons, List.nodup_cons, List.mem_cons, not_or] at hndpost
    obtain ⟨⟨hab, har⟩, hbr, hrnd⟩ := hndpost
    have htb : t ≠ b.1 := fun e => hdisj ht4 (by simp [e])
    have hres : l.Spare (some a) = some { l with
        mem := upd (upd l.mem t (some { n with next := some b.1 })) b.1
          (some ⟨b.2, some t, firstAddr rest none⟩),
        size := l.size - 1 } := by
      simp [Spare, load, store, setCell, upd, hma, hmb, ht2, hta, hta.symm, hsz, htb, htb.symm,
        hab, Ne.symm hab]
    refine ⟨_, hres, ⟨hhead, ?_, hnd3, ?_, ?_, hbound3⟩, rfl, ?_, hanot, halt⟩
    · have happ2 : (h, hd) :: (pre ++ b :: rest) = ((h, hd) :: pre) ++ b :: rest := rfl
      rw [happ2, Seg_append]
      constructor
      · refine (Seg_upd_frame _ _ _ _ _ _ ?_).2 ht5
        exact fun hm => hdisj hm (by simp)
      · rw [ht1, Seg_cons]
        constructor
        · simp [upd]
        · refine (Seg_frame l.mem _ _ _ _ ?_).2 hrest
          intro x hx
          have hxb : x ≠ b.1 := fun e => hbr (e ▸ hx)
          have hxt : x ≠ t := fun e => hdisj ht4 (by simp [← e, hx])
          simp [upd, hxb, hxt]
    · show l.tail = _
      rw [htail, lastAddr_append, lastAddr_append]
      rfl
    · simp [hsize]
    · exact ⟨some t, some b.1, by simp [upd, hta.symm, hab, hma]⟩

theorem LinkList.Delete_wf (l : LinkList T) (h : Nat) (hd : T) (pre post : List (Nat × T))
    (a : Nat) (d : T) (hwf : l.Wf h hd (pre ++ (a, d) :: post)) :
    ∃ l2, l.Delete (some a) = some l2 ∧ l2.Wf h hd (pre ++ post) ∧ l2.brk = l.brk := by
  obtain ⟨l1, h1, hwf1, hbrk, ⟨p, n, hma⟩, hanot, -⟩ := l.Spare_wf h hd pre post a d hwf
  obtain ⟨hhead, hseg, hnd, htail, hsize, hbound⟩ := hwf1
  refine ⟨l1.setCell a none, ?_, ⟨hhead, ?_, hnd, htail, hsize, hbound⟩, hbrk⟩
  · simp [Delete, h1, free, hma]
  · exact (Seg_upd_frame l1.mem ((h, hd) :: (pre ++ post)) none none a none hanot).2 hseg

theorem LinkList.PopBack_wf (l : LinkList T) (h : Nat) (hd : T) (pre : List (Nat × T))
    (a : Nat) (d : T) (hwf : l.Wf h hd (pre ++ [(a, d)])) :
    ∃ l2, l.PopBack = some l2 ∧ l2.Wf h hd pre ∧ l2.brk = l.brk := by
  obtain ⟨l2, h1, h2, h3⟩ := l.Delete_wf h hd pre [] a d hwf
  have htail : l.tail = some a := by
    rw [hwf.tail_eq, lastAddr_append]; rfl
  have hsz : l.size ≠ 0 := by simp [hwf.size_eq]
  refine ⟨l2, ?_, by simpa using h2, h3⟩
  simp [PopBack, hsz, htail, h1]

theorem LinkList.PopBack_empty (l : LinkList T) (h : Nat) (hd : T) (hwf : l.Wf h hd []) :
    l.PopBack = some l := by
  simp [PopBack, hwf.size_eq]

theorem LinkList.setData_wf (l : LinkList T) (h : Nat) (hd : T) (pre post : List (Nat × T))
    (a : Nat) (d d2 : T) (hwf : l.Wf h hd (pre ++ (a, d) :: post)) :
    ∃ l2, l.store (some a) (fun n => { n with data := d2 }) = some l2 ∧
      l2.Wf h hd (pre ++ (a, d2) :: post) ∧ l2.brk = l.brk ∧ l2.size = l.size := by
  obtain ⟨hhead, hseg, hnd, htail, hsize, hbound⟩ := hwf
  have happ : ∀ e : Nat × T, (h, hd) :: (pre ++ e :: post) = ((h, hd) :: pre) ++ e :: post :=
    fun _ => rfl
  rw [happ, Seg_append] at hseg
  obtain ⟨hseg1, hseg2⟩ := hseg
  rw [Seg_cons] at hseg2
  obtain ⟨hma, hseg2⟩ := hseg2
  have hnd2 : ((h :: pre.map Prod.fst) ++ a :: post.map Prod.fst).Nodup := by
    simpa using hnd
  rw [List.nodup_append] at hnd2
  obtain ⟨hndpre, hndpost, hdisj⟩ := hnd2
  simp only [List.nodup_cons] at hndpost
  refine ⟨_, l.store_eq a _ _ hma, ⟨hhead, ?_, by simpa using hnd, ?_, by simpa using hsize,
    by simpa using hbound⟩, rfl, rfl⟩
  · rw [happ, Seg_append]
    refine ⟨?_, ?_⟩
    · exact (Seg_upd_frame l.mem ((h, hd) :: pre) _ _ a _ (fun hm => hdisj hm (by simp))).2 hseg1
    · rw [Seg_cons]
      refine ⟨?_, ?_⟩
      · simp [setCell, upd]
      · exact (Seg_upd_frame l.mem _ _ _ a _ hndpost.1).2 hseg2
  · show l.tail = _
    rw [htail, lastAddr_append, lastAddr_append]
    rfl

theorem walk_seg (mem : Nat → Option (LinkNode T)) (xs : List (Nat × T)) (prv : Ptr) (fuel : Nat)
    (hseg : Seg mem prv xs none) (hfuel : xs.length ≤ fuel) :
    walk mem fuel (firstAddr xs none) = xs.map Prod.snd := by
  induction xs generalizing prv fuel with
  | nil => cases fuel <;> rfl
  | cons c rest ih =>
    rw [Seg_cons] at hseg
    cases fuel with
    | zero => simp at hfuel
    | succ fuel =>
      have := ih (some c.1) fuel hseg.2 (by simpa using hfuel)
      show walk mem (fuel + 1) (some c.1) = c.2 :: rest.map Prod.snd
      simp only [walk, hseg.1]
      rw [this]

theorem LinkList.Wf.length_lt (l : LinkList T) (h : Nat) (hd : T) (cells : List (Nat × T))
    (hwf : l.Wf h hd cells) : cells.length < l.brk := by
  have hsub : (h :: cells.map Prod.fst) ⊆ List.range l.brk := by
    intro x hx
    exact List.mem_range.2 (hwf.bound x hx)
  have := (List.subperm_of_subset hwf.nodup hsub).length_le
  simpa using this

theorem LinkList.Wf.toList_eq (l : LinkList T) (h : Nat) (hd : T) (cells : List (Nat × T))
    (hwf : l.Wf h hd cells) : l.toList = cells.map Prod.snd := by
  have hlen := hwf.length_lt
  have hseg := hwf.seg
  rw [Seg_cons] at hseg
  simp only [toList, load, hwf.head_eq, hseg.1]
  exact walk_seg l.mem cells _ _ hseg.2 (Nat.le_of_lt hlen)

theorem LinkList.new_wf [Inhabited T] : (LinkList.new : LinkList T).Wf 1 default [] := by
  refine ⟨rfl, ?_, by simp, rfl, rfl, ?_⟩
  · simp [Seg_cons, Seg_nil, LinkList.new, upd, firstAddr]
  · simp [LinkList.new]

end SegLemmas

/-! ## The index and the cache operations -/

section CacheLemmas
variable {K V : Type}
open LinkList LRUCache

theorem addrKeys_append (xs ys : List (Nat × (K × V))) :
    addrKeys (xs ++ ys) = addrKeys xs ++ addrKeys ys := by
  simp [addrKeys]

theorem addrKeys_cons (x : Nat × (K × V)) (ys : List (Nat × (K × V))) :
    addrKeys (x :: ys) = (x.1, x.2.1) :: addrKeys ys := rfl

theorem mem_addrKeys_key (cells : List (Nat × (K × V))) (a : Nat) (k : K)
    (hm : (a, k) ∈ addrKeys cells) : k ∈ cells.map (fun e => e.2.1) := by
  simp only [addrKeys, List.mem_map] at hm ⊢
  obtain ⟨e, he, heq⟩ := hm
  exact ⟨e, he, (Prod.mk.inj heq).2⟩

theorem mem_addrKeys_split (cells : List (Nat × (K × V))) (a : Nat) (k : K)
    (hm : (a, k) ∈ addrKeys cells) : ∃ pre v post, cells = pre ++ (a, (k, v)) :: post := by
  simp only [addrKeys, List.mem_map] at hm
  obtain ⟨⟨a1, k1, v1⟩, he, heq⟩ := hm
  obtain ⟨pre, post, hsplit⟩ := List.append_of_mem he
  obtain ⟨rfl, rfl⟩ := Prod.mk.inj heq
  exact ⟨pre, v1, post, hsplit⟩

theorem cells_nil_or_concat (cells : List (Nat × (K × V))) :
    cells = [] ∨ ∃ pre a k v, cells = pre ++ [(a, (k, v))] := by
  rcases List.eq_nil_or_concat cells with h | ⟨pre, ⟨a, k, v⟩, h⟩
  · exact Or.inl h
  · exact Or.inr ⟨pre, a, k, v, by simpa using h⟩

theorem cells_split (cells : List (Nat × (K × V))) (pre post : List (K × V)) (e : K × V)
    (hs : cells.map Prod.snd = pre ++ e :: post) :
    ∃ cpre a cpost, cells = cpre ++ (a, e) :: cpost ∧ cpre.map Prod.snd = pre ∧
      cpost.map Prod.snd = post := by
  obtain ⟨cpre, crest, h1, h2, h3⟩ := List.map_eq_append_iff.1 hs
  obtain ⟨⟨a, e1⟩, cpost, h4, h5, h6⟩ := List.map_eq_cons_iff.1 h3
  simp only at h5
  subst h5
  exact ⟨cpre, a, cpost, by rw [h1, h4], h2, h6⟩

variable [DecidableEq K]

theorem mapFind_eq_none_iff (m : List (K × Ptr)) (k : K) :
    mapFind m k = none ↔ k ∉ m.map Prod.fst := by
  induction m with
  | nil => simp [mapFind]
  | cons e m ih =>
    obtain ⟨k1, p1⟩ := e
    by_cases hk : k1 = k
    · simp [mapFind, hk]
    · simp [mapFind, hk, ih, Ne.symm hk]

theorem mapFind_eq_some_iff (m : List (K × Ptr)) (k : K) (p : Ptr)
    (hnd : (m.map Prod.fst).Nodup) : mapFind m k = some p ↔ (k, p) ∈ m := by
  induction m with
  | nil => simp [mapFind]
  | cons e m ih =>
    obtain ⟨k1, p1⟩ := e
    simp only [List.map_cons, List.nodup_cons] at hnd
    by_cases hk : k1 = k
    · subst hk
      have : ∀ q, (k1, q) ∉ m := fun q hq => hnd.1 (List.mem_map_of_mem Prod.fst hq)
      simp [mapFind, this]
      exact eq_comm
    · simp [mapFind, hk, ih hnd.2, Ne.symm hk]

theorem mem_mapErase (m : List (K × Ptr)) (k k2 : K) (p : Ptr) :
    (k2, p) ∈ mapErase m k ↔ (k2, p) ∈ m ∧ k2 ≠ k := by
  simp [mapErase]

theorem mapErase_nodup (m : List (K × Ptr)) (k : K) (hnd : (m.map Prod.fst).Nodup) :
    ((mapErase m k).map Prod.fst).Nodup :=
  hnd.sublist ((List.filter_sublist m).map Prod.fst)

theorem LRUCache.InvAt.find_none_iff {c : LRUCache K V} {h : Nat} {hd : K × V}
    {cells : List (Nat × (K × V))} (hinv : c.InvAt h hd cells) (k : K) :
    mapFind c.map k = none ↔ k ∉ cells.map (fun e => e.2.1) := by
  rw [mapFind_eq_none_iff]
  constructor
  · intro hk hm
    simp only [List.mem_map] at hm
    obtain ⟨⟨a, k1, v⟩, he, rfl⟩ := hm
    have : (k1, some a) ∈ c.map :=
      (hinv.map_iff k1 (some a)).2 ⟨a, rfl, List.mem_map_of_mem (fun e => (e.1, e.2.1)) he⟩
    exact hk (List.mem_map_of_mem Prod.fst this)
  · intro hk hm
    simp only [List.mem_map] at hm
    obtain ⟨⟨k1, p⟩, he, rfl⟩ := hm
    obtain ⟨a, -, ha⟩ := (hinv.map_iff k1 p).1 he
    exact hk (mem_addrKeys_key cells a k1 ha)

theorem LRUCache.InvAt.find_some {c : LRUCache K V} {h : Nat} {hd : K × V}
    {pre post : List (Nat × (K × V))} {a : Nat} {k : K} {v : V}
    (hinv : c.InvAt h hd (pre ++ (a, (k, v)) :: post)) : mapFind c.map k = some (some a) := by
  rw [mapFind_eq_some_iff _ _ _ hinv.map_nodup, hinv.map_iff]
  exact ⟨a, rfl, by simp [addrKeys]⟩

theorem LRUCache.InvAt.find_split {c : LRUCache K V} {h : Nat} {hd : K × V}
    {cells : List (Nat × (K × V))} (hinv : c.InvAt h hd cells) (k : K) (p : Ptr)
    (hf : mapFind c.map k = some p) :
    ∃ pre a v post, p = some a ∧ cells = pre ++ (a, (k, v)) :: post := by
  rw [mapFind_eq_some_iff _ _ _ hinv.map_nodup, hinv.map_iff] at hf
  obtain ⟨a, rfl, ha⟩ := hf
  obtain ⟨pre, v, post, hsplit⟩ := mem_addrKeys_split cells a k ha
  exact ⟨pre, a, v, post, rfl, hsplit⟩

end CacheLemmas

section CacheOps
variable {K V : Type} [DecidableEq K]
open LinkList LRUCache

theorem LRUCache.Put_present (c : LRUCache K V) (h : Nat) (hd : K × V)
    (pre post : List (Nat × (K × V))) (a : Nat) (k : K) (v0 v : V)
    (hinv : c.InvAt h hd (pre ++ (a, (k, v0)) :: post)) :
    ∃ c2, c.Put k v = some c2 ∧ c2.InvAt h hd (pre ++ (a, (k, v)) :: post) ∧ c2.map = c.map ∧
      c2.Size = c.Size := by
  have hfind := hinv.find_some
  obtain ⟨l2, h1, h2, -, h4⟩ := c.list.setData_wf h hd pre post a (k, v0) (k, v) hinv.wf
  refine ⟨{ c with list := l2 }, ?_, ⟨h2, ?_, hinv.map_nodup, ?_⟩, rfl, h4⟩
  · simp [Put, hfind, h1]
  · simpa using hinv.keys_nodup
  · simpa [addrKeys] using hinv.map_iff

theorem LRUCache.Put_absent (c : LRUCache K V) (h : Nat) (hd : K × V)
    (cells : List (Nat × (K × V))) (k : K) (v : V)
    (hinv : c.InvAt h hd cells) (hk : k ∉ cells.map (fun e => e.2.1)) :
    ∃ c2, c.Put k v = some c2 ∧ c2.InvAt h hd ((c.list.brk, (k, v)) :: cells) ∧
      c2.map = (k, some c.list.brk) :: c.map := by
  have hfind := (hinv.find_none_iff k).2 hk
  obtain ⟨l2, h1, h2, -⟩ := c.list.PushFront_wf h hd cells (k, v) hinv.wf
  have hseg := h2.seg
  rw [Seg_cons] at hseg
  have hkm : k ∉ c.map.map Prod.fst := (mapFind_eq_none_iff c.map k).1 hfind
  refine ⟨{ list := l2, map := (k, some c.list.brk) :: c.map }, ?_, ⟨h2, ?_, ?_, ?_⟩, rfl⟩
  · simp [Put, hfind, h1, load, h2.head_eq, hseg.1, mapEmplace, firstAddr]
  · simpa using ⟨by simpa using hk, hinv.keys_nodup⟩
  · simpa using ⟨by simpa using hkm, hinv.map_nodup⟩
  · intro k2 p
    simp only [List.mem_cons, addrKeys_cons, Prod.mk.injEq, hinv.map_iff]
    constructor
    · rintro (⟨rfl, rfl⟩ | ⟨a, rfl, ha⟩)
      · exact ⟨_, rfl, Or.inl ⟨rfl, rfl⟩⟩
      · exact ⟨a, rfl, Or.inr ha⟩
    · rintro ⟨a, rfl, (⟨rfl, rfl⟩ | ha)⟩
      · exact Or.inl ⟨rfl, rfl⟩
      · exact Or.inr ⟨a, rfl, ha⟩

theorem LRUCache.TryPut_present (c : LRUCache K V) (h : Nat) (hd : K × V)
    (pre post : List (Nat × (K × V))) (a : Nat) (k : K) (v0 v : V)
    (hinv : c.InvAt h hd (pre ++ (a, (k, v0)) :: post)) :
    c.TryPut k v = some (false, c) := by
  simp [TryPut, hinv.find_some]

theorem LRUCache.TryPut_absent (c : LRUCache K V) (h : Nat) (hd : K × V)
    (cells : List (Nat × (K × V))) (k : K) (v : V)
    (hinv : c.InvAt h hd cells) (hk : k ∉ cells.map (fun e => e.2.1)) :
    ∃ c2, c.TryPut k v = some (true, c2) ∧ c2.InvAt h hd (cells ++ [(c.list.brk, (k, v))]) ∧
      c2.map = (k, some c.list.brk) :: c.map := by
  have hfind := (hinv.find_none_iff k).2 hk
  obtain ⟨l2, h1, h2, -, h4⟩ := c.list.PushBack_wf h hd cells (k, v) hinv.wf
  have hkm : k ∉ c.map.map Prod.fst := (mapFind_eq_none_iff c.map k).1 hfind
  refine ⟨{ list := l2, map := (k, some c.list.brk) :: c.map }, ?_, ⟨h2, ?_, ?_, ?_⟩, rfl⟩
  · simp [TryPut, hfind, h1, h4, mapEmplace]
  · rw [List.map_append, List.nodup_append]
    refine ⟨hinv.keys_nodup, by simp, ?_⟩
    intro x hx hx2
    simp only [List.map_cons, List.map_nil, List.mem_singleton] at hx2
    exact hk (hx2 ▸ hx)
  · simpa using ⟨by simpa using hkm, hinv.map_nodup⟩
  · intro k2 p
    have hnil : addrKeys ([] : List (Nat × (K × V))) = [] := rfl
    simp only [List.mem_cons, addrKeys_append, addrKeys_cons, hnil, List.mem_append,
      Prod.mk.injEq, hinv.map_iff, List.mem_singleton, List.not_mem_nil, or_false]
    constructor
    · rintro (⟨rfl, rfl⟩ | ⟨a, rfl, ha⟩)
      · exact ⟨_, rfl, Or.inr ⟨rfl, rfl⟩⟩
      · exact ⟨a, rfl, Or.inl ha⟩
    · rintro ⟨a, rfl, (ha | ⟨rfl, rfl⟩)⟩
      · exact Or.inr ⟨a, rfl, ha⟩
      · exact Or.inl ⟨rfl, rfl⟩

theorem LRUCache.Get_absent (c : LRUCache K V) (h : Nat) (hd : K × V)
    (cells : List (Nat × (K × V))) (k : K)
    (hinv : c.InvAt h hd cells) (hk : k ∉ cells.map (fun e => e.2.1)) :
    c.Get k = some (none, c) := by
  simp [Get, (hinv.find_none_iff k).2 hk]

theorem LRUCache.Get_present (c : LRUCache K V) (h : Nat) (hd : K × V)
    (pre post : List (Nat × (K × V))) (a : Nat) (k : K) (v : V)
    (hinv : c.InvAt h hd (pre ++ (a, (k, v)) :: post)) :
    ∃ c2, c.Get k = some (some v, c2) ∧ c2.InvAt h hd ((a, (k, v)) :: (pre ++ post)) ∧
      c2.map = c.map := by
  have hfind := hinv.find_some
  obtain ⟨l1, h1, hwf1, hbrk, ⟨p, n, hma⟩, hanot, halt⟩ :=
    c.list.Spare_wf h hd pre post a (k, v) hinv.wf
  obtain ⟨l2, h2, hwf2, -⟩ := l1.PushFrontNode_wf h hd (pre ++ post) a _ hwf1 hanot
    (by rw [hbrk]; exact halt) hma
  have hseg := hwf2.seg
  rw [Seg_cons, Seg_cons] at hseg
  have hperm : (pre ++ (a, (k, v)) :: post).Perm ((a, (k, v)) :: (pre ++ post)) :=
    List.perm_middle
  refine ⟨{ c with list := l2 }, ?_, ⟨hwf2, ?_, hinv.map_nodup, ?_⟩, rfl⟩
  · simp [Get, hfind, h1, h2, load, hseg.2.1]
  · exact ((hperm.map _).nodup_iff).1 hinv.keys_nodup
  · intro k2 p2
    rw [hinv.map_iff]
    have := fun x => (hperm.map (fun e : Nat × (K × V) => (e.1, e.2.1))).mem_iff (a := x)
    simp only [addrKeys, this]

theorem LRUCache.Evict_empty (c : LRUCache K V) (h : Nat) (hd : K × V)
    (hinv : c.InvAt h hd []) : c.Evict = some c := by
  simp [Evict, hinv.wf.size_eq]

theorem LRUCache.EvictKey_absent (c : LRUCache K V) (h : Nat) (hd : K × V)
    (cells : List (Nat × (K × V))) (k : K)
    (hinv : c.InvAt h hd cells) (hk : k ∉ cells.map (fun e => e.2.1)) :
    c.EvictKey k = some c := by
  simp [EvictKey, (hinv.find_none_iff k).2 hk]

theorem LRUCache.erase_inv (c : LRUCache K V) (h : Nat) (hd : K × V)
    (pre post : List (Nat × (K × V))) (a : Nat) (k : K) (v : V) (l2 : LinkList (K × V))
    (hinv : c.InvAt h hd (pre ++ (a, (k, v)) :: post)) (hwf : l2.Wf h hd (pre ++ post)) :
    LRUCache.InvAt { list := l2, map := mapErase c.map k } h hd (pre ++ post) := by
  have hknd := hinv.keys_nodup
  have hperm : (pre ++ (a, (k, v)) :: post).Perm ((a, (k, v)) :: (pre ++ post)) :=
    List.perm_middle
  rw [(hperm.map _).nodup_iff, List.map_cons, List.nodup_cons] at hknd
  refine ⟨hwf, hknd.2, mapErase_nodup _ _ hinv.map_nodup, ?_⟩
  intro k2 p2
  have hmem := fun x => (hperm.map (fun e : Nat × (K × V) => (e.1, e.2.1))).mem_iff (a := x)
  rw [mem_mapErase, hinv.map_iff]
  simp only [addrKeys, hmem, List.map_cons, List.mem_cons, Prod.mk.injEq]
  constructor
  · rintro ⟨⟨a2, rfl, (⟨-, rfl⟩ | ha2)⟩, hne⟩
    · exact absurd rfl hne
    · exact ⟨a2, rfl, ha2⟩
  · rintro ⟨a2, rfl, ha2⟩
    refine ⟨⟨a2, rfl, Or.inr ha2⟩, ?_⟩
    rintro rfl
    exact hknd.1 (mem_addrKeys_key (pre ++ post) a2 k2 ha2)

theorem LRUCache.Evict_nonempty (c : LRUCache K V) (h : Nat) (hd : K × V)
    (pre : List (Nat × (K × V))) (a : Nat) (k : K) (v : V)
    (hinv : c.InvAt h hd (pre ++ [(a, (k, v))])) :
    ∃ c2, c.Evict = some c2 ∧ c2.InvAt h hd pre ∧ c2.map = mapErase c.map k := by
  obtain ⟨l2, h1, h2, -⟩ := c.list.PopBack_wf h hd pre a (k, v) hinv.wf
  have hsz : c.list.size ≠ 0 := by simp [hinv.wf.size_eq]
  have htail : c.list.tail = some a := by
    rw [hinv.wf.tail_eq, lastAddr_append]; rfl
  have hseg := hinv.wf.seg
  have happ : (h, hd) :: (pre ++ [(a, (k, v))]) = ((h, hd) :: pre) ++ [(a, (k, v))] := rfl
  rw [happ, Seg_append] at hseg
  have hma := hseg.2
  rw [Seg_cons] at hma
  have hinv2 := c.erase_inv h hd pre [] a k v l2 hinv (by simpa using h2)
  refine ⟨{ list := l2, map := mapErase c.map k }, ?_, by simpa using hinv2, rfl⟩
  simp [Evict, hsz, htail, load, hma.1, h1]

theorem LRUCache.EvictKey_present (c : LRUCache K V) (h : Nat) (hd : K × V)
    (pre post : List (Nat × (K × V))) (a : Nat) (k : K) (v : V)
    (hinv : c.InvAt h hd (pre ++ (a, (k, v)) :: post)) :
    ∃ c2, c.EvictKey k = some c2 ∧ c2.InvAt h hd (pre ++ post) ∧
      c2.map = mapErase c.map k := by
  obtain ⟨l2, h1, h2, -⟩ := c.list.Delete_wf h hd pre post a (k, v) hinv.wf
  refine ⟨{ list := l2, map := mapErase c.map k }, ?_, c.erase_inv h hd pre post a k v l2 hinv h2,
    rfl⟩
  simp [EvictKey, hinv.find_some, h1]

theorem LRUCache.new_inv [Inhabited K] [Inhabited V] :
    (LRUCache.new : LRUCache K V).InvAt 1 default [] :=
  ⟨LinkList.new_wf, by simp, by simp [LRUCache.new], by simp [LRUCache.new, addrKeys]⟩

end CacheOps

section CacheReach
variable {K V : Type} [DecidableEq K]
open LinkList LRUCache

theorem LRUCache.InvAt.entries_eq {c : LRUCache K V} {h : Nat} {hd : K × V}
    {cells : List (Nat × (K × V))} (hinv : c.InvAt h hd cells) :
    c.entries = cells.map Prod.snd :=
  hinv.wf.toList_eq

theorem LRUCache.InvAt.Size_eq {c : LRUCache K V} {h : Nat} {hd : K × V}
    {cells : List (Nat × (K × V))} (hinv : c.InvAt h hd cells) :
    c.Size = cells.length :=
  hinv.wf.size_eq

theorem LRUCache.InvAt.mem_keys_iff {c : LRUCache K V} {h : Nat} {hd : K × V}
    {cells : List (Nat × (K × V))} (hinv : c.InvAt h hd cells) (k : K) :
    k ∈ c.keys ↔ k ∈ cells.map (fun e => e.2.1) := by
  have h1 := hinv.find_none_iff k
  have h2 := mapFind_eq_none_iff c.map k
  rw [h2] at h1
  exact not_iff_not.1 h1

theorem LRUCache.InvAt.keys_perm {c : LRUCache K V} {h : Nat} {hd : K × V}
    {cells : List (Nat × (K × V))} (hinv : c.InvAt h hd cells) :
    c.keys.Perm (cells.map (fun e => e.2.1)) :=
  (List.perm_ext_iff_of_nodup hinv.map_nodup hinv.keys_nodup).2 (fun k => hinv.mem_keys_iff k)

theorem LRUCache.InvAt.key_split {c : LRUCache K V} {h : Nat} {hd : K × V}
    {cells : List (Nat × (K × V))} (_hinv : c.InvAt h hd cells) (k : K)
    (hk : k ∈ cells.map (fun e => e.2.1)) :
    ∃ pre a v post, cells = pre ++ (a, (k, v)) :: post := by
  simp only [List.mem_map] at hk
  obtain ⟨⟨a, k1, v⟩, he, rfl⟩ := hk
  obtain ⟨pre, post, hsplit⟩ := List.append_of_mem he
  exact ⟨pre, a, v, post, hsplit⟩

theorem LRUCache.step_inv (c : LRUCache K V) (hinv : c.Inv) (o : Op K V) :
    ∃ c2, c.step o = some c2 ∧ c2.Inv := by
  obtain ⟨h, hd, cells, hinv⟩ := hinv
  cases o with
  | put k v =>
    by_cases hk : k ∈ cells.map (fun e => e.2.1)
    · obtain ⟨pre, a, v0, post, rfl⟩ := hinv.key_split k hk
      obtain ⟨c2, h1, h2, -⟩ := c.Put_present h hd pre post a k v0 v hinv
      exact ⟨c2, h1, _, _, _, h2⟩
    · obtain ⟨c2, h1, h2, -⟩ := c.Put_absent h hd cells k v hinv hk
      exact ⟨c2, h1, _, _, _, h2⟩
  | tryPut k v =>
    by_cases hk : k ∈ cells.map (fun e => e.2.1)
    · obtain ⟨pre, a, v0, post, rfl⟩ := hinv.key_split k hk
      exact ⟨c, by simp [step, c.TryPut_present h hd pre post a k v0 v hinv], _, _, _, hinv⟩
    · obtain ⟨c2, h1, h2, -⟩ := c.TryPut_absent h hd cells k v hinv hk
      exact ⟨c2, by simp [step, h1], _, _, _, h2⟩
  | get k =>
    by_cases hk : k ∈ cells.map (fun e => e.2.1)
    · obtain ⟨pre, a, v, post, rfl⟩ := hinv.key_split k hk
      obtain ⟨c2, h1, h2, -⟩ := c.Get_present h hd pre post a k v hinv
      exact ⟨c2, by simp [step, h1], _, _, _, h2⟩
    · exact ⟨c, by simp [step, c.Get_absent h hd cells k hinv hk], _, _, _, hinv⟩
  | evict =>
    rcases cells_nil_or_concat cells with rfl | ⟨pre, a, k, v, rfl⟩
    · exact ⟨c, c.Evict_empty h hd hinv, _, _, _, hinv⟩
    · obtain ⟨c2, h1, h2, -⟩ := c.Evict_nonempty h hd pre a k v hinv
      exact ⟨c2, h1, _, _, _, h2⟩
  | evictKey k =>
    by_cases hk : k ∈ cells.map (fun e => e.2.1)
    · obtain ⟨pre, a, v, post, rfl⟩ := hinv.key_split k hk
      obtain ⟨c2, h1, h2, -⟩ := c.EvictKey_present h hd pre post a k v hinv
      exact ⟨c2, h1, _, _, _, h2⟩
    · exact ⟨c, c.EvictKey_absent h hd cells k hinv hk, _, _, _, hinv⟩

theorem LRUCache.run_inv (c : LRUCache K V) (hinv : c.Inv) (ops : List (Op K V)) :
    ∃ c2, c.run ops = some c2 ∧ c2.Inv := by
  induction ops generalizing c with
  | nil => exact ⟨c, rfl, hinv⟩
  | cons o os ih =>
    obtain ⟨c1, h1, hinv1⟩ := c.step_inv hinv o
    obtain ⟨c2, h2, hinv2⟩ := ih c1 hinv1
    exact ⟨c2, by simp [run, h1, h2], hinv2⟩

theorem LRUCache.Reachable.inv [Inhabited K] [Inhabited V] {c : LRUCache K V}
    (hr : c.Reachable) : c.Inv := by
  obtain ⟨ops, hops⟩ := hr
  obtain ⟨c2, h2, hinv2⟩ := LRUCache.run_inv LRUCache.new ⟨_, _, _, LRUCache.new_inv⟩ ops
  rw [hops] at h2
  cases h2
  exact hinv2

end CacheReach

/-! ## Auxiliary facts on runs, live keys and ticks -/

section RunLemmas

variable {K V : Type} [DecidableEq K] {SlotNum : Nat}

open LinkList LRUCache

theorem mapErase_of_not_mem (m : List (K × Ptr)) (k : K) (hk : k ∉ m.map Prod.fst) :
    mapErase m k = m := by
  simp only [mapErase, List.filter_eq_self]
  intro e he
  have : e.1 ≠ k := fun h => hk (h ▸ List.mem_map_of_mem Prod.fst he)
  simpa using this

theorem LRUCache.InvAt.key_entry {c : LRUCache K V} {h : Nat} {hd : K × V}
    {cells : List (Nat × (K × V))} (hinv : c.InvAt h hd cells) (k : K) (hk : k ∈ c.keys) :
    ∃ pre a v post, cells = pre ++ (a, (k, v)) :: post :=
  hinv.key_split k ((hinv.mem_keys_iff k).1 hk)

theorem LRUCache.step_live (c : LRUCache K V) (h : Nat) (hd : K × V)
    (cells : List (Nat × (K × V))) (live : List K) (o : Op K V) (hinv : c.InvAt h hd cells)
    (hlive : live.Perm (cells.map (fun e => e.2.1))) :
    ∃ c2 cells2, c.step o = some c2 ∧ c2.InvAt h hd cells2 ∧
      (c.liveAfter live o).Perm (cells2.map (fun e => e.2.1)) := by
  cases o with
  | put k v =>
    by_cases hk : k ∈ cells.map (fun e => e.2.1)
    · have hkl : k ∈ live := hlive.mem_iff.2 hk
      obtain ⟨pre, a, v0, post, rfl⟩ := hinv.key_split k hk
      obtain ⟨c2, h1, h2, -⟩ := c.Put_present h hd pre post a k v0 v hinv
      exact ⟨c2, _, h1, h2, by simpa [liveAfter, hkl] using hlive⟩
    · have hkl : k ∉ live := fun hm => hk (hlive.mem_iff.1 hm)
      obtain ⟨c2, h1, h2, -⟩ := c.Put_absent h hd cells k v hinv hk
      exact ⟨c2, _, h1, h2, by simpa [liveAfter, hkl] using hlive⟩
  | tryPut k v =>
    by_cases hk : k ∈ cells.map (fun e => e.2.1)
    · have hkl : k ∈ live := hlive.mem_iff.2 hk
      obtain ⟨pre, a, v0, post, rfl⟩ := hinv.key_split k hk
      exact ⟨c, _, by simp [step, c.TryPut_present h hd pre post a k v0 v hinv], hinv,
        by simpa [liveAfter, hkl] using hlive⟩
    · have hkl : k ∉ live := fun hm => hk (hlive.mem_iff.1 hm)
      obtain ⟨c2, h1, h2, -⟩ := c.TryPut_absent h hd cells k v hinv hk
      refine ⟨c2, _, by simp [step, h1], h2, ?_⟩
      simp only [liveAfter, hkl, if_false, List.map_append, List.map_cons, List.map_nil]
      exact (hlive.cons k).trans (List.perm_append_singleton k _).symm
  | get k =>
    by_cases hk : k ∈ cells.map (fun e => e.2.1)
    · obtain ⟨pre, a, v, post, rfl⟩ := hinv.key_split k hk
      obtain ⟨c2, h1, h2, -⟩ := c.Get_present h hd pre post a k v hinv
      refine ⟨c2, _, by simp [step, h1], h2, ?_⟩
      exact hlive.trans ((@List.perm_middle _ (a, (k, v)) pre post).map _)
    · exact ⟨c, _, by simp [step, c.Get_absent h hd cells k hinv hk], hinv, hlive⟩
  | evict =>
    rcases cells_nil_or_concat cells with rfl | ⟨pre, a, k, v, rfl⟩
    · refine ⟨c, _, c.Evict_empty h hd hinv, hinv, ?_⟩
      simpa [liveAfter, victim, hinv.wf.size_eq] using hlive
    · obtain ⟨c2, h1, h2, -⟩ := c.Evict_nonempty h hd pre a k v hinv
      have hsz : c.list.size ≠ 0 := by simp [hinv.wf.size_eq]
      have htail : c.list.tail = some a := by
        rw [hinv.wf.tail_eq, lastAddr_append]; rfl
      have hseg := hinv.wf.seg
      have happ : (h, hd) :: (pre ++ [(a, (k, v))]) = ((h, hd) :: pre) ++ [(a, (k, v))] := rfl
      rw [happ, Seg_append] at hseg
      have hma := hseg.2
      rw [Seg_cons] at hma
      have hvic : c.victim = some k := by simp [victim, hsz, htail, load, hma.1]
      have hknd := hinv.keys_nodup
      rw [List.map_append, List.nodup_append] at hknd
      have hk : k ∉ pre.map (fun e => e.2.1) := fun hm => hknd.2.2 hm (by simp)
      refine ⟨c2, _, h1, h2, ?_⟩
      have := hlive.erase k
      simp only [List.map_append, List.map_cons, List.map_nil] at this
      rw [List.erase_append_right _ hk] at this
      simpa [liveAfter, hvic] using this
  | evictKey k =>
    by_cases hk : k ∈ cells.map (fun e => e.2.1)
    · obtain ⟨pre, a, v, post, rfl⟩ := hinv.key_split k hk
      obtain ⟨c2, h1, h2, -⟩ := c.EvictKey_present h hd pre post a k v hinv
      have hknd := hinv.keys_nodup
      rw [List.map_append, List.nodup_append] at hknd
      have hk : k ∉ pre.map (fun e => e.2.1) := fun hm => hknd.2.2 hm (by simp)
      refine ⟨c2, _, h1, h2, ?_⟩
      have := hlive.erase k
      simp only [List.map_append, List.map_cons] at this
      rw [List.erase_append_right _ hk] at this
      simpa [liveAfter] using this
    · have hkl : k ∉ live := fun hm => hk (hlive.mem_iff.1 hm)
      exact ⟨c, _, c.EvictKey_absent h hd cells k hinv hk, hinv,
        by simpa [liveAfter, List.erase_of_not_mem hkl] using hlive⟩

theorem LRUCache.run_live (c : LRUCache K V) (h : Nat) (hd : K × V)
    (cells : List (Nat × (K × V))) (live : List K) (ops : List (Op K V))
    (hinv : c.InvAt h hd cells) (hlive : live.Perm (cells.map (fun e => e.2.1))) :
    ∃ c2 cells2, c.run ops = some c2 ∧ c2.InvAt h hd cells2 ∧
      (c.liveKeys live ops).Perm (cells2.map (fun e => e.2.1)) := by
  induction ops generalizing c cells live with
  | nil => exact ⟨c, cells, rfl, hinv, hlive⟩
  | cons o os ih =>
    obtain ⟨c1, cells1, h1, hinv1, hlive1⟩ := c.step_live h hd cells live o hinv hlive
    obtain ⟨c2, cells2, h2, hinv2, hlive2⟩ := ih c1 cells1 _ hinv1 hlive1
    exact ⟨c2, cells2, by simp [run, h1, h2], hinv2, by simpa [liveKeys, h1] using hlive2⟩

theorem filter_key_split (pre post : List (K × V)) (k : K) (v : V)
    (hnd : ((pre ++ (k, v) :: post).map Prod.fst).Nodup) :
    (pre ++ (k, v) :: post).filter (fun e => decide (e.1 ≠ k)) = pre ++ post := by
  rw [List.map_append, List.map_cons, List.nodup_append] at hnd
  obtain ⟨-, h2, h3⟩ := hnd
  rw [List.nodup_cons] at h2
  have hpre : pre.filter (fun e => decide (e.1 ≠ k)) = pre := by
    rw [List.filter_eq_self]
    intro e he
    have : e.1 ≠ k := fun h => h3 (List.mem_map_of_mem Prod.fst he) (by simp [h])
    simpa using this
  have hpost : post.filter (fun e => decide (e.1 ≠ k)) = post := by
    rw [List.filter_eq_self]
    intro e he
    have : e.1 ≠ k := by
      intro h
      have hm := List.mem_map_of_mem Prod.fst he
      rw [h] at hm
      exact h2.1 hm
    simpa using this
  rw [List.filter_append, List.filter_cons_of_neg (by simp), hpre, hpost]

theorem LRUCache.InvAt.entries_keys {c : LRUCache K V} {h : Nat} {hd : K × V}
    {cells : List (Nat × (K × V))} (hinv : c.InvAt h hd cells) :
    c.entries.map Prod.fst = cells.map (fun e => e.2.1) := by
  rw [hinv.entries_eq, List.map_map]; rfl

/-- Effect of `Evict(key)` on the recency sequence, whether the key is held
or not. -/
theorem LRUCache.EvictKey_spec (c : LRUCache K V) (k : K) (hinv : c.Inv) :
    ∃ c2, c.EvictKey k = some c2 ∧ c2.Inv ∧
      c2.entries = c.entries.filter (fun e => decide (e.1 ≠ k)) := by
  obtain ⟨h, hd, cells, hinv⟩ := hinv
  by_cases hk : k ∈ cells.map (fun e => e.2.1)
  · obtain ⟨pre, a, v, post, rfl⟩ := hinv.key_split k hk
    obtain ⟨c2, h1, h2, -⟩ := c.EvictKey_present h hd pre post a k v hinv
    refine ⟨c2, h1, ⟨_, _, _, h2⟩, ?_⟩
    have hnd := hinv.keys_nodup
    rw [← hinv.entries_keys, hinv.entries_eq] at hnd
    rw [h2.entries_eq, hinv.entries_eq]
    simp only [List.map_append, List.map_cons] at hnd ⊢
    exact (filter_key_split _ _ k v (by simpa using hnd)).symm
  · refine ⟨c, c.EvictKey_absent h hd cells k hinv hk, ⟨_, _, _, hinv⟩, ?_⟩
    symm
    rw [List.filter_eq_self]
    intro e he
    have : e.1 ≠ k := by
      intro heq
      apply hk
      rw [← hinv.entries_keys, ← heq]
      exact List.mem_map_of_mem Prod.fst he
    simpa using this

/-- Firing a list of timer tasks removes exactly the entries of their keys. -/
theorem fireAll_spec (tasks : List (TimerTask K)) (c : LRUCache K V) (hinv : c.Inv) :
    ∃ c2, TimeWheel.fireAll TimeLRUCache.fire tasks c = some c2 ∧ c2.Inv ∧
      c2.entries = c.entries.filter (fun e => decide (e.1 ∉ tasks.map TimerTask.key)) := by
  induction tasks generalizing c with
  | nil => exact ⟨c, rfl, hinv, by simp⟩
  | cons t rest ih =>
    obtain ⟨c1, h1, hinv1, e1⟩ := c.EvictKey_spec t.key hinv
    obtain ⟨c2, h2, hinv2, e2⟩ := ih c1 hinv1
    refine ⟨c2, ?_, hinv2, ?_⟩
    · simp [TimeWheel.fireAll, TimeLRUCache.fire, h1, h2]
    · rw [e2, e1, List.filter_filter]
      congr 1
      funext e
      simp only [List.map_cons, List.mem_cons, not_or, ne_eq, Bool.decide_and]
      rw [Bool.and_comm]

theorem LRUCache.Get_spec (c : LRUCache K V) (k : K) (hinv : c.Inv) :
    (∀ v, (k, v) ∈ c.entries → ∃ c2, c.Get k = some (some v, c2)) ∧
    (k ∉ c.entries.map Prod.fst → c.Get k = some (none, c)) := by
  obtain ⟨h, hd, cells, hinv⟩ := hinv
  constructor
  · intro v hv
    rw [hinv.entries_eq, List.mem_map] at hv
    obtain ⟨⟨a, k1, v1⟩, hm, heq⟩ := hv
    obtain ⟨rfl, rfl⟩ := Prod.mk.inj heq
    obtain ⟨pre, post, rfl⟩ := List.append_of_mem hm
    obtain ⟨c2, h1, -⟩ := c.Get_present h hd pre post a k1 v1 hinv
    exact ⟨c2, h1⟩
  · intro hk
    rw [hinv.entries_keys] at hk
    exact c.Get_absent h hd cells k hinv hk

theorem LRUCache.Put_spec (c : LRUCache K V) (k : K) (v : V) (hinv : c.Inv) :
    ∃ c2, c.Put k v = some c2 ∧ c2.Inv ∧ (k, v) ∈ c2.entries := by
  obtain ⟨h, hd, cells, hinv⟩ := hinv
  by_cases hk : k ∈ cells.map (fun e => e.2.1)
  · obtain ⟨pre, a, v0, post, rfl⟩ := hinv.key_split k hk
    obtain ⟨c2, h1, h2, -⟩ := c.Put_present h hd pre post a k v0 v hinv
    exact ⟨c2, h1, ⟨_, _, _, h2⟩, by rw [h2.entries_eq]; simp⟩
  · obtain ⟨c2, h1, h2, -⟩ := c.Put_absent h hd cells k v hinv hk
    exact ⟨c2, h1, ⟨_, _, _, h2⟩, by rw [h2.entries_eq]; simp⟩

theorem LRUCache.step_inv_of_eq (c c2 : LRUCache K V) (o : Op K V) (hinv : c.Inv)
    (hs : c.step o = some c2) : c2.Inv := by
  obtain ⟨c3, h1, h2⟩ := c.step_inv hinv o
  rw [hs] at h1
  cases h1
  exact h2

theorem TimeWheel.AddTask_shape {T : Type} (w w2 : TimeWheel T SlotNum) (task : T) (i : Nat)
    (h : w.AddTask task i = some w2) :
    w2.slots.length = w.slots.length ∧ w2.times = w.times ∧ w2.stop = w.stop := by
  unfold TimeWheel.AddTask at h
  split at h
  · cases h; exact ⟨rfl, rfl, rfl⟩
  · split at h
    · cases h
    · simp only at h
      split at h
      · cases h
      · cases h; simp

theorem TimeWheel.AddTask_eq {T : Type} (w : TimeWheel T SlotNum) (task : T) (i : Nat)
    (hlen : w.slots.length = SlotNum) (hi : i ≤ SlotNum) (hS : 0 < SlotNum) :
    ∃ slot, w.slots[(w.times + i + (WORD - 1)) % WORD % SlotNum]? = some slot ∧
      w.AddTask task i = some { w with
        slots := w.slots.set ((w.times + i + (WORD - 1)) % WORD % SlotNum) (slot ++ [task]) } := by
  have hlt : (w.times + i + (WORD - 1)) % WORD % SlotNum < w.slots.length := by
    rw [hlen]; exact Nat.mod_lt _ hS
  refine ⟨w.slots[(w.times + i + (WORD - 1)) % WORD % SlotNum], by simp [hlt], ?_⟩
  simp [TimeWheel.AddTask, Nat.not_lt.2 hi, Nat.pos_iff_ne_zero.1 hS, hlt]

theorem TimeLRUCache.tick_spec (s : TimeLRUCache K V SlotNum) (hinv : s.WInv)
    (hS : 0 < SlotNum) :
    ∃ slot c2, s.timeWheel.slots[s.timeWheel.times % SlotNum]? = some slot ∧
      s.tick = some { cache := c2, timeWheel := { s.timeWheel with
        slots := s.timeWheel.slots.set (s.timeWheel.times % SlotNum) [],
        times := (s.timeWheel.times + 1) % WORD } } ∧
      c2.Inv ∧
      c2.entries = s.cache.entries.filter (fun e => decide (e.1 ∉ slot.map TimerTask.key)) := by
  obtain ⟨hc, hlen, -⟩ := hinv
  have hlt : s.timeWheel.times % SlotNum < s.timeWheel.slots.length := by
    rw [hlen]; exact Nat.mod_lt _ hS
  obtain ⟨c2, h1, h2, h3⟩ := fireAll_spec s.timeWheel.slots[s.timeWheel.times % SlotNum] s.cache hc
  refine ⟨_, c2, by simp [hlt], ?_, h2, h3⟩
  simp [TimeLRUCache.tick, TimeWheel.tick, Nat.pos_iff_ne_zero.1 hS, hlt, h1]

theorem TimeLRUCache.new_winv [Inhabited K] [Inhabited V] :
    (TimeLRUCache.new : TimeLRUCache K V SlotNum).WInv :=
  ⟨⟨_, _, _, LRUCache.new_inv⟩, by simp [TimeLRUCache.new, TimeWheel.new],
    by simp [TimeLRUCache.new, TimeWheel.new, WORD]⟩

theorem TimeLRUCache.step_winv (s s2 : TimeLRUCache K V SlotNum) (o : TOp K V)
    (hinv : s.WInv) (hs : s.step o = some s2) : s2.WInv := by
  obtain ⟨hc, hlen, hT⟩ := hinv
  cases o with
  | put k v i =>
    simp only [step, TimeLRUCache.Put, Option.bind_eq_bind, Option.bind_eq_some] at hs
    obtain ⟨c1, h1, w1, h2, h3⟩ := hs
    cases h3
    obtain ⟨e1, e2, -⟩ := s.timeWheel.AddTask_shape w1 _ i h2
    exact ⟨LRUCache.step_inv_of_eq s.cache c1 (.put k v) hc h1, by simp [e1, hlen], by simp [e2, hT]⟩
  | tryPut k v i =>
    simp only [step, TimeLRUCache.TryPut, Option.bind_eq_bind, Option.map_eq_some',
      Option.bind_eq_some] at hs
    obtain ⟨⟨b, s3⟩, ⟨⟨b1, c1⟩, h1, w1, h2, h3⟩, h4⟩ := hs
    cases h3
    cases h4
    obtain ⟨e1, e2, -⟩ := s.timeWheel.AddTask_shape w1 _ i h2
    refine ⟨LRUCache.step_inv_of_eq s.cache c1 (.tryPut k v) hc ?_, by simp [e1, hlen],
      by simp [e2, hT]⟩
    simp [LRUCache.step, h1]
  | get k =>
    simp only [step, TimeLRUCache.Get, Option.bind_eq_bind, Option.map_eq_some',
      Option.bind_eq_some] at hs
    obtain ⟨⟨b, s3⟩, ⟨⟨b1, c1⟩, h1, h3⟩, h4⟩ := hs
    cases h3
    cases h4
    refine ⟨LRUCache.step_inv_of_eq s.cache c1 (.get k) hc ?_, hlen, hT⟩
    simp [LRUCache.step, h1]
  | evict =>
    simp only [step, TimeLRUCache.Evict, Option.bind_eq_bind, Option.bind_eq_some] at hs
    obtain ⟨c1, h1, h3⟩ := hs
    cases h3
    exact ⟨LRUCache.step_inv_of_eq s.cache c1 .evict hc h1, hlen, hT⟩
  | evictKey k =>
    simp only [step, TimeLRUCache.EvictKey, Option.bind_eq_bind, Option.bind_eq_some] at hs
    obtain ⟨c1, h1, h3⟩ := hs
    cases h3
    exact ⟨LRUCache.step_inv_of_eq s.cache c1 (.evictKey k) hc h1, hlen, hT⟩
  | tick =>
    have hS : 0 < SlotNum := by
      rcases Nat.eq_zero_or_pos SlotNum with h0 | h0
      · subst h0
        simp [step, TimeLRUCache.tick, TimeWheel.tick] at hs
      · exact h0
    obtain ⟨slot, c2, -, h1, h2, -⟩ := s.tick_spec ⟨hc, hlen, hT⟩ hS
    simp only [step, h1, Option.some.injEq] at hs
    subst hs
    exact ⟨h2, by simp [hlen], Nat.mod_lt _ (by simp [WORD])⟩

theorem TimeLRUCache.run_winv (s s2 : TimeLRUCache K V SlotNum) (ops : List (TOp K V))
    (hinv : s.WInv) (hs : s.run ops = some s2) : s2.WInv := by
  induction ops generalizing s with
  | nil => simp only [run, Option.some.injEq] at hs; subst hs; exact hinv
  | cons o os ih =>
    simp only [run, Option.bind_eq_some] at hs
    obtain ⟨s1, h1, h2⟩ := hs
    exact ih s1 (s.step_winv s1 o hinv h1) h2

theorem TimeLRUCache.Reachable.winv [Inhabited K] [Inhabited V] {s : TimeLRUCache K V SlotNum}
    (hr : s.Reachable) : s.WInv := by
  obtain ⟨ops, hops⟩ := hr
  exact TimeLRUCache.run_winv _ s ops TimeLRUCache.new_winv hops

theorem slot_arith_eq (T i S : Nat) (hi : 1 ≤ i) :
    (T + (i - 1)) % WORD % S = (T + i + (WORD - 1)) % WORD % S := by
  have hW : 1 ≤ WORD := by simp [WORD]
  have : T + i + (WORD - 1) = T + (i - 1) + WORD := by omega
  rw [this, Nat.add_mod_right]

theorem mod_ne_of_lt (a b S : Nat) (hab : a < b) (hlt : b - a < S) : a % S ≠ b % S := by
  intro h
  have hdvd : S ∣ b - a := (Nat.modEq_iff_dvd' (Nat.le_of_lt hab)).1 h
  have := Nat.le_of_dvd (by omega) hdvd
  omega

theorem slot_arith_ne (T i j S : Nat) (hj : j + 1 < i) (hiS : i ≤ S)
    (hnw : T + i ≤ WORD ∨ S ∣ WORD) :
    (T + j) % WORD % S ≠ (T + i + (WORD - 1)) % WORD % S := by
  rw [← slot_arith_eq T i S (by omega)]
  rcases hnw with h | h
  · rw [Nat.mod_eq_of_lt (by omega : T + j < WORD),
      Nat.mod_eq_of_lt (by omega : T + (i - 1) < WORD)]
    exact mod_ne_of_lt _ _ S (by omega) (by omega)
  · rw [Nat.mod_mod_of_dvd _ h, Nat.mod_mod_of_dvd _ h]
    exact mod_ne_of_lt _ _ S (by omega) (by omega)

/-- A tick that processes a slot without a task for `k` keeps the entry of
`k`, and leaves the other slots as they are. -/
theorem TimeLRUCache.tick_keep (s : TimeLRUCache K V SlotNum) (k : K) (v : V) (j0 : Nat)
    (hinv : s.WInv) (hS : 0 < SlotNum) (hkv : (k, v) ∈ s.cache.entries)
    (hclean : ∀ idx slot, s.timeWheel.slots[idx]? = some slot → idx ≠ j0 →
      ∀ task ∈ slot, task.key ≠ k)
    (hne : s.timeWheel.times % SlotNum ≠ j0) :
    ∃ s2, s.tick = some s2 ∧ s2.WInv ∧ (k, v) ∈ s2.cache.entries ∧
      s2.timeWheel.times = (s.timeWheel.times + 1) % WORD ∧
      (∀ idx slot, s2.timeWheel.slots[idx]? = some slot → idx ≠ j0 →
        ∀ task ∈ slot, task.key ≠ k) ∧
      s2.timeWheel.slots[j0]? = s.timeWheel.slots[j0]? := by
  obtain ⟨slot, c2, h1, h2, h3, h4⟩ := s.tick_spec hinv hS
  refine ⟨_, h2, s.step_winv _ .tick hinv h2, ?_, rfl, ?_, ?_⟩
  · show (k, v) ∈ c2.entries
    rw [h4, List.mem_filter]
    refine ⟨hkv, ?_⟩
    have : k ∉ slot.map TimerTask.key := by
      intro hm
      rw [List.mem_map] at hm
      obtain ⟨task, ht, hk⟩ := hm
      exact hclean _ slot h1 hne task ht hk
    simpa using this
  · intro idx sl hsl hidx task ht
    simp only [List.getElem?_set] at hsl
    split at hsl
    · split at hsl
      · cases hsl; simp at ht
      · cases hsl
    · exact hclean idx sl hsl hidx task ht
  · simp only [List.getElem?_set_ne hne]

/-- A tick that processes a slot holding a task for `k` evicts `k`. -/
theorem TimeLRUCache.tick_fire (s : TimeLRUCache K V SlotNum) (k : K)
    (hinv : s.WInv) (hS : 0 < SlotNum)
    (hk : ∃ slot, s.timeWheel.slots[s.timeWheel.times % SlotNum]? = some slot ∧
      (⟨k⟩ : TimerTask K) ∈ slot) :
    ∃ s2, s.tick = some s2 ∧ s2.WInv ∧ k ∉ s2.cache.entries.map Prod.fst := by
  obtain ⟨slot, c2, h1, h2, h3, h4⟩ := s.tick_spec hinv hS
  obtain ⟨slot2, h5, h6⟩ := hk
  rw [h1] at h5
  cases h5
  refine ⟨_, h2, s.step_winv _ .tick hinv h2, ?_⟩
  show k ∉ c2.entries.map Prod.fst
  rw [h4, List.mem_map]
  rintro ⟨e, he, rfl⟩
  rw [List.mem_filter] at he
  have : e.1 ∈ slot.map TimerTask.key := List.mem_map_of_mem TimerTask.key h6
  simp [this] at he

/-- A tick never brings a key back. -/
theorem TimeLRUCache.tick_absent (s : TimeLRUCache K V SlotNum) (k : K)
    (hinv : s.WInv) (hS : 0 < SlotNum) (hk : k ∉ s.cache.entries.map Prod.fst) :
    ∃ s2, s.tick = some s2 ∧ s2.WInv ∧ k ∉ s2.cache.entries.map Prod.fst := by
  obtain ⟨slot, c2, h1, h2, h3, h4⟩ := s.tick_spec hinv hS
  refine ⟨_, h2, s.step_winv _ .tick hinv h2, ?_⟩
  show k ∉ c2.entries.map Prod.fst
  rw [h4]
  intro hm
  exact hk ((List.filter_sublist _).map Prod.fst |>.subset hm)

theorem TimeLRUCache.ticks_absent (s : TimeLRUCache K V SlotNum) (k : K) (n : Nat)
    (hinv : s.WInv) (hS : 0 < SlotNum) (hk : k ∉ s.cache.entries.map Prod.fst) :
    ∃ s2, s.ticks n = some s2 ∧ s2.WInv ∧ k ∉ s2.cache.entries.map Prod.fst := by
  induction n generalizing s with
  | zero => exact ⟨s, rfl, hinv, hk⟩
  | succ n ih =>
    obtain ⟨s1, h1, h2, h3⟩ := s.tick_absent k hinv hS hk
    obtain ⟨s2, h4, h5, h6⟩ := ih s1 h2 h3
    exact ⟨s2, by simp [ticks, h1, h4], h5, h6⟩

theorem TimeLRUCache.ticks_keep (s : TimeLRUCache K V SlotNum) (k : K) (v : V)
    (T i j n : Nat) (hinv : s.WInv) (hS : 0 < SlotNum) (hiS : i ≤ SlotNum)
    (hnw : T + i ≤ WORD ∨ SlotNum ∣ WORD)
    (hkv : (k, v) ∈ s.cache.entries)
    (hclean : ∀ idx slot, s.timeWheel.slots[idx]? = some slot →
      idx ≠ (T + i + (WORD - 1)) % WORD % SlotNum → ∀ task ∈ slot, task.key ≠ k)
    (hin : ∃ slot, s.timeWheel.slots[(T + i + (WORD - 1)) % WORD % SlotNum]? = some slot ∧
      (⟨k⟩ : TimerTask K) ∈ slot)
    (htime : s.timeWheel.times = (T + j) % WORD) (hjn : j + n < i) :
    ∃ s2, s.ticks n = some s2 ∧ s2.WInv ∧ (k, v) ∈ s2.cache.entries ∧
      (∀ idx slot, s2.timeWheel.slots[idx]? = some slot →
        idx ≠ (T + i + (WORD - 1)) % WORD % SlotNum → ∀ task ∈ slot, task.key ≠ k) ∧
      (∃ slot, s2.timeWheel.slots[(T + i + (WORD - 1)) % WORD % SlotNum]? = some slot ∧
        (⟨k⟩ : TimerTask K) ∈ slot) ∧
      s2.timeWheel.times = (T + (j + n)) % WORD := by
  induction n generalizing s j with
  | zero => exact ⟨s, rfl, hinv, hkv, hclean, hin, htime⟩
  | succ n ih =>
    have hne : s.timeWheel.times % SlotNum ≠ (T + i + (WORD - 1)) % WORD % SlotNum := by
      rw [htime]
      exact slot_arith_ne T i j SlotNum (by omega) hiS hnw
    obtain ⟨s1, h1, h2, h3, h4, h5, h6⟩ := s.tick_keep k v _ hinv hS hkv hclean hne
    have htime1 : s1.timeWheel.times = (T + (j + 1)) % WORD := by
      rw [h4, htime, Nat.mod_add_mod, Nat.add_assoc]
    obtain ⟨s2, e1, e2, e3, e4, e5, e6⟩ :=
      ih s1 (j + 1) h2 h3 h5 (by rw [h6]; exact hin) htime1 (by omega)
    refine ⟨s2, by simp [ticks, h1, e1], e2, e3, e4, e5, ?_⟩
    rw [e6]
    congr 2
    omega

theorem TimeLRUCache.ticks_add (s : TimeLRUCache K V SlotNum) (m n : Nat) :
    s.ticks (m + n) = (s.ticks m).bind (fun s1 => s1.ticks n) := by
  induction m generalizing s with
  | zero => simp [ticks]
  | succ m ih =>
    rw [Nat.succ_add]
    simp only [ticks]
    cases s.tick with
    | none => rfl
    | some s1 => simp [ih]

theorem TimeLRUCache.Get_of_cache (s : TimeLRUCache K V SlotNum) (k : K) (r : Option V)
    (c2 : LRUCache K V) (h : s.cache.Get k = some (r, c2)) :
    s.Get k = some (r, { s with cache := c2 }) := by
  simp [TimeLRUCache.Get, h]

theorem TimeLRUCache.tick_idle (c : LRUCache K V) (T : Nat) (hS : 0 < SlotNum) :
    (TimeLRUCache.idle c T : TimeLRUCache K V SlotNum).tick =
      some (TimeLRUCache.idle c ((T + 1) % WORD)) := by
  have hlt : T % SlotNum < SlotNum := Nat.mod_lt _ hS
  have hset : (List.replicate SlotNum ([] : List (TimerTask K))).set (T % SlotNum) [] =
      List.replicate SlotNum [] := by
    apply List.ext_getElem?
    intro n
    rw [List.getElem?_set]
    split
    · rename_i h
      subst h
      simp [hlt]
    · rfl
  simp [TimeLRUCache.tick, TimeWheel.tick, TimeLRUCache.idle, Nat.pos_iff_ne_zero.1 hS, hlt,
    TimeWheel.fireAll, hset]

theorem TimeLRUCache.run_idle (c : LRUCache K V) (m T : Nat) (hS : 0 < SlotNum)
    (hT : T < WORD) :
    (TimeLRUCache.idle c T : TimeLRUCache K V SlotNum).run (List.replicate m .tick) =
      some (TimeLRUCache.idle c ((T + m) % WORD)) := by
  induction m generalizing T with
  | zero => simp [run, Nat.mod_eq_of_lt hT]
  | succ m ih =>
    rw [List.replicate_succ]
    simp only [run, step, TimeLRUCache.tick_idle c T hS, Option.some_bind]
    rw [ih _ (Nat.mod_lt _ (by simp [WORD]))]
    congr 2
    rw [Nat.mod_add_mod]
    congr 1
    omega

theorem LRUCache.run_evicts (c : LRUCache K V) (h : Nat) (hd : K × V)
    (cells : List (Nat × (K × V))) (m : Nat) (hinv : c.InvAt h hd cells) :
    ∃ c2, c.run (List.replicate m .evict) = some c2 ∧
      c2.InvAt h hd (cells.take (cells.length - m)) := by
  induction m generalizing c cells with
  | zero => exact ⟨c, rfl, by simpa using hinv⟩
  | succ m ih =>
    rcases cells_nil_or_concat cells with rfl | ⟨pre, a, k, v, rfl⟩
    · obtain ⟨c2, h1, h2⟩ := ih c [] hinv
      refine ⟨c2, ?_, by simpa using h2⟩
      simp only [List.replicate_succ, run, step, c.Evict_empty h hd hinv, Option.some_bind, h1]
    · obtain ⟨c1, e1, hinv1, -⟩ := c.Evict_nonempty h hd pre a k v hinv
      obtain ⟨c2, h1, h2⟩ := ih c1 pre hinv1
      refine ⟨c2, ?_, ?_⟩
      · simp only [List.replicate_succ, run, step, e1, Option.some_bind, h1]
      · have hlen : (pre ++ [(a, (k, v))]).length - (m + 1) = pre.length - m := by
          simp
        rw [hlen, List.take_append_of_le_length (Nat.sub_le _ _)]
        exact h2

theorem slot_index_int (T i S : Nat)
    (hnw : (1 ≤ T + i ∧ T + i ≤ WORD) ∨ S ∣ WORD) :
    (T + i + (WORD - 1)) % WORD % S = Int.toNat (((T : Int) + (i : Int) - 1) % (S : Int)) := by
  have hW : 1 ≤ WORD := by simp [WORD]
  rcases hnw with ⟨h1, h2⟩ | h
  · have e1 : T + i + (WORD - 1) = (T + i - 1) + WORD := by omega
    have e2 : ((T : Int) + (i : Int) - 1) = ((T + i - 1 : Nat) : Int) := by omega
    rw [e1, Nat.add_mod_right, Nat.mod_eq_of_lt (show T + i - 1 < WORD by omega), e2,
      ← Int.natCast_mod, Int.toNat_ofNat]
  · obtain ⟨q, hq⟩ := h
    rw [Nat.mod_mod_of_dvd _ ⟨q, hq⟩]
    have e2 : ((T : Int) + (i : Int) - 1) =
        ((T + i + (WORD - 1) : Nat) : Int) + (S : Int) * (-(q : Int)) := by
      have hc : ((WORD : Nat) : Int) = (S : Int) * (q : Int) := by rw [hq]; push_cast; rfl
      have hm : (S : Int) * (-(q : Int)) = -((S : Int) * (q : Int)) := by
        rw [Int.mul_neg]
      rw [hm, ← hc]
      omega
    rw [e2, Int.add_mul_emod_self_left, ← Int.natCast_mod, Int.toNat_ofNat]

theorem TimeWheel.AddTask_big {T : Type} (w : TimeWheel T SlotNum) (task : T) (i : Nat)
    (hi : SlotNum < i) : w.AddTask task i = some w := by
  simp [TimeWheel.AddTask, hi]

theorem LRUCache.Inv.Size_keys {c : LRUCache K V} (hinv : c.Inv) : c.Size = c.keys.length := by
  obtain ⟨h, hd, cells, hinv⟩ := hinv
  rw [hinv.Size_eq, hinv.keys_perm.length_eq, List.length_map]

theorem LRUCache.Inv.mem_keys_iff_entries {c : LRUCache K V} (hinv : c.Inv) (k : K) :
    k ∈ c.keys ↔ k ∈ c.entries.map Prod.fst := by
  obtain ⟨h, hd, cells, hinv⟩ := hinv
  rw [hinv.mem_keys_iff, hinv.entries_keys]

omit [DecidableEq K] in
theorem TimeLRUCache.NoPending_iff (s : TimeLRUCache K V SlotNum) (k : K) :
    s.NoPending k ↔
      ∀ (idx : Nat) (slot : List (TimerTask K)), s.timeWheel.slots[idx]? = some slot →
        ∀ task ∈ slot, task.key ≠ k := by
  constructor
  · intro h idx slot hs
    exact h slot (List.getElem?_mem hs)
  · intro h slot hm
    obtain ⟨idx, hidx, rfl⟩ := List.getElem_of_mem hm
    exact h idx _ (List.getElem?_eq_getElem hidx)

/-- A tick on a wheel without task for `k` keeps the entry of `k` and brings
no task for `k`. -/
theorem TimeLRUCache.tick_nopending (s : TimeLRUCache K V SlotNum) (k : K) (v : V)
    (hinv : s.WInv) (hS : 0 < SlotNum) (hnp : s.NoPending k) (hkv : (k, v) ∈ s.cache.entries) :
    ∃ s2, s.tick = some s2 ∧ s2.WInv ∧ s2.NoPending k ∧ (k, v) ∈ s2.cache.entries := by
  obtain ⟨s2, h1, h2, h3, -, h5, -⟩ := s.tick_keep k v SlotNum hinv hS hkv
    (fun idx slot hs _ => (s.NoPending_iff k).1 hnp idx slot hs)
    (Nat.ne_of_lt (Nat.mod_lt _ hS))
  refine ⟨s2, h1, h2, ?_, h3⟩
  rw [TimeLRUCache.NoPending_iff]
  intro idx slot hs
  by_cases hidx : idx = SlotNum
  · subst hidx
    have hlen := h2.2.1
    have : s2.timeWheel.slots[s2.timeWheel.slots.length]? = none := by simp
    rw [hlen] at this
    rw [this] at hs
    cases hs
  · exact h5 idx slot hs hidx

theorem TimeLRUCache.ticks_nopending (s : TimeLRUCache K V SlotNum) (k : K) (v : V) (n : Nat)
    (hinv : s.WInv) (hS : 0 < SlotNum) (hnp : s.NoPending k) (hkv : (k, v) ∈ s.cache.entries) :
    ∃ s2, s.ticks n = some s2 ∧ s2.WInv ∧ s2.NoPending k ∧ (k, v) ∈ s2.cache.entries := by
  induction n generalizing s with
  | zero => exact ⟨s, rfl, hinv, hnp, hkv⟩
  | succ n ih =>
    obtain ⟨s1, h1, h2, h3, h4⟩ := s.tick_nopending k v hinv hS hnp hkv
    obtain ⟨s2, e1, e2, e3, e4⟩ := ih s1 h2 h3 h4
    exact ⟨s2, by simp [ticks, h1, e1], e2, e3, e4⟩

theorem TimeLRUCache.ticks_zero_slots (s s2 : TimeLRUCache K V SlotNum) (n : Nat)
    (hS : SlotNum = 0) (h : s.ticks n = some s2) : s2 = s := by
  cases n with
  | zero => simp only [ticks, Option.some.injEq] at h; exact h.symm
  | succ n =>
    subst hS
    simp [ticks, TimeLRUCache.tick, TimeWheel.tick] at h

theorem fireAll_record {T : Type} (tasks log : List T) :
    TimeWheel.fireAll TimeWheel.record tasks log = some (log ++ tasks) := by
  induction tasks generalizing log with
  | nil => simp [TimeWheel.fireAll]
  | cons t rest ih => simp [TimeWheel.fireAll, TimeWheel.record, ih]

theorem TimeWheel.tick_record {T : Type} (w : TimeWheel T SlotNum) (log : List T)
    (hlen : w.slots.length = SlotNum) (hS : 0 < SlotNum) :
    ∃ slot, w.slots[w.times % SlotNum]? = some slot ∧
      w.tick TimeWheel.record log = some ({ w with
        slots := w.slots.set (w.times % SlotNum) [],
        times := (w.times + 1) % WORD }, log ++ slot) := by
  have hlt : w.times % SlotNum < w.slots.length := by
    rw [hlen]; exact Nat.mod_lt _ hS
  refine ⟨w.slots[w.times % SlotNum], by simp [hlt], ?_⟩
  simp [TimeWheel.tick, Nat.pos_iff_ne_zero.1 hS, hlt, fireAll_record]

/-- Recording ticks that do not reach slot `j0` leave it alone and do not
fire a task that stands in no other slot. -/
theorem TimeWheel.ticksLog_keep {T : Type} [DecidableEq T] (w : TimeWheel T SlotNum)
    (log : List T) (task : T) (sl0 : List T) (T0 i j n : Nat)
    (hlen : w.slots.length = SlotNum) (hS : 0 < SlotNum) (hiS : i ≤ SlotNum)
    (hnw : T0 + i ≤ WORD ∨ SlotNum ∣ WORD)
    (hclean : ∀ (idx : Nat) (slot : List T), w.slots[idx]? = some slot →
      idx ≠ (T0 + i + (WORD - 1)) % WORD % SlotNum → task ∉ slot)
    (hin : w.slots[(T0 + i + (WORD - 1)) % WORD % SlotNum]? = some sl0)
    (htime : w.times = (T0 + j) % WORD) (hjn : j + n < i) :
    ∃ wn logn, w.ticksLog log n = some (wn, logn) ∧ wn.slots.length = SlotNum ∧
      (∀ (idx : Nat) (slot : List T), wn.slots[idx]? = some slot →
        idx ≠ (T0 + i + (WORD - 1)) % WORD % SlotNum → task ∉ slot) ∧
      wn.slots[(T0 + i + (WORD - 1)) % WORD % SlotNum]? = some sl0 ∧
      wn.times = (T0 + (j + n)) % WORD ∧ logn.count task = log.count task := by
  induction n generalizing w log j with
  | zero => exact ⟨w, log, rfl, hlen, hclean, hin, htime, rfl⟩
  | succ n ih =>
    have hne : w.times % SlotNum ≠ (T0 + i + (WORD - 1)) % WORD % SlotNum := by
      rw [htime]
      exact slot_arith_ne T0 i j SlotNum (by omega) hiS hnw
    obtain ⟨slot, h1, h2⟩ := w.tick_record log hlen hS
    have hnot : task ∉ slot := hclean _ slot h1 hne
    obtain ⟨wn, logn, e1, e2, e3, e4, e5, e6⟩ := ih
      { w with slots := w.slots.set (w.times % SlotNum) [], times := (w.times + 1) % WORD }
      (log ++ slot) (j + 1) (by simp [hlen])
      (by
        intro idx sl hsl hidx
        simp only [List.getElem?_set] at hsl
        split at hsl
        · split at hsl
          · cases hsl; simp
          · cases hsl
        · exact hclean idx sl hsl hidx)
      (by simp only [List.getElem?_set_ne hne]; exact hin)
      (by simp only [htime, Nat.mod_add_mod, Nat.add_assoc])
      (by omega)
    refine ⟨wn, logn, by simp [ticksLog, h2, e1], e2, e3, e4, ?_, ?_⟩
    · rw [e5]; congr 2; omega
    · rw [e6, List.count_append, List.count_eq_zero_of_not_mem hnot, Nat.add_zero]

/-- Recording ticks of a wheel that does not hold `task` never fire it. -/
theorem TimeWheel.ticksLog_gone {T : Type} [DecidableEq T] (w : TimeWheel T SlotNum)
    (log : List T) (task : T) (n : Nat) (hlen : w.slots.length = SlotNum) (hS : 0 < SlotNum)
    (hgone : ∀ slot ∈ w.slots, task ∉ slot) :
    ∃ wn logn, w.ticksLog log n = some (wn, logn) ∧ wn.slots.length = SlotNum ∧
      (∀ slot ∈ wn.slots, task ∉ slot) ∧ logn.count task = log.count task := by
  induction n generalizing w log with
  | zero => exact ⟨w, log, rfl, hlen, hgone, rfl⟩
  | succ n ih =>
    obtain ⟨slot, h1, h2⟩ := w.tick_record log hlen hS
    have hnot : task ∉ slot := hgone slot (List.getElem?_mem h1)
    obtain ⟨wn, logn, e1, e2, e3, e4⟩ := ih
      { w with slots := w.slots.set (w.times % SlotNum) [], times := (w.times + 1) % WORD }
      (log ++ slot) (by simp [hlen])
      (by
        intro sl hsl
        rcases List.mem_or_eq_of_mem_set hsl with hm | rfl
        · exact hgone sl hm
        · simp)
    refine ⟨wn, logn, by simp [ticksLog, h2, e1], e2, e3, ?_⟩
    rw [e4, List.count_append, List.count_eq_zero_of_not_mem hnot, Nat.add_zero]

theorem TimeWheel.ticksLog_add {T : Type} (w : TimeWheel T SlotNum) (log : List T)
    (m n : Nat) :
    w.ticksLog log (m + n) = (w.ticksLog log m).bind (fun r => r.1.ticksLog r.2 n) := by
  induction m generalizing w log with
  | zero => simp [ticksLog]
  | succ m ih =>
    rw [Nat.succ_add]
    simp only [ticksLog]
    cases w.tick TimeWheel.record log with
    | none => rfl
    | some r => simp [ih]

/-- The wheel of a timed cache advances as a wheel of recording tasks does,
whatever the cache holds. -/
theorem TimeLRUCache.tick_wheel_record (s : TimeLRUCache K V SlotNum)
    (log : List (TimerTask K)) (hinv : s.WInv) (hS : 0 < SlotNum) :
    s.tick.map (fun s2 => s2.timeWheel) =
      (s.timeWheel.tick TimeWheel.record log).map Prod.fst := by
  obtain ⟨slot, c2, -, h2, -, -⟩ := s.tick_spec hinv hS
  obtain ⟨slot2, -, h4⟩ := s.timeWheel.tick_record log hinv.2.1 hS
  rw [h2, h4]
  rfl

/-- One tick when `k` is either gone or has a task in slot `j0`: afterwards the
same alternative holds, and `k` is gone if the tick processed slot `j0`. -/
theorem TimeLRUCache.tick_disj (s : TimeLRUCache K V SlotNum) (k : K) (j0 : Nat)
    (hinv : s.WInv) (hS : 0 < SlotNum)
    (hd : k ∉ s.cache.entries.map Prod.fst ∨
      ∃ slot, s.timeWheel.slots[j0]? = some slot ∧ (⟨k⟩ : TimerTask K) ∈ slot) :
    ∃ s2, s.tick = some s2 ∧ s2.WInv ∧
      s2.timeWheel.times = (s.timeWheel.times + 1) % WORD ∧
      (k ∉ s2.cache.entries.map Prod.fst ∨
        ∃ slot, s2.timeWheel.slots[j0]? = some slot ∧ (⟨k⟩ : TimerTask K) ∈ slot) ∧
      (s.timeWheel.times % SlotNum = j0 → k ∉ s2.cache.entries.map Prod.fst) := by
  rcases hd with hk | ⟨slot, hs1, hs2⟩
  · obtain ⟨s2, h1, h2, h3⟩ := s.tick_absent k hinv hS hk
    obtain ⟨sl, c2, -, e2, -, -⟩ := s.tick_spec hinv hS
    rw [h1] at e2
    cases e2
    exact ⟨_, h1, h2, rfl, Or.inl h3, fun _ => h3⟩
  · by_cases hj : s.timeWheel.times % SlotNum = j0
    · obtain ⟨s2, h1, h2, h3⟩ := s.tick_fire k hinv hS ⟨slot, by rw [hj]; exact hs1, hs2⟩
      obtain ⟨sl, c2, -, e2, -, -⟩ := s.tick_spec hinv hS
      rw [h1] at e2
      cases e2
      exact ⟨_, h1, h2, rfl, Or.inl h3, fun _ => h3⟩
    · obtain ⟨sl, c2, -, e2, -, -⟩ := s.tick_spec hinv hS
      refine ⟨_, e2, s.step_winv _ .tick hinv e2, rfl, Or.inr ⟨slot, ?_, hs2⟩,
        fun h => absurd h hj⟩
      simp only [List.getElem?_set_ne hj]
      exact hs1

theorem TimeLRUCache.ticks_disj (s : TimeLRUCache K V SlotNum) (k : K) (j0 T j n : Nat)
    (hinv : s.WInv) (hS : 0 < SlotNum) (htime : s.timeWheel.times = (T + j) % WORD)
    (hd : k ∉ s.cache.entries.map Prod.fst ∨
      ∃ slot, s.timeWheel.slots[j0]? = some slot ∧ (⟨k⟩ : TimerTask K) ∈ slot) :
    ∃ s2, s.ticks n = some s2 ∧ s2.WInv ∧ s2.timeWheel.times = (T + (j + n)) % WORD ∧
      (k ∉ s2.cache.entries.map Prod.fst ∨
        ∃ slot, s2.timeWheel.slots[j0]? = some slot ∧ (⟨k⟩ : TimerTask K) ∈ slot) := by
  induction n generalizing s j with
  | zero => exact ⟨s, rfl, hinv, htime, hd⟩
  | succ n ih =>
    obtain ⟨s1, h1, h2, h3, h4, -⟩ := s.tick_disj k j0 hinv hS hd
    have htime1 : s1.timeWheel.times = (T + (j + 1)) % WORD := by
      rw [h3, htime, Nat.mod_add_mod, Nat.add_assoc]
    obtain ⟨s2, e1, e2, e3, e4⟩ := ih s1 (j + 1) h2 htime1 h4
    refine ⟨s2, by simp [ticks, h1, e1], e2, ?_, e4⟩
    rw [e3]; congr 2; omega

/-- A key with a task filed for interval `i` is gone after `i` ticks or more. -/
theorem TimeLRUCache.ticks_due (s : TimeLRUCache K V SlotNum) (k : K) (i t : Nat)
    (hinv : s.WInv) (hS : 0 < SlotNum) (hi1 : 1 ≤ i) (hit : i ≤ t)
    (hin : ∃ slot, s.timeWheel.slots[(s.timeWheel.times + i + (WORD - 1)) % WORD % SlotNum]? =
      some slot ∧ (⟨k⟩ : TimerTask K) ∈ slot) :
    ∃ s2, s.ticks t = some s2 ∧ s2.WInv ∧ k ∉ s2.cache.entries.map Prod.fst := by
  obtain ⟨sa, e1, e2, e3, e4⟩ := s.ticks_disj k _ s.timeWheel.times 0 (i - 1) hinv hS
    (by simp [Nat.mod_eq_of_lt hinv.2.2]) (Or.inr hin)
  have hslot : sa.timeWheel.times % SlotNum =
      (s.timeWheel.times + i + (WORD - 1)) % WORD % SlotNum := by
    rw [e3, Nat.zero_add]
    exact slot_arith_eq _ i SlotNum hi1
  obtain ⟨sb, f1, f2, -, -, f5⟩ := sa.tick_disj k _ e2 hS e4
  obtain ⟨s2, g1, g2, g3⟩ := sb.ticks_absent k (t - i) f2 hS (f5 hslot)
  have ht : t = (i - 1) + ((t - i) + 1) := by omega
  refine ⟨s2, ?_, g2, g3⟩
  rw [ht, TimeLRUCache.ticks_add, e1]
  simp [TimeLRUCache.ticks, f1, g1]

/-- Ticks that only process slots outside `bad`, the slots that may hold a
task for `k`, keep the entry of `k`. -/
theorem TimeLRUCache.ticks_keep_gen (s : TimeLRUCache K V SlotNum) (k : K) (v : V)
    (bad : Nat → Prop) (T j n : Nat) (hinv : s.WInv) (hS : 0 < SlotNum)
    (hkv : (k, v) ∈ s.cache.entries)
    (hclean : ∀ (idx : Nat) (slot : List (TimerTask K)), s.timeWheel.slots[idx]? = some slot →
      ¬ bad idx → ∀ task ∈ slot, task.key ≠ k)
    (htime : s.timeWheel.times = (T + j) % WORD)
    (hbad : ∀ m, m < n → ¬ bad ((T + (j + m)) % WORD % SlotNum)) :
    ∃ s2, s.ticks n = some s2 ∧ s2.WInv ∧ (k, v) ∈ s2.cache.entries := by
  induction n generalizing s j with
  | zero => exact ⟨s, rfl, hinv, hkv⟩
  | succ n ih =>
    obtain ⟨slot, c2, h1, h2, h3, h4⟩ := s.tick_spec hinv hS
    have hnb : ¬ bad (s.timeWheel.times % SlotNum) := by
      rw [htime]
      exact hbad 0 (Nat.succ_pos n)
    have hkv2 : (k, v) ∈ c2.entries := by
      rw [h4, List.mem_filter]
      refine ⟨hkv, ?_⟩
      have : k ∉ slot.map TimerTask.key := by
        intro hm
        rw [List.mem_map] at hm
        obtain ⟨task, ht, hk⟩ := hm
        exact hclean _ slot h1 hnb task ht hk
      simpa using this
    obtain ⟨s2, e1, e2, e3⟩ := ih _ (j + 1) (s.step_winv _ .tick hinv h2) hkv2
      (by
        intro idx sl hsl hidx task ht
        simp only [List.getElem?_set] at hsl
        split at hsl
        · split at hsl
          · cases hsl; simp at ht
          · cases hsl
        · exact hclean idx sl hsl hidx task ht)
      (by simp only [htime, Nat.mod_add_mod, Nat.add_assoc])
      (by
        intro m hm
        have := hbad (m + 1) (by omega)
        have e : j + (m + 1) = j + 1 + m := by omega
        rw [e] at this
        exact this)
    exact ⟨s2, by simp [ticks, h2, e1], e2, e3⟩

theorem TimeLRUCache.get_absent (s : TimeLRUCache K V SlotNum) (k : K) (hinv : s.WInv)
    (hk : k ∉ s.cache.entries.map Prod.fst) : s.Get k = some (none, s) :=
  s.Get_of_cache k none s.cache ((s.cache.Get_spec k hinv.1).2 hk)

theorem TimeLRUCache.get_present (s : TimeLRUCache K V SlotNum) (k : K) (v : V)
    (hinv : s.WInv) (hkv : (k, v) ∈ s.cache.entries) : ∃ s3, s.Get k = some (some v, s3) := by
  obtain ⟨c3, hg⟩ := (s.cache.Get_spec k hinv.1).1 v hkv
  exact ⟨_, s.Get_of_cache k _ c3 hg⟩

/-- `Put(k, v, i)` with `i ≤ SlotNum` on a consistent timed cache: the entry
is stored and the task is appended to its slot. -/
theorem TimeLRUCache.Put_sched (s : TimeLRUCache K V SlotNum) (k : K) (v : V) (i : Nat)
    (hinv : s.WInv) (hS : 0 < SlotNum) (hi : i ≤ SlotNum) :
    ∃ slot s1, s.timeWheel.slots[(s.timeWheel.times + i + (WORD - 1)) % WORD % SlotNum]? =
        some slot ∧
      s.Put k v i = some s1 ∧ s1.WInv ∧ (k, v) ∈ s1.cache.entries ∧
      s1.timeWheel.slots = s.timeWheel.slots.set
        ((s.timeWheel.times + i + (WORD - 1)) % WORD % SlotNum) (slot ++ [⟨k⟩]) ∧
      s1.timeWheel.times = s.timeWheel.times := by
  obtain ⟨c1, hp1, hp2, hp3⟩ := s.cache.Put_spec k v hinv.1
  obtain ⟨slot, ha1, ha2⟩ := s.timeWheel.AddTask_eq ⟨k⟩ i hinv.2.1 hi hS
  obtain ⟨w1, hw1, hsl, htm⟩ : ∃ w1 : TimeWheel (TimerTask K) SlotNum,
      s.timeWheel.AddTask ⟨k⟩ i = some w1 ∧
      w1.slots = s.timeWheel.slots.set
        ((s.timeWheel.times + i + (WORD - 1)) % WORD % SlotNum) (slot ++ [⟨k⟩]) ∧
      w1.times = s.timeWheel.times := ⟨_, ha2, rfl, rfl⟩
  have hput : s.Put k v i = some { cache := c1, timeWheel := w1 } := by
    simp [TimeLRUCache.Put, hp1, hw1]
  exact ⟨slot, _, ha1, hput, s.step_winv _ (.put k v i) hinv hput, hp3, hsl, htm⟩

theorem chain_seg {T : Type} (mem : Nat → Option (LinkNode T)) (xs : List (Nat × T)) (prv : Ptr)
    (fuel : Nat) (hseg : Seg mem prv xs none) (hfuel : xs.length ≤ fuel) :
    LinkList.chain mem fuel (firstAddr xs none) = some (xs.map Prod.fst) := by
  induction xs generalizing prv fuel with
  | nil => cases fuel <;> rfl
  | cons c rest ih =>
    rw [Seg_cons] at hseg
    cases fuel with
    | zero => simp at hfuel
    | succ fuel =>
      have := ih (some c.1) fuel hseg.2 (by simpa using hfuel)
      show LinkList.chain mem (fuel + 1) (some c.1) = _
      simp only [LinkList.chain, hseg.1]
      rw [this]
      rfl

theorem LinkList.Wf.nodes_eq {T : Type} {l : LinkList T} {h : Nat} {hd : T}
    {cells : List (Nat × T)} (hwf : l.Wf h hd cells) : l.nodes = some (cells.map Prod.fst) := by
  have hlen := hwf.length_lt
  have hseg := hwf.seg
  rw [Seg_cons] at hseg
  simp only [LinkList.nodes, load, hwf.head_eq, hseg.1]
  exact chain_seg l.mem cells _ _ hseg.2 (Nat.le_of_lt hlen)

theorem lastAddr_getLast {T : Type} (xs : List (Nat × T)) (d : Nat) :
    lastAddr xs (some d) = (d :: xs.map Prod.fst).getLast? := by
  induction xs generalizing d with
  | nil => rfl
  | cons x xs ih =>
    rw [List.map_cons, List.getLast?_cons_cons, ← ih]
    rfl

theorem Seg_prev_next {T : Type} (mem : Nat → Option (LinkNode T)) (xs : List (Nat × T))
    (p : Nat) (pn : LinkNode T) (nxt : Ptr) (hseg : Seg mem (some p) xs nxt)
    (hp : mem p = some pn) (hpn : pn.next = firstAddr xs nxt) :
    ∀ a ∈ xs.map Prod.fst, ∃ n q qn, mem a = some n ∧ n.prev = some q ∧ mem q = some qn ∧
      qn.next = some a := by
  induction xs generalizing p pn with
  | nil => simp
  | cons c rest ih =>
    rw [Seg_cons] at hseg
    intro a ha
    simp only [List.map_cons, List.mem_cons] at ha
    rcases ha with rfl | ha
    · exact ⟨_, p, pn, hseg.1, rfl, hp, hpn⟩
    · exact ih c.1 _ hseg.2 hseg.1 rfl a ha

theorem LinkList.Wf.structural {T : Type} {l : LinkList T} {h : Nat} {hd : T}
    {cells : List (Nat × T)} (hwf : l.Wf h hd cells) : l.Structural := by
  have hseg := hwf.seg
  rw [Seg_cons] at hseg
  refine ⟨h, _, cells.map Prod.fst, hwf.head_eq, hseg.1, rfl, hwf.nodes_eq, ?_, ?_, ?_, ?_⟩
  · simp [hwf.size_eq]
  · rw [hwf.tail_eq, lastAddr_getLast]
  · rw [hwf.tail_eq, hwf.head_eq, lastAddr_eq_default_iff cells h hwf.nodup, hwf.size_eq]
    exact List.length_eq_zero.symm
  · exact Seg_prev_next l.mem cells h _ none hseg.2 hseg.1 rfl

theorem LinkList.Wf.linked_iff {T : Type} {l : LinkList T} {h : Nat} {hd : T}
    {cells : List (Nat × T)} (hwf : l.Wf h hd cells) (a : Nat) :
    l.linked a = true ↔ a ∈ cells.map Prod.fst := by
  simp [LinkList.linked, hwf.nodes_eq]

theorem cells_split_addr {T : Type} (cells : List (Nat × T)) (a : Nat)
    (ha : a ∈ cells.map Prod.fst) : ∃ pre d post, cells = pre ++ (a, d) :: post := by
  simp only [List.mem_map] at ha
  obtain ⟨⟨a1, d⟩, he, rfl⟩ := ha
  obtain ⟨pre, post, hsplit⟩ := List.append_of_mem he
  exact ⟨pre, d, post, hsplit⟩

theorem LinkList.promote_wf {T : Type} (l : LinkList T) (h : Nat) (hd : T)
    (pre post : List (Nat × T)) (a : Nat) (d : T) (hwf : l.Wf h hd (pre ++ (a, d) :: post)) :
    ∃ l1 l2, l.Spare (some a) = some l1 ∧ l1.PushFrontNode (some a) = some l2 ∧
      l1.Wf h hd (pre ++ post) ∧ l2.Wf h hd ((a, d) :: (pre ++ post)) := by
  obtain ⟨l1, h1, hwf1, hbrk, ⟨p, n, hma⟩, hanot, halt⟩ := l.Spare_wf h hd pre post a d hwf
  obtain ⟨l2, h2, hwf2, -⟩ := l1.PushFrontNode_wf h hd (pre ++ post) a _ hwf1 hanot
    (by rw [hbrk]; exact halt) hma
  exact ⟨l1, l2, h1, h2, hwf1, hwf2⟩

theorem LinkList.perform_wf {T : Type} (l : LinkList T) (h : Nat) (hd : T)
    (cells : List (Nat × T)) (o : LOp T) (hwf : l.Wf h hd cells) (hadm : l.admits o = true) :
    ∃ l2 cells2, l.perform o = some l2 ∧ l2.Wf h hd cells2 := by
  cases o with
  | pushFront d =>
    obtain ⟨l2, h1, h2, -⟩ := l.PushFront_wf h hd cells d hwf
    exact ⟨l2, _, h1, h2⟩
  | pushBack d =>
    obtain ⟨l2, h1, h2, -⟩ := l.PushBack_wf h hd cells d hwf
    exact ⟨l2, _, h1, h2⟩
  | spare a =>
    obtain ⟨pre, d, post, rfl⟩ := cells_split_addr cells a ((hwf.linked_iff a).1 hadm)
    obtain ⟨l2, h1, h2, -⟩ := l.Spare_wf h hd pre post a d hwf
    exact ⟨l2, _, h1, h2⟩
  | delete a =>
    obtain ⟨pre, d, post, rfl⟩ := cells_split_addr cells a ((hwf.linked_iff a).1 hadm)
    obtain ⟨l2, h1, h2, -⟩ := l.Delete_wf h hd pre post a d hwf
    exact ⟨l2, _, h1, h2⟩
  | popBack =>
    rcases List.eq_nil_or_concat cells with rfl | ⟨pre, ⟨a, d⟩, rfl⟩
    · exact ⟨l, _, l.PopBack_empty h hd hwf, hwf⟩
    · obtain ⟨l2, h1, h2, -⟩ := l.PopBack_wf h hd pre a d (by simpa using hwf)
      exact ⟨l2, _, h1, h2⟩
  | promote a =>
    obtain ⟨pre, d, post, rfl⟩ := cells_split_addr cells a ((hwf.linked_iff a).1 hadm)
    obtain ⟨l1, l2, h1, h2, -, hwf2⟩ := l.promote_wf h hd pre post a d hwf
    exact ⟨l2, _, by simp [LinkList.perform, h1, h2], hwf2⟩

theorem LinkList.performAll_wf {T : Type} (l l2 : LinkList T) (h : Nat) (hd : T)
    (cells : List (Nat × T)) (ops : List (LOp T)) (hwf : l.Wf h hd cells)
    (hrun : l.performAll ops = some l2) : ∃ cells2, l2.Wf h hd cells2 := by
  induction ops generalizing l cells with
  | nil =>
    simp only [LinkList.performAll, Option.some.injEq] at hrun
    subst hrun
    exact ⟨cells, hwf⟩
  | cons o os ih =>
    simp only [LinkList.performAll] at hrun
    split at hrun
    · rename_i hadm
      obtain ⟨l1, cells1, h1, hwf1⟩ := l.perform_wf h hd cells o hwf hadm
      rw [h1] at hrun
      exact ih l1 cells1 hwf1 hrun
    · cases hrun

theorem LinkList.Built.wf {T : Type} [Inhabited T] {l : LinkList T} (hb : l.Built) :
    ∃ cells, l.Wf 1 default cells := by
  obtain ⟨ops, hops⟩ := hb
  exact LinkList.performAll_wf _ l 1 default [] ops LinkList.new_wf hops

theorem LinkList.Wf.Spare_head {T : Type} {l : LinkList T} {h : Nat} {hd : T}
    {cells : List (Nat × T)} (hwf : l.Wf h hd cells) :
    l.Spare l.head = none ∧ l.Delete l.head = none := by
  have hseg := hwf.seg
  rw [Seg_cons] at hseg
  have h1 : l.Spare l.head = none := by
    simp [LinkList.Spare, load, store, hwf.head_eq, hseg.1]
  exact ⟨h1, by simp [LinkList.Delete, h1]⟩

theorem LinkList.Wf.node_ne_head {T : Type} {l : LinkList T} {h : Nat} {hd : T}
    {pre post : List (Nat × T)} {a : Nat} {d : T} (hwf : l.Wf h hd (pre ++ (a, d) :: post)) :
    some a ≠ l.head ∧ ∃ n q, l.mem a = some n ∧ n.prev = some q := by
  have hnd := hwf.nodup
  have hseg := hwf.seg
  have happ : (h, hd) :: (pre ++ (a, d) :: post) = ((h, hd) :: pre) ++ (a, d) :: post := rfl
  rw [happ, Seg_append] at hseg
  obtain ⟨t, ht, -⟩ := lastAddr_mem pre h
  have hma := hseg.2
  rw [Seg_cons] at hma
  refine ⟨?_, _, t, hma.1, ?_⟩
  · rw [hwf.head_eq]
    intro e
    injection e with e
    subst e
    simp at hnd
  · show lastAddr ((h, hd) :: pre) none = some t
    exact ht

theorem TimeLRUCache.Start_stopped (s : TimeLRUCache K V SlotNum) (env : List Bool)
    (hs : s.timeWheel.stop = true) : s.Start env = some (s, true) := by
  cases env with
  | nil => simp [TimeLRUCache.Start, TimeWheel.Start, hs]
  | cons e env => simp [TimeLRUCache.Start, TimeWheel.Start, hs]

theorem TimeLRUCache.Start_cons (s : TimeLRUCache K V SlotNum) (e : Bool) (env : List Bool)
    (hs : s.timeWheel.stop = false) :
    s.Start (e :: env) = s.tick.bind (fun s1 => (if e then s1.Stop else s1).Start env) := by
  simp only [TimeLRUCache.Start, TimeWheel.Start, hs, TimeLRUCache.tick]
  cases s.timeWheel.tick TimeLRUCache.fire s.cache with
  | none => rfl
  | some r =>
    obtain ⟨w1, c1⟩ := r
    cases e <;> rfl

theorem TimeLRUCache.tick_stop (s s1 : TimeLRUCache K V SlotNum) (h : s.tick = some s1) :
    s1.timeWheel.stop = s.timeWheel.stop := by
  simp only [TimeLRUCache.tick, TimeWheel.tick, Option.bind_eq_bind] at h
  split at h
  · cases h
  · split at h
    · cases h
    · simp only [Option.bind_eq_some, Option.some.injEq] at h
      obtain ⟨r, ⟨c1, -, hr⟩, h2⟩ := h
      subst hr
      cases h2
      rfl

theorem TimeLRUCache.step_stop (s s2 : TimeLRUCache K V SlotNum) (o : TOp K V)
    (hs : s.step o = some s2) : s2.timeWheel.stop = s.timeWheel.stop := by
  cases o with
  | put k v i =>
    simp only [step, TimeLRUCache.Put, Option.bind_eq_bind, Option.bind_eq_some] at hs
    obtain ⟨c1, -, w1, h2, h3⟩ := hs
    cases h3
    exact (s.timeWheel.AddTask_shape w1 _ i h2).2.2
  | tryPut k v i =>
    simp only [step, TimeLRUCache.TryPut, Option.bind_eq_bind, Option.map_eq_some',
      Option.bind_eq_some] at hs
    obtain ⟨r, ⟨rc, -, w1, h2, h3⟩, h4⟩ := hs
    cases h3
    cases h4
    exact (s.timeWheel.AddTask_shape w1 _ i h2).2.2
  | get k =>
    simp only [step, TimeLRUCache.Get, Option.bind_eq_bind, Option.map_eq_some',
      Option.bind_eq_some] at hs
    obtain ⟨r, ⟨rc, -, h3⟩, h4⟩ := hs
    cases h3
    cases h4
    rfl
  | evict =>
    simp only [step, TimeLRUCache.Evict, Option.bind_eq_bind, Option.bind_eq_some] at hs
    obtain ⟨c1, -, h3⟩ := hs
    cases h3
    rfl
  | evictKey k =>
    simp only [step, TimeLRUCache.EvictKey, Option.bind_eq_bind, Option.bind_eq_some] at hs
    obtain ⟨c1, -, h3⟩ := hs
    cases h3
    rfl
  | tick => exact s.tick_stop s2 hs

theorem TimeLRUCache.run_stop (s s2 : TimeLRUCache K V SlotNum) (ops : List (TOp K V))
    (hs : s.run ops = some s2) : s2.timeWheel.stop = s.timeWheel.stop := by
  induction ops generalizing s with
  | nil =>
    simp only [run, Option.some.injEq] at hs
    rw [hs]
  | cons o os ih =>
    simp only [run, Option.bind_eq_some] at hs
    obtain ⟨s1, h1, h2⟩ := hs
    rw [ih s1 h2, s.step_stop s1 o h1]

theorem TimeLRUCache.ticks_total (s : TimeLRUCache K V SlotNum) (hinv : s.WInv)
    (hS : 0 < SlotNum) (n : Nat) :
    ∃ s2, s.ticks n = some s2 ∧ s2.WInv ∧ s2.timeWheel.stop = s.timeWheel.stop := by
  induction n generalizing s with
  | zero => exact ⟨s, rfl, hinv, rfl⟩
  | succ n ih =>
    obtain ⟨slot, c2, -, h2, -⟩ := s.tick_spec hinv hS
    have hw := s.step_winv _ .tick hinv h2
    have hst := s.tick_stop _ h2
    obtain ⟨s2, e1, e2, e3⟩ := ih _ hw
    exact ⟨s2, by simp [ticks, h2, e1], e2, by rw [e3, hst]⟩

theorem TimeLRUCache.Start_ticks (s : TimeLRUCache K V SlotNum) (n : Nat) (env : List Bool)
    (hinv : s.WInv) (hS : 0 < SlotNum) (hs : s.timeWheel.stop = false) :
    s.Start (List.replicate n false ++ true :: env) =
      (s.ticks (n + 1)).map (fun s1 => (s1.Stop, true)) := by
  induction n generalizing s with
  | zero =>
    obtain ⟨slot, c2, -, h2, -⟩ := s.tick_spec hinv hS
    simp only [List.replicate, List.nil_append]
    rw [s.Start_cons true env hs, h2]
    simp [ticks, h2, TimeLRUCache.Start_stopped, TimeLRUCache.Stop, TimeWheel.Stop]
  | succ n ih =>
    obtain ⟨slot, c2, -, h2, -⟩ := s.tick_spec hinv hS
    have hw := s.step_winv _ .tick hinv h2
    have hst := s.tick_stop _ h2
    simp only [List.replicate, List.cons_append]
    rw [s.Start_cons false _ hs, h2]
    simp only [Option.some_bind, Bool.false_eq_true, if_false]
    rw [ih _ hw (by rw [hst, hs])]
    simp [ticks, h2]

theorem Shared.runSchedule_append (st : Shared K V SlotNum) (xs ys : List (Nat × Act K V)) :
    st.runSchedule (xs ++ ys) =
      (st.runSchedule xs).bind (fun r =>
        (r.1.runSchedule ys).map (fun r2 => (r2.1, r.2 ++ r2.2))) := by
  induction xs generalizing st with
  | nil =>
    rw [List.nil_append]
    cases hy : st.runSchedule ys <;> simp [Shared.runSchedule, hy]
  | cons e xs ih =>
    rw [List.cons_append]
    cases h1 : st.exec e.1 e.2 with
    | none => simp [Shared.runSchedule, h1]
    | some st1 =>
      cases h2 : st1.runSchedule xs with
      | none => simp [Shared.runSchedule, h1, h2, ih]
      | some r =>
        cases h3 : r.1.runSchedule ys with
        | none => simp [Shared.runSchedule, h1, h2, h3, ih]
        | some r2 =>
          by_cases hg : (e.2.shared && !decide (st.owner = some e.1)) = true
          · simp [Shared.runSchedule, h1, h2, h3, ih, hg]
          · simp [Shared.runSchedule, h1, h2, h3, ih, hg]

/-- A thread that runs `Put` from a state with the mutex free, without
another thread stepping in, does what the sequential `Put` does, and touches
nothing without the mutex. -/
theorem Shared.run_PutSteps (s : TimeLRUCache K V SlotNum) (t : Nat) (k : K) (v : V) (i : Nat) :
    (⟨s, none⟩ : Shared K V SlotNum).runSchedule
        ((TimeLRUCache.PutSteps k v i).map (fun a => (t, a))) =
      (s.Put k v i).map (fun s2 => (⟨s2, none⟩, [])) := by
  cases h1 : s.cache.Put k v with
  | none =>
    simp [TimeLRUCache.PutSteps, Shared.runSchedule, Shared.exec, TimeLRUCache.Put, h1]
  | some c =>
    cases h2 : s.timeWheel.AddTask ⟨k⟩ i with
    | none =>
      simp [TimeLRUCache.PutSteps, Shared.runSchedule, Shared.exec, TimeLRUCache.Put, h1, h2]
    | some w =>
      simp [TimeLRUCache.PutSteps, Shared.runSchedule, Shared.exec, TimeLRUCache.Put, h1, h2,
        Act.shared]

/-- A thread that runs `Evict(key)` alone does what the sequential function
does. -/
theorem Shared.run_EvictKeySteps (s : TimeLRUCache K V SlotNum) (t : Nat) (k : K) :
    (⟨s, none⟩ : Shared K V SlotNum).runSchedule
        ((TimeLRUCache.EvictKeySteps k).map (fun a => (t, a))) =
      (s.EvictKey k).map (fun s2 => (⟨s2, none⟩, [])) := by
  cases h1 : s.cache.EvictKey k with
  | none =>
    simp [TimeLRUCache.EvictKeySteps, Shared.runSchedule, Shared.exec, TimeLRUCache.EvictKey, h1]
  | some c =>
    simp [TimeLRUCache.EvictKeySteps, Shared.runSchedule, Shared.exec, TimeLRUCache.EvictKey, h1,
      Act.shared]

theorem Shared.run_fireSteps (s : TimeLRUCache K V SlotNum) (t : Nat)
    (slot : List (TimerTask K)) :
    (⟨s, none⟩ : Shared K V SlotNum).runSchedule
        ((TimeLRUCache.fireSteps slot).map (fun a => (t, a))) =
      (TimeWheel.fireAll TimeLRUCache.fire slot s.cache).map
        (fun c => (⟨{ s with cache := c }, none⟩, [])) := by
  induction slot generalizing s with
  | nil => rfl
  | cons task rest ih =>
    rw [TimeLRUCache.fireSteps, List.map_append, Shared.runSchedule_append,
      Shared.run_EvictKeySteps]
    cases h1 : s.cache.EvictKey task.key with
    | none => simp [TimeLRUCache.EvictKey, TimeWheel.fireAll, TimeLRUCache.fire, h1]
    | some c =>
      have := ih { s with cache := c }
      cases h2 : TimeWheel.fireAll TimeLRUCache.fire rest c with
      | none =>
        rw [h2] at this
        simp [TimeLRUCache.EvictKey, TimeWheel.fireAll, TimeLRUCache.fire, h1, h2, this]
      | some c2 =>
        rw [h2] at this
        simp [TimeLRUCache.EvictKey, TimeWheel.fireAll, TimeLRUCache.fire, h1, h2, this]

/-- A thread that runs one iteration of the loop of `Start` alone does what
the sequential tick does; it touches the slots and `times` without the
mutex. -/
theorem Shared.run_StartIterSteps (s : TimeLRUCache K V SlotNum) (t : Nat)
    (slot : List (TimerTask K))
    (hslot : s.timeWheel.slots.get? (s.timeWheel.times % SlotNum) = some slot)
    (hS : 0 < SlotNum) :
    (⟨s, none⟩ : Shared K V SlotNum).runSchedule
        ((TimeLRUCache.StartIterSteps slot).map (fun a => (t, a))) =
      s.tick.map (fun s2 => (⟨s2, none⟩, [(t, .readSlot), (t, .clearSlot), (t, .incTimes)])) := by
  have hne : SlotNum ≠ 0 := Nat.pos_iff_ne_zero.1 hS
  have hcons : (TimeLRUCache.StartIterSteps slot).map (fun a => (t, a)) =
      [(t, (.readSlot : Act K V))] ++ ((TimeLRUCache.fireSteps slot).map (fun a => (t, a)) ++
        [(t, .clearSlot), (t, .incTimes)]) := by
    simp [TimeLRUCache.StartIterSteps]
  have hslot2 : s.timeWheel.slots[s.timeWheel.times % SlotNum]? = some slot := by
    simpa using hslot
  have hread : (⟨s, none⟩ : Shared K V SlotNum).runSchedule [(t, (.readSlot : Act K V))] =
      some (⟨s, none⟩, [(t, .readSlot)]) := by
    simp [Shared.runSchedule, Shared.exec, hne, hslot2, Act.shared]
  rw [hcons, Shared.runSchedule_append, hread, Option.some_bind, Shared.runSchedule_append,
    Shared.run_fireSteps]
  cases h1 : TimeWheel.fireAll TimeLRUCache.fire slot s.cache with
  | none => simp [TimeLRUCache.tick, TimeWheel.tick, hne, hslot2, h1]
  | some c =>
    simp [TimeLRUCache.tick, TimeWheel.tick, hne, hslot2, h1, Shared.runSchedule, Shared.exec,
      Act.shared]

theorem LRUCache.run_append (c : LRUCache K V) (xs ys : List (Op K V)) :
    c.run (xs ++ ys) = (c.run xs).bind (fun c1 => c1.run ys) := by
  induction xs generalizing c with
  | nil => rfl
  | cons o os ih =>
    simp only [List.cons_append, run]
    cases c.step o with
    | none => rfl
    | some c1 => simp [ih]

/-- `Put` of fresh, pairwise distinct keys, one after the other, stacks the
entries in front of those held, the last one first. -/
theorem LRUCache.run_puts (c : LRUCache K V) (h : Nat) (hd : K × V)
    (cells : List (Nat × (K × V))) (kvs : List (K × V)) (hinv : c.InvAt h hd cells)
    (hnd : (kvs.map Prod.fst).Nodup)
    (hfresh : ∀ k ∈ kvs.map Prod.fst, k ∉ cells.map (fun e => e.2.1)) :
    ∃ c2 cells2, c.run (kvs.map (fun e => Op.put e.1 e.2)) = some c2 ∧ c2.InvAt h hd cells2 ∧
      cells2.map Prod.snd = kvs.reverse ++ cells.map Prod.snd := by
  induction kvs generalizing c cells with
  | nil => exact ⟨c, cells, rfl, hinv, by simp⟩
  | cons e rest ih =>
    obtain ⟨k, v⟩ := e
    simp only [List.map_cons, List.nodup_cons, List.mem_cons, forall_eq_or_imp] at hnd hfresh
    obtain ⟨c1, h1, hinv1, -⟩ := c.Put_absent h hd cells k v hinv hfresh.1
    obtain ⟨c2, cells2, h2, hinv2, h3⟩ := ih c1 ((c.list.brk, (k, v)) :: cells) hinv1 hnd.2
      (by
        intro k2 hk2 hm
        simp only [List.map_cons, List.mem_cons] at hm
        rcases hm with rfl | hm
        · exact hnd.1 hk2
        · exact hfresh.2 k2 hk2 hm)
    refine ⟨c2, cells2, ?_, hinv2, ?_⟩
    · simp only [List.map_cons, run, step, h1, Option.some_bind, h2]
    · rw [h3]
      simp

theorem flatten_set_nil_perm {T : Type} (L : List (List T)) (idx : Nat) (slot : List T)
    (h : L[idx]? = some slot) : (slot ++ (L.set idx []).flatten).Perm L.flatten := by
  have hlt : idx < L.length := by
    by_contra hge
    rw [List.getElem?_eq_none (Nat.le_of_not_lt hge)] at h
    cases h
  have hget : L[idx] = slot := by
    rw [List.getElem?_eq_getElem hlt] at h
    exact Option.some.inj h
  have hL : L = L.take idx ++ slot :: L.drop (idx + 1) := by
    rw [← hget, List.getElem_cons_drop, List.take_append_drop]
  have hset : L.set idx [] = L.take idx ++ [] :: L.drop (idx + 1) := by
    rw [List.set_eq_take_append_cons_drop, if_pos hlt]
  rw [hset]
  conv_rhs => rw [hL]
  simp only [List.flatten_append, List.flatten_cons, List.nil_append]
  rw [← List.append_assoc, ← List.append_assoc]
  exact List.Perm.append_right _ List.perm_append_comm

/-- Recording ticks of a wheel: they run, keep the number of slots, advance
the counter modulo `2 ^ 64`, move tasks from the slots to the log without
losing or doubling any, leave empty slots empty, and empty the slot of each
tick. -/
theorem TimeWheel.ticksLog_sweep {T : Type} (w : TimeWheel T SlotNum) (log : List T) (n : Nat)
    (hlen : w.slots.length = SlotNum) (hS : 0 < SlotNum) (hT : w.times < WORD) :
    ∃ wn logn, w.ticksLog log n = some (wn, logn) ∧ wn.slots.length = SlotNum ∧
      wn.times = (w.times + n) % WORD ∧ wn.stop = w.stop ∧
      (logn ++ wn.slots.flatten).Perm (log ++ w.slots.flatten) ∧
      (∀ idx : Nat, w.slots[idx]? = some [] → wn.slots[idx]? = some []) ∧
      (∀ i, i < n → wn.slots[(w.times + i) % WORD % SlotNum]? = some []) := by
  induction n generalizing w log with
  | zero =>
    exact ⟨w, log, rfl, hlen, by simp [Nat.mod_eq_of_lt hT], rfl, List.Perm.refl _,
      fun _ h => h, fun i hi => absurd hi (Nat.not_lt_zero i)⟩
  | succ n ih =>
    obtain ⟨slot, h1, h2⟩ := w.tick_record log hlen hS
    have hidx : w.times % SlotNum < w.slots.length := by
      rw [hlen]; exact Nat.mod_lt _ hS
    obtain ⟨wn, logn, e1, e2, e3, e4, e5, e6, e7⟩ := ih
      { w with slots := w.slots.set (w.times % SlotNum) [], times := (w.times + 1) % WORD }
      (log ++ slot) (by simp [hlen]) (Nat.mod_lt _ (by simp [WORD]))
    simp only at e3 e4 e5 e6 e7
    have hkeep : ∀ idx : Nat, w.slots[idx]? = some [] →
        (w.slots.set (w.times % SlotNum) [])[idx]? = some [] := by
      intro idx hi
      rw [List.getElem?_set]
      split
      · simp [hidx]
      · exact hi
    refine ⟨wn, logn, by simp [ticksLog, h2, e1], e2, ?_, e4, ?_, fun idx hi => e6 idx (hkeep idx hi),
      ?_⟩
    · rw [e3, Nat.mod_add_mod]
      congr 1
      omega
    · refine e5.trans ?_
      rw [List.append_assoc]
      exact List.Perm.append_left _ (flatten_set_nil_perm w.slots _ slot h1)
    · intro i hi
      cases i with
      | zero =>
        apply e6
        rw [Nat.add_zero, Nat.mod_eq_of_lt hT, List.getElem?_set]
        simp [hidx]
      | succ i =>
        have := e7 i (by omega)
        rw [Nat.mod_add_mod] at this
        have hidx2 : w.times + (i + 1) = w.times + 1 + i := by omega
        rw [hidx2]
        exact this

/-- Within one revolution every slot has its tick, unless the counter wraps. -/
theorem slot_cover (T S idx : Nat) (hidx : idx < S) (hnw : T + S ≤ WORD ∨ S ∣ WORD) :
    ∃ i, i < S ∧ (T + i) % WORD % S = idx := by
  have hS : 0 < S := by omega
  refine ⟨(idx + S - T % S) % S, Nat.mod_lt _ hS, ?_⟩
  have hr : T % S < S := Nat.mod_lt _ hS
  have hmod : (T + (idx + S - T % S) % S) % S = idx := by
    rw [Nat.add_mod_mod]
    have hT : T = S * (T / S) + T % S := (Nat.div_add_mod T S).symm
    have hsum : T + (idx + S - T % S) = idx + S * (T / S + 1) := by
      rw [Nat.mul_add, Nat.mul_one]
      omega
    rw [hsum, Nat.add_mul_mod_self_left, Nat.mod_eq_of_lt hidx]
  rcases hnw with h | h
  · have hlt : T + (idx + S - T % S) % S < WORD := by
      have := Nat.mod_lt (idx + S - T % S) hS
      omega
    rw [Nat.mod_eq_of_lt hlt]
    exact hmod
  · rw [Nat.mod_mod_of_dvd _ h]
    exact hmod

theorem TimeWheel.ticksLog_idle {T : Type} (log : List T) (t n : Nat) (b : Bool)
    (hS : 0 < SlotNum) (ht : t < WORD) :
    ({ slots := List.replicate SlotNum [], times := t, stop := b } : TimeWheel T SlotNum).ticksLog
        log n =
      some ({ slots := List.replicate SlotNum [], times := (t + n) % WORD, stop := b }, log) := by
  induction n generalizing t with
  | zero => simp [ticksLog, Nat.mod_eq_of_lt ht]
  | succ n ih =>
    have hlt : t % SlotNum < SlotNum := Nat.mod_lt _ hS
    have hset : (List.replicate SlotNum ([] : List T)).set (t % SlotNum) [] =
        List.replicate SlotNum [] := by
      apply List.ext_getElem?
      intro m
      rw [List.getElem?_set]
      split
      · rename_i h
        subst h
        simp [hlt]
      · rfl
    obtain ⟨slot, h1, h2⟩ := TimeWheel.tick_record
      ({ slots := List.replicate SlotNum [], times := t, stop := b } : TimeWheel T SlotNum) log
      (by simp) hS
    have hslot : slot = [] := by
      simp only [List.getElem?_replicate, hlt, if_true, Option.some.injEq] at h1
      exact h1.symm
    subst hslot
    simp only [ticksLog, h2, Option.some_bind, hset, List.append_nil]
    rw [ih ((t + 1) % WORD) (Nat.mod_lt _ (by simp [WORD])), Nat.mod_add_mod]
    congr 4
    omega

/-- The wheel of a timed cache after `n` ticks is the wheel that `n` recording
ticks leave. -/
theorem TimeLRUCache.ticks_wheel_record (s : TimeLRUCache K V SlotNum)
    (log : List (TimerTask K)) (n : Nat) (hinv : s.WInv) (hS : 0 < SlotNum) :
    (s.ticks n).map (fun s2 => s2.timeWheel) =
      (s.timeWheel.ticksLog log n).map Prod.fst := by
  induction n generalizing s log with
  | zero => rfl
  | succ n ih =>
    obtain ⟨slot, c2, -, h2, -, -⟩ := s.tick_spec hinv hS
    obtain ⟨slot2, -, h4⟩ := s.timeWheel.tick_record log hinv.2.1 hS
    have hw := s.step_winv _ .tick hinv h2
    simp only [ticks, TimeWheel.ticksLog, h2, h4, Option.some_bind]
    exact ih _ (log ++ slot2) hw

/-- A key with a task in slot `idx` is gone after `t` ticks if one of them
processes slot `idx`. -/
theorem TimeLRUCache.ticks_hit (s : TimeLRUCache K V SlotNum) (k : K) (j0 idx t : Nat)
    (hinv : s.WInv) (hS : 0 < SlotNum) (hj : j0 < t)
    (hidx : (s.timeWheel.times + j0) % WORD % SlotNum = idx)
    (hin : ∃ slot, s.timeWheel.slots[idx]? = some slot ∧ (⟨k⟩ : TimerTask K) ∈ slot) :
    ∃ s2, s.ticks t = some s2 ∧ s2.WInv ∧ k ∉ s2.cache.entries.map Prod.fst := by
  obtain ⟨sa, e1, e2, e3, e4⟩ := s.ticks_disj k idx s.timeWheel.times 0 j0 hinv hS
    (by simp [Nat.mod_eq_of_lt hinv.2.2]) (Or.inr hin)
  have hslot : sa.timeWheel.times % SlotNum = idx := by
    rw [e3, Nat.zero_add]
    exact hidx
  obtain ⟨sb, f1, f2, -, -, f5⟩ := sa.tick_disj k idx e2 hS e4
  obtain ⟨s2, g1, g2, g3⟩ := sb.ticks_absent k (t - j0 - 1) f2 hS (f5 hslot)
  have ht : t = j0 + ((t - j0 - 1) + 1) := by omega
  refine ⟨s2, ?_, g2, g3⟩
  rw [ht, TimeLRUCache.ticks_add, e1]
  simp [TimeLRUCache.ticks, f1, g1]

theorem TimeWheel.ticksLog_log_append {T : Type} (w : TimeWheel T SlotNum) (log log2 : List T)
    (n : Nat) (hlen : w.slots.length = SlotNum) (hS : 0 < SlotNum) :
    w.ticksLog (log ++ log2) n = (w.ticksLog log2 n).map (fun r => (r.1, log ++ r.2)) := by
  induction n generalizing w log2 with
  | zero => simp [ticksLog]
  | succ n ih =>
    obtain ⟨slot, hs, h2⟩ := w.tick_record (log ++ log2) hlen hS
    obtain ⟨slot0, hs0, h3⟩ := w.tick_record log2 hlen hS
    rw [hs] at hs0
    cases hs0
    simp only [ticksLog, h2, h3, Option.some_bind]
    rw [List.append_assoc]
    exact ih _ (log2 ++ slot) (by simp [hlen])

/-- Recording ticks append to the log they start with. -/
theorem TimeWheel.ticksLog_log {T : Type} (w : TimeWheel T SlotNum) (log : List T) (n : Nat)
    (hlen : w.slots.length = SlotNum) (hS : 0 < SlotNum) :
    w.ticksLog log n = (w.ticksLog [] n).map (fun r => (r.1, log ++ r.2)) := by
  have := w.ticksLog_log_append log [] n hlen hS
  rwa [List.append_nil] at this

/-- One recording tick of a wheel and of the same wheel with one more task in
slot `idx`: a tick that processes slot `idx` fires the task and makes the
two wheels equal, any other tick fires the same tasks in both. -/
theorem TimeWheel.tick_pair {T : Type} [DecidableEq T] (w w1 : TimeWheel T SlotNum)
    (log : List T) (idx : Nat) (task : T) (hlen : w.slots.length = SlotNum) (hS : 0 < SlotNum)
    (hone : w.OneMore w1 idx task) :
    ∃ wa loga wb logb, w.tick TimeWheel.record log = some (wa, loga) ∧
      w1.tick TimeWheel.record log = some (wb, logb) ∧ wa.slots.length = SlotNum ∧
      wa.times = (w.times + 1) % WORD ∧
      (w.times % SlotNum = idx → logb.count task = loga.count task + 1 ∧ wb = wa) ∧
      (w.times % SlotNum ≠ idx → logb = loga ∧ wa.OneMore wb idx task) := by
  obtain ⟨sl, tm, st⟩ := w
  obtain ⟨sl1, tm1, st1⟩ := w1
  obtain ⟨h1, h2, slot, hs, h3⟩ := hone
  simp only at h1 h2 hs h3 hlen
  subst h1 h2 h3
  obtain ⟨sa, ha1, ha2⟩ := TimeWheel.tick_record
    ({ slots := sl, times := tm1, stop := st1 } : TimeWheel T SlotNum) log hlen hS
  obtain ⟨sb, hb1, hb2⟩ := TimeWheel.tick_record
    ({ slots := sl.set idx (slot ++ [task]), times := tm1, stop := st1 } : TimeWheel T SlotNum) log
    (by simp [hlen]) hS
  simp only at ha1 ha2 hb1 hb2
  have hidx : idx < sl.length := by
    by_contra hge
    rw [List.getElem?_eq_none (Nat.le_of_not_lt hge)] at hs
    cases hs
  refine ⟨_, _, _, _, ha2, hb2, by simp [hlen], rfl, ?_, ?_⟩
  · intro hhit
    rw [hhit] at ha1 hb1 ⊢
    rw [hs] at ha1
    rw [List.getElem?_set_self hidx] at hb1
    cases ha1
    cases hb1
    refine ⟨by simp [List.count_append]; omega, ?_⟩
    simp [List.set_set]
  · intro hne
    rw [List.getElem?_set_ne (Ne.symm hne), ha1] at hb1
    cases hb1
    refine ⟨rfl, rfl, rfl, slot, ?_, ?_⟩
    · simp only [List.getElem?_set_ne hne]
      exact hs
    · simp only
      exact List.set_comm _ _ _ (Ne.symm hne)

/-- Recording ticks of a wheel and of the same wheel with one more task in
slot `idx`: once a tick has processed slot `idx` the task has been fired once
and the wheels are equal; until then the logs are equal and the task is still
pending once. -/
theorem TimeWheel.ticksLog_pair {T : Type} [DecidableEq T] (w w1 : TimeWheel T SlotNum)
    (log : List T) (idx : Nat) (task : T) (n : Nat) (hlen : w.slots.length = SlotNum)
    (hS : 0 < SlotNum) (hT : w.times < WORD) (hone : w.OneMore w1 idx task) :
    ∃ wn logn wn1 logn1, w.ticksLog log n = some (wn, logn) ∧
      w1.ticksLog log n = some (wn1, logn1) ∧
      ((∃ j, j < n ∧ (w.times + j) % WORD % SlotNum = idx) →
        logn1.count task = logn.count task + 1 ∧ wn1 = wn) ∧
      ((∀ j, j < n → (w.times + j) % WORD % SlotNum ≠ idx) →
        logn1 = logn ∧ wn.OneMore wn1 idx task) := by
  induction n generalizing w w1 log with
  | zero =>
    exact ⟨w, log, w1, log, rfl, rfl, fun ⟨j, hj, _⟩ => absurd hj (Nat.not_lt_zero j),
      fun _ => ⟨rfl, hone⟩⟩
  | succ n ih =>
    obtain ⟨wa, loga, wb, logb, ha, hb, hlena, htma, hhit, hmiss⟩ :=
      w.tick_pair w1 log idx task hlen hS hone
    have hTa : wa.times < WORD := by
      rw [htma]; exact Nat.mod_lt _ (by simp [WORD])
    have hshift : ∀ j, (wa.times + j) % WORD % SlotNum = (w.times + (j + 1)) % WORD % SlotNum := by
      intro j
      rw [htma, Nat.mod_add_mod]
      congr 2
      omega
    by_cases h0 : w.times % SlotNum = idx
    · obtain ⟨hcount, heq⟩ := hhit h0
      subst heq
      obtain ⟨wn, logn, e1, -, -, -, -, -, -⟩ := wb.ticksLog_sweep [] n hlena hS hTa
      have ea := wb.ticksLog_log loga n hlena hS
      have eb := wb.ticksLog_log logb n hlena hS
      rw [e1] at ea eb
      refine ⟨wn, loga ++ logn, wn, logb ++ logn, by simp [ticksLog, ha, ea],
        by simp [ticksLog, hb, eb], fun _ => ⟨?_, rfl⟩, fun hno => ?_⟩
      · rw [List.count_append, List.count_append, hcount]
        omega
      · exact absurd (by rw [Nat.add_zero, Nat.mod_eq_of_lt hT]; exact h0) (hno 0 (Nat.succ_pos n))
    · obtain ⟨hlog, hone2⟩ := hmiss h0
      subst hlog
      obtain ⟨wn, logn, wn1, logn1, e1, e2, e3, e4⟩ := ih wa wb logb hlena hTa hone2
      refine ⟨wn, logn, wn1, logn1, by simp [ticksLog, ha, e1], by simp [ticksLog, hb, e2],
        fun ⟨j, hj, hjx⟩ => ?_, fun hno => ?_⟩
      · cases j with
        | zero =>
          rw [Nat.add_zero, Nat.mod_eq_of_lt hT] at hjx
          exact absurd hjx h0
        | succ j => exact e3 ⟨j, by omega, by rw [hshift]; exact hjx⟩
      · exact e4 (fun j hj => by rw [hshift]; exact hno (j + 1) (by omega))

end RunLemmas

/-! ## The claims -/

section Claims

variable {K V : Type} [DecidableEq K] {SlotNum : Nat}

open LinkList LRUCache

/-- C1: in every reachable state `Put(k, v)` succeeds, and an immediately
following `Get(k)` returns a non-null pointer to the value `v`, whether `k`
was absent or present before the `Put`. -/
theorem C1_put_then_get [Inhabited K] [Inhabited V] (c : LRUCache K V) (k : K) (v : V)
    (hr : c.Reachable) : ∃ c1 c2, c.Put k v = some c1 ∧ c1.Get k = some (some v, c2) := by
  obtain ⟨h, hd, cells, hinv⟩ := hr.inv
  by_cases hk : k ∈ cells.map (fun e => e.2.1)
  · obtain ⟨pre, a, v0, post, rfl⟩ := hinv.key_split k hk
    obtain ⟨c1, h1, hinv1, -⟩ := c.Put_present h hd pre post a k v0 v hinv
    obtain ⟨c2, h2, -⟩ := c1.Get_present h hd pre post a k v hinv1
    exact ⟨c1, c2, h1, h2⟩
  · obtain ⟨c1, h1, hinv1, -⟩ := c.Put_absent h hd cells k v hinv hk
    obtain ⟨c2, h2, -⟩ := c1.Get_present h hd [] cells _ k v hinv1
    exact ⟨c1, c2, h1, h2⟩

/-- Instance of C1 on the cache after `Put(1, 10); Put(2, 20)`, for the key 1 it
already holds. -/
theorem C1_put_then_get_witness :
    ∃ c1 c2, cacheTwo.Put 1 11 = some c1 ∧ c1.Get 1 = some (some 11, c2) :=
  C1_put_then_get cacheTwo 1 11 ⟨[.put 1 10, .put 2 20], rfl⟩

/-- C2: in a reachable state whose recency sequence is `es ++ [e]`, `Evict()`
removes exactly the tail entry `e`: the recency sequence becomes `es`, `Size()`
is its length, the index loses the key of `e` and nothing else, and `Get` of
that key then returns null. -/
theorem C2_evict_removes_tail [Inhabited K] [Inhabited V] (c : LRUCache K V)
    (es : List (K × V)) (e : K × V) (hr : c.Reachable) (hent : c.entries = es ++ [e]) :
    ∃ c2, c.Evict = some c2 ∧ c2.entries = es ∧ c2.Size = es.length ∧
      c2.map = mapErase c.map e.1 ∧ e.1 ∉ c2.keys ∧ c2.Get e.1 = some (none, c2) := by
  obtain ⟨h, hd, cells, hinv⟩ := hr.inv
  rw [hinv.entries_eq] at hent
  obtain ⟨cpre, a, cpost, rfl, h2, h3⟩ := cells_split cells es [] e hent
  obtain rfl : cpost = [] := by simpa using h3
  obtain ⟨k, v⟩ := e
  obtain ⟨c2, e1, hinv2, e2⟩ := c.Evict_nonempty h hd cpre a k v hinv
  have hknd := hinv.keys_nodup
  rw [List.map_append, List.nodup_append] at hknd
  have hk : k ∉ cpre.map (fun e => e.2.1) := fun hm => hknd.2.2 hm (by simp)
  refine ⟨c2, e1, ?_, ?_, e2, ?_, c2.Get_absent h hd cpre k hinv2 hk⟩
  · rw [hinv2.entries_eq, h2]
  · rw [hinv2.Size_eq, ← h2, List.length_map]
  · rw [hinv2.mem_keys_iff]; exact hk

/-- Instance of C2 on the LRU scenario: `Evict()` removes key 2, and the keys
4, 1, 3 remain, in this order, with their values. -/
theorem C2_evict_removes_tail_witness :
    ∃ c2, cacheScenario.Evict = some c2 ∧ c2.entries = [(4, 40), (1, 10), (3, 30)] ∧
      c2.Size = 3 ∧ c2.map = mapErase cacheScenario.map 2 ∧ 2 ∉ c2.keys ∧
      c2.Get 2 = some (none, c2) :=
  C2_evict_removes_tail cacheScenario [(4, 40), (1, 10), (3, 30)] (2, 20)
    ⟨[.put 1 10, .put 2 20, .put 3 30, .get 1, .put 4 40], rfl⟩ (by decide)

/-- C3: in a reachable state that holds key `k`, `Get(k)`, in its mutable and
in its read-only form alike, returns the value stored for `k` and moves the
entry of `k` to the front of the recency sequence; the other entries keep
their order and values, the index and `Size()` are unchanged. -/
theorem C3_get_promotes [Inhabited K] [Inhabited V] (c : LRUCache K V) (k : K)
    (hr : c.Reachable) (hk : k ∈ c.keys) :
    ∃ v pre post c2, c.entries = pre ++ (k, v) :: post ∧ (∀ e ∈ pre ++ post, e.1 ≠ k) ∧
      c.Get k = some (some v, c2) ∧ c.GetConst k = some (some v, c2) ∧
      c2.entries = (k, v) :: (pre ++ post) ∧ c2.map = c.map ∧ c2.Size = c.Size := by
  obtain ⟨h, hd, cells, hinv⟩ := hr.inv
  obtain ⟨pre, a, v, post, rfl⟩ := hinv.key_entry k hk
  obtain ⟨c2, e1, hinv2, e2⟩ := c.Get_present h hd pre post a k v hinv
  have hknd := hinv2.keys_nodup
  rw [List.map_cons, List.nodup_cons] at hknd
  refine ⟨v, pre.map Prod.snd, post.map Prod.snd, c2, ?_, ?_, e1, e1, ?_, e2, ?_⟩
  · rw [hinv.entries_eq]; simp
  · intro e he hek
    apply hknd.1
    rw [← List.map_append, List.mem_map] at he
    obtain ⟨x, hx, rfl⟩ := he
    rw [← hek]
    exact List.mem_map_of_mem (fun e => e.2.1) hx
  · rw [hinv2.entries_eq]; simp
  · rw [hinv2.Size_eq, hinv.Size_eq]; simp [Nat.add_assoc]

/-- Instance of C3 on the LRU scenario, for key 3. -/
theorem C3_get_promotes_witness :
    ∃ v pre post c2, cacheScenario.entries = pre ++ (3, v) :: post ∧
      (∀ e ∈ pre ++ post, e.1 ≠ 3) ∧
      cacheScenario.Get 3 = some (some v, c2) ∧ cacheScenario.GetConst 3 = some (some v, c2) ∧
      c2.entries = (3, v) :: (pre ++ post) ∧ c2.map = cacheScenario.map ∧
      c2.Size = cacheScenario.Size :=
  C3_get_promotes cacheScenario 3
    ⟨[.put 1 10, .put 2 20, .put 3 30, .get 1, .put 4 40], rfl⟩ (by decide)

/-- C4, as stated, fails when the tick counter wraps around: the idle cache
with `times = 2 ^ 64 - 1` is reachable (by that many ticks) and holds no task
for key 7; after `Put(7, 70, 7)` the task sits in slot 5, which is the slot
the very next tick processes, so after one tick (`1 < 7`) `Get(7)` is null. -/
theorem C4_fails_on_wraparound :
    timedWrap.Reachable ∧ timedWrap.NoPending 7 ∧ 1 ≤ 7 ∧ 7 ≤ 10 ∧ 1 < 7 ∧
      ((timedWrap.Put 7 70 7).bind (fun s1 => (s1.ticks 1).bind (fun s2 => s2.Get 7))).map
        Prod.fst = some none := by
  refine ⟨⟨List.replicate (WORD - 1) .tick, ?_⟩, ?_, by decide, by decide, by decide, ?_⟩
  · have h := TimeLRUCache.run_idle (LRUCache.new : LRUCache Nat Nat) (WORD - 1) 0
      (by decide : 0 < 10) (by decide)
    rw [Nat.zero_add, Nat.mod_eq_of_lt (by simp [WORD])] at h
    exact h
  · unfold TimeLRUCache.NoPending; decide
  · decide

/-- C4, amended: timed expiry in the sequential model. In a reachable state
whose wheel holds no pending task for `k`, with `1 ≤ i ≤ SlotNum`,
`Put(k, v, i)` followed by `t` ticks runs and leads to a state where `Get(k)`
is null if `t ≥ i`, wrap or no wrap. If `t < i`, `Get(k)` returns `v` when the
tick counter does not wrap around within the interval (`times + i ≤ 2 ^ 64`,
or `SlotNum` divides `2 ^ 64`); precisely, it returns `v` when none of the
`t` ticks processes the slot the task was filed in, and null otherwise. -/
theorem C4_timed_expiry [Inhabited K] [Inhabited V] (s : TimeLRUCache K V SlotNum) (k : K)
    (v : V) (i t : Nat) (hr : s.Reachable) (hnp : s.NoPending k) (hi1 : 1 ≤ i)
    (hi2 : i ≤ SlotNum) :
    ∃ s1 s2, s.Put k v i = some s1 ∧ s1.ticks t = some s2 ∧
      (i ≤ t → s2.Get k = some (none, s2)) ∧
      (t < i → (s.timeWheel.times + i ≤ WORD ∨ SlotNum ∣ WORD) →
        ∃ s3, s2.Get k = some (some v, s3)) ∧
      (t < i →
        (∀ j, j < t → (s.timeWheel.times + j) % WORD % SlotNum ≠
          (s.timeWheel.times + i + (WORD - 1)) % WORD % SlotNum) →
        ∃ s3, s2.Get k = some (some v, s3)) ∧
      (t < i →
        (∃ j, j < t ∧ (s.timeWheel.times + j) % WORD % SlotNum =
          (s.timeWheel.times + i + (WORD - 1)) % WORD % SlotNum) →
        s2.Get k = some (none, s2)) := by
  have hinv := hr.winv
  have hS : 0 < SlotNum := by omega
  obtain ⟨c1, hp1, hp2, hp3⟩ := s.cache.Put_spec k v hinv.1
  obtain ⟨slot, ha1, ha2⟩ := s.timeWheel.AddTask_eq ⟨k⟩ i hinv.2.1 hi2 hS
  have hlt : (s.timeWheel.times + i + (WORD - 1)) % WORD % SlotNum < s.timeWheel.slots.length := by
    rw [hinv.2.1]; exact Nat.mod_lt _ hS
  obtain ⟨s1, hput, hc1, hsl1, htm1⟩ : ∃ s1 : TimeLRUCache K V SlotNum,
      s.Put k v i = some s1 ∧ s1.cache = c1 ∧
      s1.timeWheel.slots = s.timeWheel.slots.set
        ((s.timeWheel.times + i + (WORD - 1)) % WORD % SlotNum) (slot ++ [⟨k⟩]) ∧
      s1.timeWheel.times = s.timeWheel.times :=
    ⟨{ cache := c1
       timeWheel :=
        { slots := (s.timeWheel.slots.set
            ((s.timeWheel.times + i + (WORD - 1)) % WORD % SlotNum) (slot ++ [⟨k⟩]))
          times := s.timeWheel.times
          stop := s.timeWheel.stop } },
      by simp [TimeLRUCache.Put, hp1, ha2], rfl, rfl, rfl⟩
  have hinv1 := s.step_winv _ (.put k v i) hinv hput
  have hin : ∃ sl, s1.timeWheel.slots[(s.timeWheel.times + i + (WORD - 1)) % WORD % SlotNum]? =
      some sl ∧ (⟨k⟩ : TimerTask K) ∈ sl :=
    ⟨slot ++ [⟨k⟩], by rw [hsl1, List.getElem?_set_self hlt], by simp⟩
  obtain ⟨s2, hs2, hinv2, -⟩ := s1.ticks_total hinv1 hS t
  have hgone : k ∉ s2.cache.entries.map Prod.fst → s2.Get k = some (none, s2) := fun hk =>
    s2.Get_of_cache k none s2.cache ((s2.cache.Get_spec k hinv2.1).2 hk)
  have hkeep : t < i →
      (∀ j, j < t → (s.timeWheel.times + j) % WORD % SlotNum ≠
        (s.timeWheel.times + i + (WORD - 1)) % WORD % SlotNum) →
      ∃ s3, s2.Get k = some (some v, s3) := by
    intro _ hno
    obtain ⟨s2b, e1, e2, e3⟩ := TimeLRUCache.ticks_keep_gen s1 k v
      (fun x => x = (s.timeWheel.times + i + (WORD - 1)) % WORD % SlotNum)
      s.timeWheel.times 0 t hinv1 hS (by rw [hc1]; exact hp3)
      (by
        intro idx sl hsl hidx task ht
        rw [hsl1, List.getElem?_set_ne (Ne.symm hidx)] at hsl
        exact hnp sl (List.getElem?_mem hsl) task ht)
      (by rw [htm1]; simp [Nat.mod_eq_of_lt hinv.2.2])
      (by
        intro m hm
        rw [Nat.zero_add]
        exact hno m hm)
    rw [hs2] at e1
    cases e1
    obtain ⟨c3, hg⟩ := (s2.cache.Get_spec k e2.1).1 v e3
    exact ⟨_, s2.Get_of_cache k _ c3 hg⟩
  refine ⟨s1, s2, hput, hs2, fun hit => ?_, fun hti hnw => ?_, hkeep, fun _ hhit => ?_⟩
  · obtain ⟨s2b, e1, -, e3⟩ := s1.ticks_due k i t hinv1 hS hi1 hit (by rw [htm1]; exact hin)
    rw [hs2] at e1
    cases e1
    exact hgone e3
  · exact hkeep hti (fun j hj => slot_arith_ne _ i j SlotNum (by omega) hi2 hnw)
  · obtain ⟨j, hj, hjx⟩ := hhit
    obtain ⟨s2b, e1, -, e3⟩ := s1.ticks_hit k j _ t hinv1 hS hj (by rw [htm1]; exact hjx) hin
    rw [hs2] at e1
    cases e1
    exact hgone e3

/-- Instance of C4 with ten slots: after `Put("a", "x", 2)`, the call
`Put("b", "y", 8)` and two ticks leave `Get("b")` pointing to `"y"`. -/
theorem C4_timed_expiry_witness :
    ∃ s1 s2, timedOne.Put "b" "y" 8 = some s1 ∧ s1.ticks 2 = some s2 ∧
      (8 ≤ 2 → s2.Get "b" = some (none, s2)) ∧
      (2 < 8 → (timedOne.timeWheel.times + 8 ≤ WORD ∨ 10 ∣ WORD) →
        ∃ s3, s2.Get "b" = some (some "y", s3)) ∧
      (2 < 8 →
        (∀ j, j < 2 → (timedOne.timeWheel.times + j) % WORD % 10 ≠
          (timedOne.timeWheel.times + 8 + (WORD - 1)) % WORD % 10) →
        ∃ s3, s2.Get "b" = some (some "y", s3)) ∧
      (2 < 8 →
        (∃ j, j < 2 ∧ (timedOne.timeWheel.times + j) % WORD % 10 =
          (timedOne.timeWheel.times + 8 + (WORD - 1)) % WORD % 10) →
        s2.Get "b" = some (none, s2)) :=
  C4_timed_expiry timedOne "b" "y" 8 2 (show timedOne.Reachable from ⟨[.put "a" "x" 2], rfl⟩)
    (by unfold TimeLRUCache.NoPending; decide) (by decide) (by decide)

/-- The timed-expiry scenario with ten slots: after `Put("a", "x", 2)` and
`Put("b", "y", 8)`, two ticks (and three) leave `Get("a")` null and `Get("b")`
pointing to `"y"`. -/
theorem timed_expiry_scenario :
    ∀ t ∈ [2, 3],
      (((TimeLRUCache.new : TimeLRUCache String String 10).run
          [.put "a" "x" 2, .put "b" "y" 8]).bind
        (fun s => (s.ticks t).bind (fun s2 => s2.Get "a"))).map Prod.fst = some none ∧
      (((TimeLRUCache.new : TimeLRUCache String String 10).run
          [.put "a" "x" 2, .put "b" "y" 8]).bind
        (fun s => (s.ticks t).bind (fun s2 => s2.Get "b"))).map Prod.fst = some (some "y") := by
  decide

/-- C5: every state reachable from the empty cache by `Put`, `TryPut`, `Get`,
`Evict()` and `Evict(key)` is consistent: the list is a well-formed chain of
nodes `cells`; every key of the index maps to a node of the chain that stores
this key; every node of the chain is the one the index maps its key to; and
no two nodes of the chain hold the same key. -/
theorem C5_index_list_consistent [Inhabited K] [Inhabited V] (c : LRUCache K V)
    (hr : c.Reachable) :
    ∃ h hd cells, c.list.Wf h hd cells ∧
      (∀ k p, mapFind c.map k = some p → ∃ a v, p = some a ∧ (a, (k, v)) ∈ cells ∧
        ∃ n, c.list.mem a = some n ∧ n.data = (k, v)) ∧
      (∀ a k v, (a, (k, v)) ∈ cells → mapFind c.map k = some (some a)) ∧
      (cells.map (fun e => e.2.1)).Nodup := by
  obtain ⟨h, hd, cells, hinv⟩ := hr.inv
  refine ⟨h, hd, cells, hinv.wf, ?_, ?_, hinv.keys_nodup⟩
  · intro k p hf
    obtain ⟨pre, a, v, post, rfl, rfl⟩ := hinv.find_split k p hf
    refine ⟨a, v, rfl, by simp, ?_⟩
    have hseg := hinv.wf.seg
    have happ : (h, hd) :: (pre ++ (a, (k, v)) :: post) = ((h, hd) :: pre) ++ (a, (k, v)) :: post :=
      rfl
    rw [happ, Seg_append] at hseg
    have hma := hseg.2
    rw [Seg_cons] at hma
    exact ⟨_, hma.1, rfl⟩
  · intro a k v hm
    obtain ⟨pre, post, rfl⟩ := List.append_of_mem hm
    exact hinv.find_some

/-- Instance of C5 on the LRU scenario. -/
theorem C5_index_list_consistent_witness :
    ∃ h hd cells, cacheScenario.list.Wf h hd cells ∧
      (∀ k p, mapFind cacheScenario.map k = some p → ∃ a v, p = some a ∧ (a, (k, v)) ∈ cells ∧
        ∃ n, cacheScenario.list.mem a = some n ∧ n.data = (k, v)) ∧
      (∀ a k v, (a, (k, v)) ∈ cells → mapFind cacheScenario.map k = some (some a)) ∧
      (cells.map (fun e => e.2.1)).Nodup :=
  C5_index_list_consistent cacheScenario
    ⟨[.put 1 10, .put 2 20, .put 3 30, .get 1, .put 4 40], rfl⟩

/-- C6: every sequence of `Put`, `TryPut`, `Get`, `Evict()` and `Evict(key)`
calls on the empty cache runs to a state in which `Size()` is the number of
keys of the index, these keys are pairwise distinct, and they are exactly the
keys inserted and not evicted since, so `Size()` is also their number. -/
theorem C6_size_counts_keys [Inhabited K] [Inhabited V] (ops : List (Op K V)) :
    ∃ c : LRUCache K V, LRUCache.new.run ops = some c ∧ c.Size = c.keys.length ∧
      c.keys.Nodup ∧ c.keys.Perm ((LRUCache.new : LRUCache K V).liveKeys [] ops) ∧
      c.Size = ((LRUCache.new : LRUCache K V).liveKeys [] ops).length := by
  obtain ⟨c, cells, h1, hinv, hlive⟩ :=
    LRUCache.run_live (LRUCache.new : LRUCache K V) 1 default [] [] ops LRUCache.new_inv
      (by simp)
  have hperm := hinv.keys_perm
  refine ⟨c, h1, ?_, hinv.map_nodup, hperm.trans hlive.symm, ?_⟩
  · rw [hinv.Size_eq, hperm.length_eq, List.length_map]
  · rw [hinv.Size_eq, hlive.length_eq, List.length_map]

/-- C7: in a reachable state that does not hold key `k`, `TryPut(k, v)`
returns true and appends `(k, v)` at the back of the recency sequence; the
previous entries keep their values and order, `Size()` grows by one, and an
immediately following `Evict()` removes exactly `k` again. -/
theorem C7_tryPut_absent_back [Inhabited K] [Inhabited V] (c : LRUCache K V) (k : K) (v : V)
    (hr : c.Reachable) (hk : k ∉ c.keys) :
    ∃ c2 c3, c.TryPut k v = some (true, c2) ∧ c2.entries = c.entries ++ [(k, v)] ∧
      c2.Size = c.Size + 1 ∧ c2.Evict = some c3 ∧ c3.entries = c.entries ∧
      c3.map = c.map ∧ c3.Size = c.Size := by
  obtain ⟨h, hd, cells, hinv⟩ := hr.inv
  have hk2 : k ∉ cells.map (fun e => e.2.1) := fun hm => hk ((hinv.mem_keys_iff k).2 hm)
  obtain ⟨c2, e1, hinv2, e2⟩ := c.TryPut_absent h hd cells k v hinv hk2
  obtain ⟨c3, e3, hinv3, e4⟩ := c2.Evict_nonempty h hd cells _ k v hinv2
  refine ⟨c2, c3, e1, ?_, ?_, e3, ?_, ?_, ?_⟩
  · rw [hinv2.entries_eq, hinv.entries_eq]; simp
  · rw [hinv2.Size_eq, hinv.Size_eq]; simp
  · rw [hinv3.entries_eq, hinv.entries_eq]
  · rw [e4, e2]
    have hne : ¬ (k ≠ k) := fun hne => hne rfl
    have : mapErase ((k, some c.list.brk) :: c.map) k = mapErase c.map k := by
      simp [mapErase]
    rw [this]
    exact mapErase_of_not_mem c.map k hk
  · rw [hinv3.Size_eq, hinv.Size_eq]

/-- Instance of C7 on the LRU scenario, for the new key 7. -/
theorem C7_tryPut_absent_back_witness :
    ∃ c2 c3, cacheScenario.TryPut 7 70 = some (true, c2) ∧
      c2.entries = cacheScenario.entries ++ [(7, 70)] ∧
      c2.Size = cacheScenario.Size + 1 ∧ c2.Evict = some c3 ∧
      c3.entries = cacheScenario.entries ∧ c3.map = cacheScenario.map ∧
      c3.Size = cacheScenario.Size :=
  C7_tryPut_absent_back cacheScenario 7 70
    ⟨[.put 1 10, .put 2 20, .put 3 30, .get 1, .put 4 40], rfl⟩ (by decide)

/-- C8: in a reachable state, `TryPut(k, v2)` on a key already present returns
false and leaves the whole cache state as it was; and on a cache without `k`,
`TryPut(k, v1)` returns true, a following `TryPut(k, v2)` returns false
without changing the state, and `Get(k)` then yields `v1`. -/
theorem C8_tryPut_present_noop [Inhabited K] [Inhabited V] (c : LRUCache K V) (k : K)
    (v1 v2 : V) (hr : c.Reachable) :
    (k ∈ c.keys → c.TryPut k v2 = some (false, c)) ∧
    (k ∉ c.keys → ∃ c1 c2, c.TryPut k v1 = some (true, c1) ∧
      c1.TryPut k v2 = some (false, c1) ∧ c1.Get k = some (some v1, c2)) := by
  obtain ⟨h, hd, cells, hinv⟩ := hr.inv
  constructor
  · intro hk
    obtain ⟨pre, a, v0, post, rfl⟩ := hinv.key_entry k hk
    exact c.TryPut_present h hd pre post a k v0 v2 hinv
  · intro hk
    have hk2 : k ∉ cells.map (fun e => e.2.1) := fun hm => hk ((hinv.mem_keys_iff k).2 hm)
    obtain ⟨c1, e1, hinv1, -⟩ := c.TryPut_absent h hd cells k v1 hinv hk2
    obtain ⟨c2, e2, -⟩ := c1.Get_present h hd cells [] _ k v1 hinv1
    exact ⟨c1, c2, e1, c1.TryPut_present h hd cells [] _ k v1 v2 hinv1, e2⟩

/-- Instance of C8 on the LRU scenario, for key 3. -/
theorem C8_tryPut_present_noop_witness :
    (3 ∈ cacheScenario.keys → cacheScenario.TryPut 3 31 = some (false, cacheScenario)) ∧
    (3 ∉ cacheScenario.keys → ∃ c1 c2, cacheScenario.TryPut 3 30 = some (true, c1) ∧
      c1.TryPut 3 31 = some (false, c1) ∧ c1.Get 3 = some (some 30, c2)) :=
  C8_tryPut_present_noop cacheScenario 3 30 31
    ⟨[.put 1 10, .put 2 20, .put 3 30, .get 1, .put 4 40], rfl⟩

/-- C9: in a reachable state that holds key `k`, `Put(k, v)` overwrites the
value of `k` in place: the recency sequence is the same except that the entry
of `k`, at the position it had, now carries `v`; the index and `Size()` are
unchanged. -/
theorem C9_put_overwrites_in_place [Inhabited K] [Inhabited V] (c : LRUCache K V) (k : K)
    (v : V) (hr : c.Reachable) (hk : k ∈ c.keys) :
    ∃ v0 pre post c2, c.entries = pre ++ (k, v0) :: post ∧ (∀ e ∈ pre ++ post, e.1 ≠ k) ∧
      c.Put k v = some c2 ∧ c2.entries = pre ++ (k, v) :: post ∧ c2.Size = c.Size ∧
      c2.map = c.map := by
  obtain ⟨h, hd, cells, hinv⟩ := hr.inv
  obtain ⟨pre, a, v0, post, rfl⟩ := hinv.key_entry k hk
  obtain ⟨c2, e1, hinv2, e2, e3⟩ := c.Put_present h hd pre post a k v0 v hinv
  have hknd := hinv.keys_nodup
  rw [((@List.perm_middle _ (a, (k, v0)) pre post).map _).nodup_iff,
    List.map_cons, List.nodup_cons] at hknd
  refine ⟨v0, pre.map Prod.snd, post.map Prod.snd, c2, ?_, ?_, e1, ?_, e3, e2⟩
  · rw [hinv.entries_eq]; simp
  · intro e he hek
    apply hknd.1
    rw [← List.map_append, List.mem_map] at he
    obtain ⟨x, hx, rfl⟩ := he
    rw [← hek]
    exact List.mem_map_of_mem (fun e => e.2.1) hx
  · rw [hinv2.entries_eq]; simp

/-- Instance of C9 on the LRU scenario, for key 3. -/
theorem C9_put_overwrites_in_place_witness :
    ∃ v0 pre post c2, cacheScenario.entries = pre ++ (3, v0) :: post ∧
      (∀ e ∈ pre ++ post, e.1 ≠ 3) ∧
      cacheScenario.Put 3 33 = some c2 ∧ c2.entries = pre ++ (3, 33) :: post ∧
      c2.Size = cacheScenario.Size ∧ c2.map = cacheScenario.map :=
  C9_put_overwrites_in_place cacheScenario 3 33
    ⟨[.put 1 10, .put 2 20, .put 3 30, .get 1, .put 4 40], rfl⟩ (by decide)

/-- C10, as stated, fails: after `Put(1, 10); Put(2, 20)` the key 1 is held and
`Put(1, 11)` leaves key 2 at `head->next`, whereas `Get(1)` moves key 1 there. -/
theorem C10_put_does_not_promote :
    cacheTwo.Reachable ∧ 1 ∈ cacheTwo.keys ∧
      (cacheTwo.Put 1 11).map (fun c => c.entries) = some [(2, 20), (1, 11)] ∧
      (cacheTwo.Put 1 11).map (fun c => c.entries.head?.map Prod.fst) ≠ some (some 1) ∧
      (cacheTwo.Get 1).map (fun r => r.2.entries) = some [(1, 10), (2, 20)] :=
  ⟨⟨[.put 1 10, .put 2 20], rfl⟩, by decide, by decide, by decide, by decide⟩

/-- C10, amended: in a reachable state that holds key `k`, `Put(k, v)` does not
promote `k`: the order of the keys in the recency list is exactly what it was
before the call, so `k` is at `head->next` afterwards if and only if it was
there before. -/
theorem C10_put_keeps_position [Inhabited K] [Inhabited V] (c : LRUCache K V) (k : K)
    (v : V) (hr : c.Reachable) (hk : k ∈ c.keys) :
    ∃ c2, c.Put k v = some c2 ∧ c2.entries.map Prod.fst = c.entries.map Prod.fst ∧
      (c2.entries.head?.map Prod.fst = some k ↔ c.entries.head?.map Prod.fst = some k) := by
  obtain ⟨h, hd, cells, hinv⟩ := hr.inv
  obtain ⟨pre, a, v0, post, rfl⟩ := hinv.key_entry k hk
  obtain ⟨c2, e1, hinv2, -⟩ := c.Put_present h hd pre post a k v0 v hinv
  have hkeys : c2.entries.map Prod.fst = c.entries.map Prod.fst := by
    rw [hinv2.entries_eq, hinv.entries_eq]; simp
  refine ⟨c2, e1, hkeys, ?_⟩
  have hh : ∀ l : List (K × V), l.head?.map Prod.fst = (l.map Prod.fst).head? := by
    intro l; cases l <;> rfl
  rw [hh, hh, hkeys]

/-- Instance of the amended C10 on the cache after `Put(1, 10); Put(2, 20)`. -/
theorem C10_put_keeps_position_witness :
    ∃ c2, cacheTwo.Put 1 11 = some c2 ∧
      c2.entries.map Prod.fst = cacheTwo.entries.map Prod.fst ∧
      (c2.entries.head?.map Prod.fst = some 1 ↔ cacheTwo.entries.head?.map Prod.fst = some 1) :=
  C10_put_keeps_position cacheTwo 1 11 ⟨[.put 1 10, .put 2 20], rfl⟩ (by decide)

/-- C11: in a reachable state that does not hold key `k`, `Put(k, v)` succeeds
and inserts `(k, v)` as the first entry of the recency sequence; all previous
entries stay, in the same order and with the same values, the index gains
exactly the key `k`, and `Size()` grows by one: nothing is evicted, whatever
the size. -/
theorem C11_put_absent_front [Inhabited K] [Inhabited V] (c : LRUCache K V) (k : K) (v : V)
    (hr : c.Reachable) (hk : k ∉ c.keys) :
    ∃ c2, c.Put k v = some c2 ∧ c2.entries = (k, v) :: c.entries ∧ c2.Size = c.Size + 1 ∧
      c2.keys = k :: c.keys := by
  obtain ⟨h, hd, cells, hinv⟩ := hr.inv
  have hk2 : k ∉ cells.map (fun e => e.2.1) := fun hm => hk ((hinv.mem_keys_iff k).2 hm)
  obtain ⟨c2, e1, hinv2, e2⟩ := c.Put_absent h hd cells k v hinv hk2
  refine ⟨c2, e1, ?_, ?_, ?_⟩
  · rw [hinv2.entries_eq, hinv.entries_eq]; rfl
  · rw [hinv2.Size_eq, hinv.Size_eq]; rfl
  · simp [keys, e2]

/-- Instance of C11 on the LRU scenario, for the new key 7. -/
theorem C11_put_absent_front_witness :
    ∃ c2, cacheScenario.Put 7 70 = some c2 ∧ c2.entries = (7, 70) :: cacheScenario.entries ∧
      c2.Size = cacheScenario.Size + 1 ∧ c2.keys = 7 :: cacheScenario.keys :=
  C11_put_absent_front cacheScenario 7 70
    ⟨[.put 1 10, .put 2 20, .put 3 30, .get 1, .put 4 40], rfl⟩ (by decide)

/-- C12: in a reachable state that holds key `k`, `Evict(k)` removes exactly
the entry of `k` from the list and from the index: the other entries keep
their values and relative order, `Size()` decreases by one, and `Get(k)` then
returns null. -/
theorem C12_evictKey_removes_entry [Inhabited K] [Inhabited V] (c : LRUCache K V) (k : K)
    (hr : c.Reachable) (hk : k ∈ c.keys) :
    ∃ v pre post c2, c.entries = pre ++ (k, v) :: post ∧ c.EvictKey k = some c2 ∧
      c2.entries = pre ++ post ∧ c2.Size + 1 = c.Size ∧ c2.map = mapErase c.map k ∧
      k ∉ c2.keys ∧ c2.Get k = some (none, c2) := by
  obtain ⟨h, hd, cells, hinv⟩ := hr.inv
  obtain ⟨pre, a, v, post, rfl⟩ := hinv.key_entry k hk
  obtain ⟨c2, e1, hinv2, e2⟩ := c.EvictKey_present h hd pre post a k v hinv
  have hknd := hinv.keys_nodup
  rw [((@List.perm_middle _ (a, (k, v)) pre post).map _).nodup_iff, List.map_cons,
    List.nodup_cons] at hknd
  refine ⟨v, pre.map Prod.snd, post.map Prod.snd, c2, ?_, e1, ?_, ?_, e2, ?_,
    c2.Get_absent h hd _ k hinv2 hknd.1⟩
  · rw [hinv.entries_eq]; simp
  · rw [hinv2.entries_eq]; simp
  · rw [hinv2.Size_eq, hinv.Size_eq]; simp [Nat.add_assoc]
  · rw [hinv2.mem_keys_iff]; exact hknd.1

/-- Instance of C12 on the LRU scenario, for key 1. -/
theorem C12_evictKey_removes_entry_witness :
    ∃ v pre post c2, cacheScenario.entries = pre ++ (1, v) :: post ∧
      cacheScenario.EvictKey 1 = some c2 ∧ c2.entries = pre ++ post ∧
      c2.Size + 1 = cacheScenario.Size ∧ c2.map = mapErase cacheScenario.map 1 ∧
      1 ∉ c2.keys ∧ c2.Get 1 = some (none, c2) :=
  C12_evictKey_removes_entry cacheScenario 1
    ⟨[.put 1 10, .put 2 20, .put 3 30, .get 1, .put 4 40], rfl⟩ (by decide)

/-- C13: evicting an absent key is a no-op. In a reachable cache state without
key `k`, `Evict(k)` returns the very same state, and so does the firing of a
timer task for `k`; for any key, a second `Evict(k)` leaves the state the first
one produced; and on a reachable timed cache without `k`, `Evict(k)` and a
fired task for `k` leave cache and wheel as they are. -/
theorem C13_evict_absent_noop [Inhabited K] [Inhabited V] (c : LRUCache K V)
    (s : TimeLRUCache K V SlotNum) (k : K) (hr : c.Reachable) (hs : s.Reachable) :
    (k ∉ c.keys → c.EvictKey k = some c ∧ TimeLRUCache.fire ⟨k⟩ c = some c) ∧
    (∃ c1, c.EvictKey k = some c1 ∧ c1.EvictKey k = some c1) ∧
    (k ∉ s.cache.keys → s.EvictKey k = some s ∧
      TimeLRUCache.fire ⟨k⟩ s.cache = some s.cache) := by
  obtain ⟨h, hd, cells, hinv⟩ := hr.inv
  have habs : ∀ (c0 : LRUCache K V), c0.Inv → k ∉ c0.keys → c0.EvictKey k = some c0 := by
    intro c0 ⟨h0, hd0, cells0, hinv0⟩ hk
    exact c0.EvictKey_absent h0 hd0 cells0 k hinv0
      (fun hm => hk ((hinv0.mem_keys_iff k).2 hm))
  refine ⟨fun hk => ⟨habs c hr.inv hk, habs c hr.inv hk⟩, ?_, fun hk => ?_⟩
  · by_cases hk : k ∈ c.keys
    · obtain ⟨pre, a, v, post, rfl⟩ := hinv.key_entry k hk
      obtain ⟨c1, e1, hinv1, -⟩ := c.EvictKey_present h hd pre post a k v hinv
      have hknd := hinv.keys_nodup
      rw [((@List.perm_middle _ (a, (k, v)) pre post).map _).nodup_iff, List.map_cons,
        List.nodup_cons] at hknd
      exact ⟨c1, e1, c1.EvictKey_absent h hd _ k hinv1 hknd.1⟩
    · exact ⟨c, habs c hr.inv hk, habs c hr.inv hk⟩
  · have he := habs s.cache hs.winv.1 hk
    exact ⟨by simp [TimeLRUCache.EvictKey, he], he⟩

/-- Instance of C13 on the LRU scenario and on the timed cache after
`Put("a", "x", 2)`, for keys they do not hold. -/
theorem C13_evict_absent_noop_witness :
    ("b" ∉ cacheStr.keys → cacheStr.EvictKey "b" = some cacheStr ∧
      TimeLRUCache.fire ⟨"b"⟩ cacheStr = some cacheStr) ∧
    (∃ c1, cacheStr.EvictKey "b" = some c1 ∧ c1.EvictKey "b" = some c1) ∧
    ("b" ∉ timedOne.cache.keys → timedOne.EvictKey "b" = some timedOne ∧
      TimeLRUCache.fire ⟨"b"⟩ timedOne.cache = some timedOne.cache) :=
  C13_evict_absent_noop cacheStr timedOne "b" ⟨[.put "a" "x"], rfl⟩ ⟨[.put "a" "x" 2], rfl⟩

/-- C14, as stated, fails for `interval = 0` at `times = 0`: with ten slots the
`size_t` expression `times + interval - 1` wraps to `2 ^ 64 - 1`, so the task
lands in slot 5, whereas `(0 + 0 - 1) mod 10` over the integers is 9. -/
theorem C14_fails_at_interval_zero :
    ((TimeWheel.new : TimeWheel Nat 10).AddTask 42 0).map (fun w => w.slots) =
        some [[], [], [], [], [], [42], [], [], [], []] ∧
      Int.toNat (((0 : Int) + (0 : Int) - 1) % (10 : Int)) = 9 := by
  decide

/-- C14, amended: for a wheel with `SlotNum ≥ 1` slots and `interval ≤ SlotNum`,
whenever the `size_t` expression `times + interval - 1` neither underflows nor
overflows (`1 ≤ times + interval ≤ 2 ^ 64`), or `SlotNum` divides `2 ^ 64`,
`AddTask` appends the task at the end of the slot whose index is
`(times + interval - 1) mod SlotNum` computed over the integers, and leaves
every other slot, `times` and the stop flag unchanged. -/
theorem C14_addTask_slot {T : Type} (w : TimeWheel T SlotNum) (task : T) (interval : Nat)
    (hlen : w.slots.length = SlotNum) (hS : 1 ≤ SlotNum) (hi : interval ≤ SlotNum)
    (hnw : (1 ≤ w.times + interval ∧ w.times + interval ≤ WORD) ∨ SlotNum ∣ WORD) :
    ∃ slot w2,
      Int.toNat (((w.times : Int) + (interval : Int) - 1) % (SlotNum : Int)) < SlotNum ∧
      w.slots[Int.toNat (((w.times : Int) + (interval : Int) - 1) % (SlotNum : Int))]? =
        some slot ∧
      w.AddTask task interval = some w2 ∧
      w2.slots[Int.toNat (((w.times : Int) + (interval : Int) - 1) % (SlotNum : Int))]? =
        some (slot ++ [task]) ∧
      (∀ idx, idx ≠ Int.toNat (((w.times : Int) + (interval : Int) - 1) % (SlotNum : Int)) →
        w2.slots[idx]? = w.slots[idx]?) ∧
      w2.slots.length = SlotNum ∧ w2.times = w.times ∧ w2.stop = w.stop := by
  rw [← slot_index_int w.times interval SlotNum hnw]
  obtain ⟨slot, h1, h2⟩ := w.AddTask_eq task interval hlen hi hS
  have hlt : (w.times + interval + (WORD - 1)) % WORD % SlotNum < w.slots.length := by
    rw [hlen]; exact Nat.mod_lt _ hS
  refine ⟨slot, _, Nat.mod_lt _ hS, h1, h2, ?_, ?_, ?_, rfl, rfl⟩
  · simp [List.getElem?_set_self hlt]
  · intro idx hidx
    simp [List.getElem?_set_ne (Ne.symm hidx)]
  · simp [hlen]

/-- Instance of C14 on the fresh wheel with ten slots, for interval 3: the
task goes to slot `(0 + 3 - 1) mod 10 = 2`. -/
theorem C14_addTask_slot_witness :
    ∃ slot w2, 2 < 10 ∧ (TimeWheel.new : TimeWheel Nat 10).slots[2]? = some slot ∧
      (TimeWheel.new : TimeWheel Nat 10).AddTask 42 3 = some w2 ∧
      w2.slots[2]? = some (slot ++ [42]) ∧
      (∀ idx, idx ≠ 2 → w2.slots[idx]? = (TimeWheel.new : TimeWheel Nat 10).slots[idx]?) ∧
      w2.slots.length = 10 ∧ w2.times = 0 ∧ w2.stop = false :=
  C14_addTask_slot (TimeWheel.new : TimeWheel Nat 10) 42 3 (by decide) (by decide) (by decide)
    (Or.inl (by decide))

/-- C15: with `interval > SlotNum`, `Put(k, v, interval)` on a reachable timed
cache still stores the entry (`Get(k)` returns `v`, `k` is one of the keys
`Size()` counts) but schedules nothing: the wheel is unchanged. Hence, if the
wheel held no task for `k`, `Get(k)` returns `v` after any number of ticks;
the ticks themselves run whenever `SlotNum ≥ 1`. -/
theorem C15_interval_overflow [Inhabited K] [Inhabited V] (s : TimeLRUCache K V SlotNum)
    (k : K) (v : V) (i : Nat) (hr : s.Reachable) (hi : SlotNum < i) :
    ∃ s1, s.Put k v i = some s1 ∧ s1.timeWheel = s.timeWheel ∧ k ∈ s1.cache.keys ∧
      s1.Size = s1.cache.keys.length ∧ (∃ s3, s1.Get k = some (some v, s3)) ∧
      (s.NoPending k → ∀ t, (0 < SlotNum → ∃ s2, s1.ticks t = some s2) ∧
        ∀ s2, s1.ticks t = some s2 → ∃ s3, s2.Get k = some (some v, s3)) := by
  have hinv := hr.winv
  obtain ⟨c1, hp1, hp2, hp3⟩ := s.cache.Put_spec k v hinv.1
  have hput : s.Put k v i = some { cache := c1, timeWheel := s.timeWheel } := by
    simp [TimeLRUCache.Put, hp1, s.timeWheel.AddTask_big ⟨k⟩ i hi]
  have hinv1 := s.step_winv _ (.put k v i) hinv hput
  have hget : ∀ s2 : TimeLRUCache K V SlotNum, s2.WInv → (k, v) ∈ s2.cache.entries →
      ∃ s3, s2.Get k = some (some v, s3) := by
    intro s2 h2 hkv
    obtain ⟨c3, hg⟩ := (s2.cache.Get_spec k h2.1).1 v hkv
    exact ⟨_, s2.Get_of_cache k _ c3 hg⟩
  refine ⟨_, hput, rfl, ?_, hp2.Size_keys, hget _ hinv1 hp3, ?_⟩
  · rw [hp2.mem_keys_iff_entries]
    exact List.mem_map_of_mem Prod.fst hp3
  · intro hnp t
    rcases Nat.eq_zero_or_pos SlotNum with h0 | hS
    · refine ⟨fun h => absurd h (by omega), fun s2 h2 => ?_⟩
      rw [TimeLRUCache.ticks_zero_slots _ s2 t h0 h2]
      exact hget _ hinv1 hp3
    · obtain ⟨s2, e1, e2, -, e4⟩ :=
        TimeLRUCache.ticks_nopending _ k v t hinv1 hS hnp hp3
      refine ⟨fun _ => ⟨s2, e1⟩, fun s2' h2 => ?_⟩
      rw [e1] at h2
      cases h2
      exact hget _ e2 e4

/-- Instance of C15 with ten slots: after `Put("key1", "value1", 10)`, the call
`Put("key2", "value2", 20)` stores the entry and leaves the wheel alone. -/
theorem C15_interval_overflow_witness :
    ∃ s1, timedKey1.Put "key2" "value2" 20 = some s1 ∧ s1.timeWheel = timedKey1.timeWheel ∧
      "key2" ∈ s1.cache.keys ∧ s1.Size = s1.cache.keys.length ∧
      (∃ s3, s1.Get "key2" = some (some "value2", s3)) ∧
      (timedKey1.NoPending "key2" → ∀ t, (0 < 10 → ∃ s2, s1.ticks t = some s2) ∧
        ∀ s2, s1.ticks t = some s2 → ∃ s3, s2.Get "key2" = some (some "value2", s3)) :=
  C15_interval_overflow timedKey1 "key2" "value2" 20 ⟨[.put "key1" "value1" 10], rfl⟩
    (by decide)

/-- The interval-overflow scenario with ten slots: `Put` with the intervals 10,
20 and 30 leaves `Size() == 3` and only the first key scheduled, in slot 9. -/
theorem interval_overflow_scenario :
    ((TimeLRUCache.new : TimeLRUCache String String 10).run
      [.put "key1" "value1" 10, .put "key2" "value2" 20, .put "key3" "value3" 30]).map
        (fun s => (s.Size, s.timeWheel.slots)) =
      some (3, [[], [], [], [], [], [], [], [], [], [⟨"key1"⟩]]) := by
  decide

/-- C16, as stated, fails when the tick counter wraps around: on the idle wheel
with ten slots and `times = 2 ^ 64 - 1`, a task added with interval 7 is filed
in slot 5 and fired by the very first tick, not by the seventh. -/
theorem C16_fails_on_wraparound :
    (∀ slot ∈ wheelWrap.slots, (7 : Nat) ∉ slot) ∧ 1 ≤ 7 ∧ 7 ≤ 10 ∧
      ((wheelWrap.AddTask 7 7).bind (fun w1 => w1.ticksLog [] 1)).map (fun r => r.2) =
        some [7] := by
  decide

/-- C16, amended: every timer task is consumed exactly once, and at its due
tick unless the tick counter wraps around. Take a wheel with `SlotNum` slots
and a `size_t` counter `times`, whatever tasks are pending in it, and
`1 ≤ interval ≤ SlotNum`. The wheel after `AddTask` is run side by side with
the wheel without the added task, which tells the added task apart from equal
tasks already pending. After any number `n` of ticks, either the added task
has not been fired and is pending once (equal logs, one more task in its
slot), or it has been fired once and is in no slot (one more firing, equal
wheels). From the `interval`-th tick on the second holds, wrap or no wrap. If
`times + interval ≤ 2 ^ 64` (or `SlotNum` divides `2 ^ 64`) the first holds
before the `interval`-th tick, so the task is fired during that tick and no
earlier one. When no equal task was pending, the wheel without the added task
never fires one and holds none. -/
theorem C16_task_fired_once {T : Type} [DecidableEq T] (w : TimeWheel T SlotNum) (task : T)
    (interval : Nat) (hlen : w.slots.length = SlotNum) (hT : w.times < WORD)
    (hi1 : 1 ≤ interval) (hi2 : interval ≤ SlotNum) :
    ∃ w1, w.AddTask task interval = some w1 ∧
      ∀ n, ∃ wn logn wn1 logn1, w.ticksLog [] n = some (wn, logn) ∧
        w1.ticksLog [] n = some (wn1, logn1) ∧
        ((logn1 = logn ∧
            wn.OneMore wn1 ((w.times + interval + (WORD - 1)) % WORD % SlotNum) task) ∨
          (logn1.count task = logn.count task + 1 ∧ wn1 = wn)) ∧
        (interval ≤ n → logn1.count task = logn.count task + 1 ∧ wn1 = wn) ∧
        (n < interval → (w.times + interval ≤ WORD ∨ SlotNum ∣ WORD) →
          logn1 = logn ∧
            wn.OneMore wn1 ((w.times + interval + (WORD - 1)) % WORD % SlotNum) task) ∧
        ((∀ slot ∈ w.slots, task ∉ slot) →
          logn.count task = 0 ∧ ∀ slot ∈ wn.slots, task ∉ slot) := by
  have hS : 0 < SlotNum := by omega
  obtain ⟨slot, ha1, ha2⟩ := w.AddTask_eq task interval hlen hi2 hS
  obtain ⟨w1, hadd, hone⟩ : ∃ w1 : TimeWheel T SlotNum,
      w.AddTask task interval = some w1 ∧
      w.OneMore w1 ((w.times + interval + (WORD - 1)) % WORD % SlotNum) task :=
    ⟨_, ha2, rfl, rfl, slot, ha1, rfl⟩
  refine ⟨w1, hadd, fun n => ?_⟩
  obtain ⟨wn, logn, wn1, logn1, e1, e2, e3, e4⟩ :=
    w.ticksLog_pair w1 [] _ task n hlen hS hT hone
  refine ⟨wn, logn, wn1, logn1, e1, e2, ?_, fun hn => ?_, fun hn hnw => ?_, fun hfresh => ?_⟩
  · by_cases hhit : ∃ j, j < n ∧
        (w.times + j) % WORD % SlotNum = (w.times + interval + (WORD - 1)) % WORD % SlotNum
    · exact Or.inr (e3 hhit)
    · exact Or.inl (e4 (fun j hj hx => hhit ⟨j, hj, hx⟩))
  · exact e3 ⟨interval - 1, by omega, slot_arith_eq w.times interval SlotNum hi1⟩
  · exact e4 (fun j hj => slot_arith_ne w.times interval j SlotNum (by omega) hi2 hnw)
  · obtain ⟨wn2, logn2, g1, -, g3, g4⟩ := w.ticksLog_gone [] task n hlen hS hfresh
    rw [e1] at g1
    cases g1
    exact ⟨by simpa using g4, g3⟩

/-- Instance of C16 with ten slots, on the wheel in which the task 42 is
already pending in slot 1: the same task is added again with interval 5. -/
theorem C16_task_fired_once_witness :
    ∃ w1, wheelPending.AddTask 42 5 = some w1 ∧
      ∀ n, ∃ wn logn wn1 logn1, wheelPending.ticksLog [] n = some (wn, logn) ∧
        w1.ticksLog [] n = some (wn1, logn1) ∧
        ((logn1 = logn ∧
            wn.OneMore wn1 ((wheelPending.times + 5 + (WORD - 1)) % WORD % 10) 42) ∨
          (logn1.count 42 = logn.count 42 + 1 ∧ wn1 = wn)) ∧
        (5 ≤ n → logn1.count 42 = logn.count 42 + 1 ∧ wn1 = wn) ∧
        (n < 5 → (wheelPending.times + 5 ≤ WORD ∨ 10 ∣ WORD) →
          logn1 = logn ∧
            wn.OneMore wn1 ((wheelPending.times + 5 + (WORD - 1)) % WORD % 10) 42) ∧
        ((∀ slot ∈ wheelPending.slots, 42 ∉ slot) →
          logn.count 42 = 0 ∧ ∀ slot ∈ wn.slots, 42 ∉ slot) :=
  C16_task_fired_once wheelPending 42 5 (by decide) (by decide) (by decide) (by decide)

/-- The scenario of C16 with an equal task pending, ten slots: the task 42 is
added with interval 2 and again with interval 5. The ticks 1, 3 and 4 fire
nothing, the second tick fires the first task, the fifth tick the second, and
the wheel is empty afterwards. -/
theorem duplicate_task_scenario :
    (wheelPending.AddTask 42 5).map (fun w1 => w1.slots) =
        some [[], [42], [], [], [42], [], [], [], [], []] ∧
      ∀ n ∈ [0, 1, 2, 3, 4, 5, 6],
        ((wheelPending.AddTask 42 5).bind (fun w1 => w1.ticksLog [] n)).map (fun r => r.2) =
          some (if n < 2 then [] else if n < 5 then [42] else [42, 42]) ∧
        (5 ≤ n →
          ((wheelPending.AddTask 42 5).bind (fun w1 => w1.ticksLog [] n)).map
            (fun r => r.1.slots) = some (List.replicate 10 [])) := by
  decide

/-- The rejected-`TryPut` scenario with ten slots: after `Put("k", "v1", 8)` and
the rejected `TryPut("k", "v2", 3)`, the entry still holds `"v1"` after two
ticks and is gone after three, five ticks before its own schedule. -/
theorem tryPut_reschedule_scenario :
    (((TimeLRUCache.new : TimeLRUCache String String 10).run
        [.put "k" "v1" 8, .tryPut "k" "v2" 3]).bind
      (fun s => (s.ticks 2).bind (fun s2 => s2.Get "k"))).map Prod.fst = some (some "v1") ∧
    (((TimeLRUCache.new : TimeLRUCache String String 10).run
        [.put "k" "v1" 8, .tryPut "k" "v2" 3]).bind
      (fun s => (s.ticks 3).bind (fun s2 => s2.Get "k"))).map Prod.fst = some none := by
  decide

/-- C19, as stated, fails: on the fresh timed cache with ten slots, after
`Put(1, 10, 2)` and `Put(1, 20, 5)` the cache holds `(1, 20)` up to the first
tick, and the second tick, which fires the stale task, removes the entry: the
cache changes and `Get(1)` is null after two ticks. -/
theorem C19_stale_task_not_noop :
    (TimeLRUCache.new : TimeLRUCache Nat Nat 10).Reachable ∧
    (TimeLRUCache.new : TimeLRUCache Nat Nat 10).NoPending 1 ∧ 1 ≤ 2 ∧ 2 < 5 ∧ 5 ≤ 10 ∧
    (((TimeLRUCache.new : TimeLRUCache Nat Nat 10).run [.put 1 10 2, .put 1 20 5]).bind
      (fun s => s.ticks 1)).map (fun s => s.cache.entries) = some [(1, 20)] ∧
    (((TimeLRUCache.new : TimeLRUCache Nat Nat 10).run [.put 1 10 2, .put 1 20 5]).bind
      (fun s => s.ticks 2)).map (fun s => s.cache.entries) = some [] ∧
    (((TimeLRUCache.new : TimeLRUCache Nat Nat 10).run [.put 1 10 2, .put 1 20 5]).bind
      (fun s => (s.ticks 2).bind (fun s3 => s3.Get 1))).map Prod.fst = some none :=
  ⟨⟨[], rfl⟩, by unfold TimeLRUCache.NoPending; decide, by decide, by decide, by decide,
    by decide, by decide, by decide⟩

/-- C19, amended: a stale timer task for a refreshed key fires without error
but is not a no-op. On a reachable timed cache whose wheel holds no task for
`k`, with `1 ≤ i1 < i2 ≤ SlotNum`, after `Put(k, v1, i1)` and `Put(k, v2, i2)`
`Get(k)` returns `v2`; it still does after `t < i1` ticks (if the tick counter
does not wrap around within `i2` ticks, or `SlotNum` divides `2 ^ 64`); and the
`i1`-th tick, which fires the first task, evicts `k`: after `t ≥ i1` ticks
`Get(k)` returns null. -/
theorem C19_stale_task_evicts [Inhabited K] [Inhabited V] (s : TimeLRUCache K V SlotNum)
    (k : K) (v1 v2 : V) (i1 i2 : Nat) (hr : s.Reachable) (hnp : s.NoPending k)
    (h1 : 1 ≤ i1) (h12 : i1 < i2) (h2 : i2 ≤ SlotNum) :
    ∃ s1 s2, s.Put k v1 i1 = some s1 ∧ s1.Put k v2 i2 = some s2 ∧
      (∃ s4, s2.Get k = some (some v2, s4)) ∧
      ∀ t, ∃ s3, s2.ticks t = some s3 ∧
        (t < i1 → (s.timeWheel.times + i2 ≤ WORD ∨ SlotNum ∣ WORD) →
          ∃ s4, s3.Get k = some (some v2, s4)) ∧
        (i1 ≤ t → s3.Get k = some (none, s3)) := by
  have hinv := hr.winv
  have hS : 0 < SlotNum := by omega
  obtain ⟨sl1, s1, a1, p1, w1, -, q1, t1⟩ := s.Put_sched k v1 i1 hinv hS (by omega)
  obtain ⟨sl2, s2, a2, p2, w2, kv2, q2, t2⟩ := s1.Put_sched k v2 i2 w1 hS h2
  rw [t1] at a2 q2
  have hlt1 : (s.timeWheel.times + i1 + (WORD - 1)) % WORD % SlotNum <
      s.timeWheel.slots.length := by
    rw [hinv.2.1]; exact Nat.mod_lt _ hS
  have hlt2 : (s.timeWheel.times + i2 + (WORD - 1)) % WORD % SlotNum <
      s1.timeWheel.slots.length := by
    rw [w1.2.1]; exact Nat.mod_lt _ hS
  have hin : ∃ slot, s2.timeWheel.slots[(s2.timeWheel.times + i1 + (WORD - 1)) % WORD %
      SlotNum]? = some slot ∧ (⟨k⟩ : TimerTask K) ∈ slot := by
    rw [t2, t1, q2]
    by_cases hj : (s.timeWheel.times + i2 + (WORD - 1)) % WORD % SlotNum =
        (s.timeWheel.times + i1 + (WORD - 1)) % WORD % SlotNum
    · rw [← hj]
      exact ⟨sl2 ++ [⟨k⟩], List.getElem?_set_self hlt2, by simp⟩
    · rw [List.getElem?_set_ne hj, q1]
      exact ⟨sl1 ++ [⟨k⟩], List.getElem?_set_self hlt1, by simp⟩
  refine ⟨s1, s2, p1, p2, s2.get_present k v2 w2 kv2, fun t => ?_⟩
  by_cases ht : t < i1
  · obtain ⟨s3, e1, e2, -⟩ := s2.ticks_disj k _ s.timeWheel.times 0 t w2 hS
      (by rw [t2, t1]; simp [Nat.mod_eq_of_lt hinv.2.2]) (Or.inr hin)
    refine ⟨s3, e1, fun _ hnw => ?_, fun h => absurd ht (by omega)⟩
    have hnw1 : s.timeWheel.times + i1 ≤ WORD ∨ SlotNum ∣ WORD := by
      rcases hnw with h | h
      · exact Or.inl (by omega)
      · exact Or.inr h
    obtain ⟨s3', f1, f2, f3⟩ := s2.ticks_keep_gen k v2
      (fun idx => idx = (s.timeWheel.times + i1 + (WORD - 1)) % WORD % SlotNum ∨
        idx = (s.timeWheel.times + i2 + (WORD - 1)) % WORD % SlotNum)
      s.timeWheel.times 0 t w2 hS kv2
      (by
        intro idx sl hsl hidx task htask
        rw [not_or] at hidx
        rw [q2, List.getElem?_set_ne (Ne.symm hidx.2), q1,
          List.getElem?_set_ne (Ne.symm hidx.1)] at hsl
        exact hnp sl (List.getElem?_mem hsl) task htask)
      (by rw [t2, t1]; simp [Nat.mod_eq_of_lt hinv.2.2])
      (by
        intro m hm
        rw [not_or, Nat.zero_add]
        exact ⟨slot_arith_ne _ i1 m SlotNum (by omega) (by omega) hnw1,
          slot_arith_ne _ i2 m SlotNum (by omega) h2 hnw⟩)
    rw [e1] at f1
    cases f1
    exact s3.get_present k v2 f2 f3
  · obtain ⟨s3, e1, e2, e3⟩ := s2.ticks_due k i1 t w2 hS h1 (by omega)
      (by rw [t2, t1] at hin ⊢; exact hin)
    exact ⟨s3, e1, fun h => absurd h ht, fun _ => s3.get_absent k e2 e3⟩

/-- Instance of the amended C19 on the fresh timed cache with ten slots, for
the intervals 2 and 5. -/
theorem C19_stale_task_evicts_witness :
    ∃ s1 s2, (TimeLRUCache.new : TimeLRUCache Nat Nat 10).Put 1 10 2 = some s1 ∧
      s1.Put 1 20 5 = some s2 ∧ (∃ s4, s2.Get 1 = some (some 20, s4)) ∧
      ∀ t, ∃ s3, s2.ticks t = some s3 ∧
        (t < 2 → ((TimeLRUCache.new : TimeLRUCache Nat Nat 10).timeWheel.times + 5 ≤ WORD ∨
            10 ∣ WORD) → ∃ s4, s3.Get 1 = some (some 20, s4)) ∧
        (2 ≤ t → s3.Get 1 = some (none, s3)) :=
  C19_stale_task_evicts (TimeLRUCache.new : TimeLRUCache Nat Nat 10) 1 10 20 2 5 ⟨[], rfl⟩
    (by unfold TimeLRUCache.NoPending; decide) (by decide) (by decide) (by decide)

/-- C20: in a reachable state with `n` entries that holds key `k`, after
`Get(k)` the key `k` is the last one evicted: `m` calls of `Evict()` leave the
first `n - m` entries of the recency sequence, whose first entry is that of
`k`, so `k` is still held after each of the first `n - 1` calls and is removed
by the `n`-th. -/
theorem C20_get_then_evicted_last [Inhabited K] [Inhabited V] (c : LRUCache K V) (k : K)
    (hr : c.Reachable) (hk : k ∈ c.keys) :
    ∃ v rest c1, c.Get k = some (some v, c1) ∧ c1.entries = (k, v) :: rest ∧
      rest.length + 1 = c.Size ∧
      ∀ m, ∃ cm, c1.run (List.replicate m .evict) = some cm ∧
        cm.entries = ((k, v) :: rest).take (c.Size - m) ∧
        (m < c.Size → k ∈ cm.keys) ∧ (c.Size ≤ m → k ∉ cm.keys) := by
  obtain ⟨h, hd, cells, hinv⟩ := hr.inv
  obtain ⟨pre, a, v, post, rfl⟩ := hinv.key_entry k hk
  obtain ⟨c1, e1, hinv1, -⟩ := c.Get_present h hd pre post a k v hinv
  have hsz : c.Size = (pre ++ post).length + 1 := by
    rw [hinv.Size_eq]; simp [Nat.add_assoc]
  refine ⟨v, (pre ++ post).map Prod.snd, c1, e1, ?_, ?_, ?_⟩
  · rw [hinv1.entries_eq]; simp
  · rw [hsz]; simp
  · intro m
    obtain ⟨cm, f1, hinvm⟩ := c1.run_evicts h hd _ m hinv1
    have hlen : ((a, (k, v)) :: (pre ++ post)).length = c.Size := by rw [hsz]; rfl
    rw [hlen] at hinvm
    refine ⟨cm, f1, ?_, ?_, ?_⟩
    · rw [hinvm.entries_eq, List.map_take]; simp
    · intro hm
      rw [hinvm.mem_keys_iff]
      obtain ⟨j, hj⟩ : ∃ j, c.Size - m = j + 1 := ⟨c.Size - m - 1, by omega⟩
      rw [hj, List.take_succ_cons]
      simp
    · intro hm
      rw [hinvm.mem_keys_iff, Nat.sub_eq_zero_of_le hm]
      simp

/-- Instance of C20 on the LRU scenario, for key 3. -/
theorem C20_get_then_evicted_last_witness :
    ∃ v rest c1, cacheScenario.Get 3 = some (some v, c1) ∧ c1.entries = (3, v) :: rest ∧
      rest.length + 1 = cacheScenario.Size ∧
      ∀ m, ∃ cm, c1.run (List.replicate m .evict) = some cm ∧
        cm.entries = ((3, v) :: rest).take (cacheScenario.Size - m) ∧
        (m < cacheScenario.Size → 3 ∈ cm.keys) ∧ (cacheScenario.Size ≤ m → 3 ∉ cm.keys) :=
  C20_get_then_evicted_last cacheScenario 3
    ⟨[.put 1 10, .put 2 20, .put 3 30, .get 1, .put 4 40], rfl⟩ (by decide)

/-- C21: on every timed-cache state, `Get(key)` (both overloads), `Evict()`,
`Evict(key)` and `Size()` do to the embedded LRU cache exactly what the
`LRUCache` operation of the same name does (same result, same resulting cache,
failing exactly when it fails) and hand back the time wheel as it was: slots,
`times` and stop flag are unchanged, so a manual `Evict(key)` removes no
pending timer task. -/
theorem C21_delegation_frame (s : TimeLRUCache K V SlotNum) (key : K) :
    s.Size = s.cache.Size ∧
    (∀ r s2, s.Get key = some (r, s2) ↔
      s.cache.Get key = some (r, s2.cache) ∧ s2.timeWheel = s.timeWheel) ∧
    (∀ r s2, s.GetConst key = some (r, s2) ↔
      s.cache.GetConst key = some (r, s2.cache) ∧ s2.timeWheel = s.timeWheel) ∧
    (∀ s2, s.Evict = some s2 ↔ s.cache.Evict = some s2.cache ∧ s2.timeWheel = s.timeWheel) ∧
    (∀ s2, s.EvictKey key = some s2 ↔
      s.cache.EvictKey key = some s2.cache ∧ s2.timeWheel = s.timeWheel) ∧
    (∀ s2, s.EvictKey key = some s2 →
      s2.timeWheel.slots = s.timeWheel.slots ∧ s2.timeWheel.times = s.timeWheel.times) := by
  have key1 : ∀ (o : Option (Option V × LRUCache K V)) r (s2 : TimeLRUCache K V SlotNum),
      (o.bind (fun p => some (p.1, ({ s with cache := p.2 } : TimeLRUCache K V SlotNum))) =
        some (r, s2)) ↔ o = some (r, s2.cache) ∧ s2.timeWheel = s.timeWheel := by
    intro o r s2
    cases o with
    | none => simp
    | some p =>
      obtain ⟨r1, c1⟩ := p
      obtain ⟨c2, w2⟩ := s2
      simp only [Option.some_bind, Option.some.injEq, Prod.mk.injEq, TimeLRUCache.mk.injEq]
      tauto
  have key2 : ∀ (o : Option (LRUCache K V)) (s2 : TimeLRUCache K V SlotNum),
      (o.bind (fun c => some ({ s with cache := c } : TimeLRUCache K V SlotNum)) = some s2) ↔
        o = some s2.cache ∧ s2.timeWheel = s.timeWheel := by
    intro o s2
    cases o with
    | none => simp
    | some c1 =>
      obtain ⟨c2, w2⟩ := s2
      simp only [Option.some_bind, Option.some.injEq, TimeLRUCache.mk.injEq]
      tauto
  refine ⟨rfl, fun r s2 => key1 _ r s2, fun r s2 => key1 _ r s2, fun s2 => key2 _ s2,
    fun s2 => key2 _ s2, fun s2 h => ?_⟩
  have := ((key2 _ s2).1 h).2
  rw [this]
  exact ⟨rfl, rfl⟩

/-- The manual-eviction scenario with ten slots: after `Put` of `key1`, `key2`
and `key3` with the intervals 5, 7 and 9, `Evict("key2")` leaves `Size() == 2`,
while the task of `key2` stays in slot 6 and `times` is still 0; `Get("key2")`
is then null, `Get("key1")` promotes `key1`, and `Evict()` removes `key3`,
again without a change of the wheel. -/
theorem manual_eviction_scenario :
    (((TimeLRUCache.new : TimeLRUCache String String 10).run
      [.put "key1" "value1" 5, .put "key2" "value2" 7, .put "key3" "value3" 9,
        .evictKey "key2"]).map (fun s => (s.Size, s.cache.entries)) =
      some (2, [("key3", "value3"), ("key1", "value1")])) ∧
    (((TimeLRUCache.new : TimeLRUCache String String 10).run
      [.put "key1" "value1" 5, .put "key2" "value2" 7, .put "key3" "value3" 9,
        .evictKey "key2"]).map (fun s => (s.timeWheel.slots, s.timeWheel.times)) =
      some ([[], [], [], [], [⟨"key1"⟩], [], [⟨"key2"⟩], [], [⟨"key3"⟩], []], 0)) ∧
    (((TimeLRUCache.new : TimeLRUCache String String 10).run
      [.put "key1" "value1" 5, .put "key2" "value2" 7, .put "key3" "value3" 9,
        .evictKey "key2"]).bind (fun s => s.Get "key2")).map Prod.fst = some none ∧
    (((TimeLRUCache.new : TimeLRUCache String String 10).run
      [.put "key1" "value1" 5, .put "key2" "value2" 7, .put "key3" "value3" 9,
        .evictKey "key2", .get "key2", .get "key1", .evict]).map
        (fun s => (s.Size, s.cache.entries)) =
      some (1, [("key1", "value1")])) ∧
    (((TimeLRUCache.new : TimeLRUCache String String 10).run
      [.put "key1" "value1" 5, .put "key2" "value2" 7, .put "key3" "value3" 9,
        .evictKey "key2", .get "key2", .get "key1", .evict]).map
        (fun s => (s.timeWheel.slots, s.timeWheel.times)) =
      some ([[], [], [], [], [⟨"key1"⟩], [], [⟨"key2"⟩], [], [⟨"key3"⟩], []], 0)) := by
  decide

/-- C22: in every reachable cache state and for every key `k`, `Get(k)` returns
a result; the result is null exactly when `k` is not in the index, and then the
whole cache state (store, list, index, size) is the one before the call. -/
theorem C22_get_absent_null [Inhabited K] [Inhabited V] (c : LRUCache K V) (k : K)
    (hr : c.Reachable) :
    ∃ r c2, c.Get k = some (r, c2) ∧ (r = none ↔ k ∉ c.keys) ∧
      (k ∉ c.keys → c2 = c ∧ c2.entries = c.entries ∧ c2.Size = c.Size) := by
  obtain ⟨h, hd, cells, hinv⟩ := hr.inv
  by_cases hk : k ∈ c.keys
  · obtain ⟨pre, a, v, post, rfl⟩ := hinv.key_entry k hk
    obtain ⟨c2, h1, -⟩ := c.Get_present h hd pre post a k v hinv
    exact ⟨some v, c2, h1, by simp [hk], fun hn => absurd hk hn⟩
  · have h1 := c.Get_absent h hd cells k hinv (fun hm => hk ((hinv.mem_keys_iff k).2 hm))
    exact ⟨none, c, h1, by simp [hk], fun _ => ⟨rfl, rfl, rfl⟩⟩

/-- Instance of C22 on the cache after `Put(1, 10); Put(2, 20)` with the absent
key 7. -/
theorem C22_get_absent_null_witness :
    ∃ r c2, cacheTwo.Get 7 = some (r, c2) ∧ (r = none ↔ 7 ∉ cacheTwo.keys) ∧
      (7 ∉ cacheTwo.keys → c2 = cacheTwo ∧ c2.entries = cacheTwo.entries ∧
        c2.Size = cacheTwo.Size) :=
  C22_get_absent_null cacheTwo 7 ⟨[.put 1 10, .put 2 20], rfl⟩

/-- C23: on a reachable cache with `Size() == 0`, `Evict()` returns normally
and leaves the state as it was: the size is still 0, list and index are empty,
and the sentinel head is still allocated, is the tail, and has null `prev` and
`next`. -/
theorem C23_evict_empty_noop [Inhabited K] [Inhabited V] (c : LRUCache K V)
    (hr : c.Reachable) (h0 : c.Size = 0) :
    ∃ c2, c.Evict = some c2 ∧ c2 = c ∧ c2.Size = 0 ∧ c2.entries = [] ∧ c2.keys = [] ∧
      c2.list.head = c.list.head ∧ c2.list.tail = c2.list.head ∧
      ∃ n, c2.list.load c2.list.head = some n ∧ n.prev = none ∧ n.next = none := by
  obtain ⟨h, hd, cells, hinv⟩ := hr.inv
  have hlen : cells = [] := by
    have := hinv.Size_eq
    rw [h0] at this
    exact List.length_eq_zero.1 this.symm
  subst hlen
  have hseg := hinv.wf.seg
  simp only [Seg_cons, Seg_nil, firstAddr, and_true] at hseg
  have hkeys : c.keys = [] := by
    have := hinv.keys_perm
    simpa using this
  refine ⟨c, c.Evict_empty h hd hinv, rfl, h0, by simp [hinv.entries_eq], hkeys, rfl, ?_, ?_⟩
  · rw [hinv.wf.tail_eq, hinv.wf.head_eq]; rfl
  · exact ⟨⟨hd, none, none⟩, by simp [load, hinv.wf.head_eq, hseg], rfl, rfl⟩

/-- Instance of C23 on the freshly constructed cache. -/
theorem C23_evict_empty_noop_witness :
    ∃ c2, (LRUCache.new : LRUCache Nat Nat).Evict = some c2 ∧ c2 = LRUCache.new ∧
      c2.Size = 0 ∧ c2.entries = [] ∧ c2.keys = [] ∧
      c2.list.head = (LRUCache.new : LRUCache Nat Nat).list.head ∧
      c2.list.tail = c2.list.head ∧
      ∃ n, c2.list.load c2.list.head = some n ∧ n.prev = none ∧ n.next = none :=
  C23_evict_empty_noop LRUCache.new ⟨[], rfl⟩ rfl

/-- C25: the lock discipline the claim states holds for the member functions
of `TimeLRUCache` but not for the loop of `Start`. Every step of `Size`, `Put`,
`TryPut`, `Get`, `Evict()` and `Evict(key)` that touches the list, the index,
the slots or `times` stands between `lock` and `unlock`; the loop body of
`TimeWheel::Start` reads the current slot, clears it and increments `times`
with no lock held. On a fresh timed cache with ten slots the schedule
`raceSchedule` is therefore possible: `Put("k", "v", 1)` runs between the loop
over slot 0 and the clearing of slot 0. It leaves the entry of `"k"` in the
cache and no task for it in the wheel, so the entry never expires, whereas
`Put` before the tick leaves no entry and `Put` after the tick leaves a task
in slot 1: the outcome is that of no serial order of the two operations. -/
theorem C25_tick_loop_unlocked :
    (∀ (A B : Type) (k : A) (v : B) (i : Nat),
      guardedSteps false (TimeLRUCache.SizeSteps : List (Act A B)) = true ∧
      guardedSteps false (TimeLRUCache.PutSteps k v i) = true ∧
      guardedSteps false (TimeLRUCache.TryPutSteps k v i) = true ∧
      guardedSteps false (TimeLRUCache.GetSteps k : List (Act A B)) = true ∧
      guardedSteps false (TimeLRUCache.EvictSteps : List (Act A B)) = true ∧
      guardedSteps false (TimeLRUCache.EvictKeySteps k : List (Act A B)) = true) ∧
    (∀ (A B : Type) (slot : List (TimerTask A)),
      guardedSteps false (TimeLRUCache.StartIterSteps slot : List (Act A B)) = false) ∧
    (TimeLRUCache.new : TimeLRUCache String String 10).timeWheel.slots.get? (0 % 10) = some [] ∧
    stepsOf raceSchedule 0 = TimeLRUCache.StartIterSteps [] ∧
    stepsOf raceSchedule 1 = TimeLRUCache.PutSteps "k" "v" 1 ∧
    ((⟨TimeLRUCache.new, none⟩ : Shared String String 10).runSchedule raceSchedule).map
        (fun r => (r.1.owner, r.2)) =
      some (none, [(0, .readSlot), (0, .clearSlot), (0, .incTimes)]) ∧
    ((⟨TimeLRUCache.new, none⟩ : Shared String String 10).runSchedule raceSchedule).map
        (fun r => (r.1.data.cache.entries, r.1.data.timeWheel.slots, r.1.data.timeWheel.times)) =
      some ([("k", "v")], List.replicate 10 [], 1) ∧
    (((TimeLRUCache.new : TimeLRUCache String String 10).Put "k" "v" 1).bind
        (fun s => s.tick)).map
        (fun s => (s.cache.entries, s.timeWheel.slots, s.timeWheel.times)) =
      some ([], List.replicate 10 [], 1) ∧
    ((TimeLRUCache.new : TimeLRUCache String String 10).tick.bind
        (fun s => s.Put "k" "v" 1)).map
        (fun s => (s.cache.entries, s.timeWheel.slots, s.timeWheel.times)) =
      some ([("k", "v")], [[], [⟨"k"⟩], [], [], [], [], [], [], [], []], 1) ∧
    (∀ t, ∃ s2 s3, timedRace.ticks t = some s2 ∧ s2.Get "k" = some (some "v", s3)) := by
  refine ⟨fun A B k v i => ⟨rfl, rfl, rfl, rfl, rfl, rfl⟩, fun A B slot => rfl, by decide, by decide,
    by decide, by decide, by decide, by decide, by decide, fun t => ?_⟩
  have hinv : timedRace.WInv :=
    ⟨LRUCache.Reachable.inv ⟨[.put "k" "v"], rfl⟩, by decide, by decide⟩
  have hnp : timedRace.NoPending "k" := by
    unfold TimeLRUCache.NoPending
    decide
  obtain ⟨s2, h1, h2, -, h4⟩ :=
    TimeLRUCache.ticks_nopending timedRace "k" "v" t hinv (by decide) hnp (by decide)
  obtain ⟨s3, h5⟩ := s2.get_present "k" "v" h2 h4
  exact ⟨s2, s3, h1, h5⟩

/-- C26: the structural invariant of the recency list holds in every list
built from the empty list by `PushFront(data)`, `PushBack`, `Spare` or `Delete`
of a linked real node, `PopBack` and the promotion `Spare(node)` followed by
`PushFront(node)`, and each of these calls returns a list in which it holds
again: following `next` from `head`, exactly `size` real nodes are met before
`next` is null; the last node met is `tail`, and `tail == head` exactly when
`size == 0`; `head->prev` is null and every real node `n` has
`n->prev->next == n`. -/
theorem C26_list_structure {T : Type} [Inhabited T] (l : LinkList T) (hb : l.Built) :
    l.Structural ∧
      ∀ o, l.admits o = true → ∃ l2, l.perform o = some l2 ∧ l2.Built ∧ l2.Structural := by
  obtain ⟨cells, hwf⟩ := hb.wf
  refine ⟨hwf.structural, fun o hadm => ?_⟩
  obtain ⟨l2, cells2, h1, hwf2⟩ := l.perform_wf 1 default cells o hwf hadm
  refine ⟨l2, h1, ?_, hwf2.structural⟩
  obtain ⟨ops, hops⟩ := hb
  refine ⟨ops ++ [o], ?_⟩
  have happ : ∀ (l0 : LinkList T) (xs : List (LOp T)), l0.performAll xs = some l →
      l0.performAll (xs ++ [o]) = some l2 := by
    intro l0 xs
    induction xs generalizing l0 with
    | nil =>
      intro hx
      simp only [LinkList.performAll, Option.some.injEq] at hx
      subst hx
      simp [LinkList.performAll, hadm, h1]
    | cons x xs ih =>
      intro hx
      simp only [LinkList.performAll, List.cons_append] at hx ⊢
      split at hx
      · rename_i hax
        rw [if_pos hax]
        cases hp : l0.perform x with
        | none => rw [hp] at hx; cases hx
        | some l1 =>
          rw [hp] at hx
          exact ih l1 hx
      · cases hx
  exact happ _ ops hops

/-- Instance of C26 on the list after `PushFront(1); PushBack(2)`. -/
theorem C26_list_structure_witness :
    listTwo.Structural ∧
      ∀ o, listTwo.admits o = true →
        ∃ l2, listTwo.perform o = some l2 ∧ l2.Built ∧ l2.Structural :=
  C26_list_structure listTwo ⟨[.pushFront 1, .pushBack 2], rfl⟩

/-- C27: the sentinel head is never detached. In every cache state reachable
from the empty cache the head is allocated with a null `prev`, so that `Spare`
or `Delete` of the head would dereference null; every call of `Put`, `TryPut`,
`Get`, `Evict()` and `Evict(key)` returns normally; the node such a call hands
to `Spare` or `Delete`, if any, is not the head but an allocated node with a
non-null `prev`; and when the list is not empty its tail is not the head, so
`PopBack` reaches `Delete(tail)` only with `tail != head`. -/
theorem C27_head_never_detached [Inhabited K] [Inhabited V] (c : LRUCache K V)
    (hr : c.Reachable) :
    (∃ h hn, c.list.head = some h ∧ c.list.mem h = some hn ∧ hn.prev = none) ∧
    c.list.Spare c.list.head = none ∧ c.list.Delete c.list.head = none ∧
    (∀ o, (∃ c2, c.step o = some c2) ∧
      ∀ p, c.detaches o = some p →
        p ≠ c.list.head ∧ ∃ a n q, p = some a ∧ c.list.mem a = some n ∧ n.prev = some q) ∧
    (c.list.size ≠ 0 → c.list.tail ≠ c.list.head) ∧
    (c.list.tail = c.list.head → c.list.PopBack = some c.list) := by
  have hI := hr.inv
  obtain ⟨h, hd, cells, hinv⟩ := hI
  have hwf := hinv.wf
  have hseg := hwf.seg
  rw [Seg_cons] at hseg
  have hfind : ∀ k p, mapFind c.map k = some p →
      p ≠ c.list.head ∧ ∃ a n q, p = some a ∧ c.list.mem a = some n ∧ n.prev = some q := by
    intro k p hp
    obtain ⟨pre, a, v, post, rfl, rfl⟩ := hinv.find_split k p hp
    obtain ⟨e1, n, q, e2, e3⟩ := hwf.node_ne_head
    exact ⟨e1, a, n, q, rfl, e2, e3⟩
  have htail : c.list.size ≠ 0 →
      c.list.tail ≠ c.list.head ∧
        ∃ a n q, c.list.tail = some a ∧ c.list.mem a = some n ∧ n.prev = some q := by
    intro hsz
    rcases List.eq_nil_or_concat cells with rfl | ⟨pre, ⟨a, d⟩, rfl⟩
    · exact absurd hwf.size_eq hsz
    · have hwf2 : c.list.Wf h hd (pre ++ (a, d) :: []) := by simpa using hwf
      obtain ⟨e1, n, q, e2, e3⟩ := hwf2.node_ne_head
      have ht : c.list.tail = some a := by
        rw [hwf2.tail_eq, lastAddr_append]; rfl
      rw [ht]
      exact ⟨e1, a, n, q, rfl, e2, e3⟩
  refine ⟨⟨h, _, hwf.head_eq, hseg.1, rfl⟩, hwf.Spare_head.1, hwf.Spare_head.2, fun o => ⟨?_, ?_⟩,
    fun hsz => (htail hsz).1, fun ht => ?_⟩
  · obtain ⟨c2, h2, -⟩ := c.step_inv ⟨h, hd, cells, hinv⟩ o
    exact ⟨c2, h2⟩
  · intro p hp
    cases o with
    | put k v => cases hp
    | tryPut k v => cases hp
    | get k => exact hfind k p hp
    | evict =>
      simp only [LRUCache.detaches] at hp
      split at hp
      · cases hp
      · rename_i hsz
        cases hp
        exact htail hsz
    | evictKey k => exact hfind k p hp
  · by_cases hsz : c.list.size = 0
    · simp [PopBack, hsz]
    · exact absurd ht (htail hsz).1

/-- Instance of C27 on the cache after `Put(1, 10); Put(2, 20)`. -/
theorem C27_head_never_detached_witness :
    (∃ h hn, cacheTwo.list.head = some h ∧ cacheTwo.list.mem h = some hn ∧ hn.prev = none) ∧
    cacheTwo.list.Spare cacheTwo.list.head = none ∧
    cacheTwo.list.Delete cacheTwo.list.head = none ∧
    (∀ o, (∃ c2, cacheTwo.step o = some c2) ∧
      ∀ p, cacheTwo.detaches o = some p →
        p ≠ cacheTwo.list.head ∧
          ∃ a n q, p = some a ∧ cacheTwo.list.mem a = some n ∧ n.prev = some q) ∧
    (cacheTwo.list.size ≠ 0 → cacheTwo.list.tail ≠ cacheTwo.list.head) ∧
    (cacheTwo.list.tail = cacheTwo.list.head → cacheTwo.list.PopBack = some cacheTwo.list) :=
  C27_head_never_detached cacheTwo ⟨[.put 1 10, .put 2 20], rfl⟩

/-- C28, as stated, fails: `PushFront(node)` does not detach. On the list after
`PushFront(1); PushBack(2)`, whose nodes are at 2 and 3, the call on the linked
node 3 leaves `size == 3`, and the old predecessor 2 still has `next == 3`
while 3 now has `next == 2`, so the chain from `head` never reaches null. -/
theorem C28_pushFront_linked_corrupts :
    listTwo.nodes = some [2, 3] ∧ listTwo.size = 2 ∧ listTwo.linked 3 = true ∧
      (listTwo.PushFrontNode (some 3)).map (fun l =>
        (l.size, l.nodes, (l.load (some 2)).map (fun n => n.next),
          (l.load (some 3)).map (fun n => n.next))) =
        some (3, none, some (some 3), some (some 2)) := by
  decide

/-- C28, amended: on every well-formed list and for every real node linked in
it, `Spare(node)` followed by `PushFront(node)` detaches the node from its
position and relinks it right after the sentinel head: afterwards the node is
`head->next`, the other nodes keep their relative order, `tail` is the last
node of the chain, the list is well formed again and `size` is unchanged. -/
theorem C28_promote_moves_front {T : Type} (l : LinkList T) (h : Nat) (hd : T)
    (pre post : List (Nat × T)) (a : Nat) (d : T) (hwf : l.Wf h hd (pre ++ (a, d) :: post)) :
    l.nodes = some (pre.map Prod.fst ++ a :: post.map Prod.fst) ∧
    ∃ l1 l2, l.Spare (some a) = some l1 ∧ l1.PushFrontNode (some a) = some l2 ∧
      l2.Wf h hd ((a, d) :: (pre ++ post)) ∧
      l2.nodes = some (a :: (pre.map Prod.fst ++ post.map Prod.fst)) ∧
      l2.toList = d :: (pre.map Prod.snd ++ post.map Prod.snd) ∧
      (∃ hn, l2.load l2.head = some hn ∧ hn.next = some a) ∧
      l2.tail = (h :: a :: (pre.map Prod.fst ++ post.map Prod.fst)).getLast? ∧
      l2.size = l.size ∧ l2.Structural := by
  obtain ⟨l1, l2, h1, h2, -, hwf2⟩ := l.promote_wf h hd pre post a d hwf
  have hseg := hwf2.seg
  rw [Seg_cons] at hseg
  refine ⟨by simpa using hwf.nodes_eq, l1, l2, h1, h2, hwf2, by simpa using hwf2.nodes_eq,
    by simpa using hwf2.toList_eq,
    ⟨⟨hd, none, some a⟩, by simp [load, hwf2.head_eq, hseg.1, firstAddr], rfl⟩, ?_, ?_,
    hwf2.structural⟩
  · rw [hwf2.tail_eq, lastAddr_getLast]
    simp
  · rw [hwf2.size_eq, hwf.size_eq]
    simp only [List.length_cons, List.length_append]
    omega

/-- Instance of C28 (amended) on the list after `PushFront(1); PushBack(2)`,
promoting its tail node 3. -/
theorem C28_promote_moves_front_witness :
    listTwo.nodes = some ([(2, 1)].map Prod.fst ++ 3 :: ([] : List (Nat × Nat)).map Prod.fst) ∧
    ∃ l1 l2, listTwo.Spare (some 3) = some l1 ∧ l1.PushFrontNode (some 3) = some l2 ∧
      l2.Wf 1 default ((3, 2) :: ([(2, 1)] ++ [])) ∧
      l2.nodes = some (3 :: ([(2, 1)].map Prod.fst ++ ([] : List (Nat × Nat)).map Prod.fst)) ∧
      l2.toList = 2 :: ([(2, 1)].map Prod.snd ++ ([] : List (Nat × Nat)).map Prod.snd) ∧
      (∃ hn, l2.load l2.head = some hn ∧ hn.next = some 3) ∧
      l2.tail = (1 :: 3 :: ([(2, 1)].map Prod.fst ++
        ([] : List (Nat × Nat)).map Prod.fst)).getLast? ∧
      l2.size = listTwo.size ∧ l2.Structural :=
  C28_promote_moves_front listTwo 1 default [(2, 1)] [] 3 2
    ⟨rfl, ⟨rfl, rfl, rfl, trivial⟩, by decide, rfl, rfl, by decide⟩

/-- C29: `Stop` is observed at the tick boundary. On a timed cache with
`SlotNum ≥ 1` reachable from the empty one, `Start` whose loop test reads the
flag as set returns at once with the state as it was (no task fired, no slot
cleared, `times` unchanged); if `Stop()` arrives during the iteration number
`n + 1`, `Start` returns after that iteration, having processed exactly
`n + 1` slots (in particular exactly one when it arrives during the first);
and no call or tick clears the flag, so that `Start` made at any time after
`Stop` processes no tick at all. -/
theorem C29_stop_at_tick_boundary [Inhabited K] [Inhabited V] (s : TimeLRUCache K V SlotNum)
    (hr : s.Reachable) (hS : 0 < SlotNum) (env : List Bool) :
    (∀ s0 : TimeLRUCache K V SlotNum, s0.timeWheel.stop = true → s0.Start env = some (s0, true)) ∧
    s.timeWheel.stop = false ∧
    (∀ n, ∃ sn, s.ticks (n + 1) = some sn ∧
      s.Start (List.replicate n false ++ true :: env) = some (sn.Stop, true)) ∧
    (∃ s1, s.tick = some s1 ∧ s.Start (true :: env) = some (s1.Stop, true) ∧
      s1.Stop.timeWheel.times = (s.timeWheel.times + 1) % WORD) ∧
    s.Stop.Start env = some (s.Stop, true) ∧
    (∀ ops s2, s.Stop.run ops = some s2 →
      s2.timeWheel.stop = true ∧ s2.Start env = some (s2, true)) := by
  have hinv := hr.winv
  have hstop : s.timeWheel.stop = false := by
    obtain ⟨ops, hops⟩ := hr
    rw [TimeLRUCache.run_stop _ s ops hops]
    rfl
  refine ⟨fun s0 h0 => s0.Start_stopped env h0, hstop, fun n => ?_, ?_,
    s.Stop.Start_stopped env rfl, fun ops s2 h2 => ?_⟩
  · obtain ⟨sn, e1, -, -⟩ := s.ticks_total hinv hS (n + 1)
    exact ⟨sn, e1, by rw [s.Start_ticks n env hinv hS hstop, e1]; rfl⟩
  · obtain ⟨slot, c2, -, h2, -⟩ := s.tick_spec hinv hS
    refine ⟨_, h2, ?_, rfl⟩
    have := s.Start_ticks 0 env hinv hS hstop
    simp only [List.replicate, List.nil_append] at this
    rw [this]
    simp [TimeLRUCache.ticks, h2]
  · have h3 : s2.timeWheel.stop = true := by
      rw [TimeLRUCache.run_stop _ s2 ops h2]
      rfl
    exact ⟨h3, s2.Start_stopped env h3⟩

/-- Instance of C29 with ten slots, on the timed cache after `Put("a", "x", 2)`,
with no further call of `Stop()` scheduled. -/
theorem C29_stop_at_tick_boundary_witness :
    (∀ s0 : TimeLRUCache String String 10, s0.timeWheel.stop = true →
      s0.Start [] = some (s0, true)) ∧
    timedOne.timeWheel.stop = false ∧
    (∀ n, ∃ sn, timedOne.ticks (n + 1) = some sn ∧
      timedOne.Start (List.replicate n false ++ true :: []) = some (sn.Stop, true)) ∧
    (∃ s1, timedOne.tick = some s1 ∧ timedOne.Start (true :: []) = some (s1.Stop, true) ∧
      s1.Stop.timeWheel.times = (timedOne.timeWheel.times + 1) % WORD) ∧
    timedOne.Stop.Start [] = some (timedOne.Stop, true) ∧
    (∀ ops s2, timedOne.Stop.run ops = some s2 →
      s2.timeWheel.stop = true ∧ s2.Start [] = some (s2, true)) :=
  C29_stop_at_tick_boundary timedOne (show timedOne.Reachable from ⟨[.put "a" "x" 2], rfl⟩)
    (by decide) []

/-- C30: slot indexing is total when `SlotNum ≥ 1`. A reachable timed cache has
exactly `SlotNum` slots, and so has the wheel after any `AddTask` or tick. On
every wheel with `SlotNum` slots, whatever `times` holds, the index `AddTask`
computes on machine words for an interval `≤ SlotNum` and the index a tick uses
are both below the number of slots, so that `AddTask` and the tick return
normally. With `SlotNum = 0` both computations take a remainder by zero and are
undefined. -/
theorem C30_slot_index_total [Inhabited K] [Inhabited V] (s : TimeLRUCache K V SlotNum)
    (hr : s.Reachable) (hS : 1 ≤ SlotNum) :
    s.timeWheel.slots.length = SlotNum ∧
    (∃ s2, s.tick = some s2 ∧ s2.timeWheel.slots.length = SlotNum) ∧
    (∀ w : TimeWheel (TimerTask K) SlotNum, w.slots.length = SlotNum →
      (∀ task i, i ≤ SlotNum →
        (w.times + i + (WORD - 1)) % WORD % SlotNum < w.slots.length ∧
        ∃ w2, w.AddTask task i = some w2 ∧ w2.slots.length = SlotNum) ∧
      w.times % SlotNum < w.slots.length ∧
      ∀ log, ∃ r, w.tick TimeWheel.record log = some r ∧ r.1.slots.length = SlotNum) ∧
    (∀ (w0 : TimeWheel (TimerTask K) 0) (task : TimerTask K) (c : LRUCache K V),
      w0.AddTask task 0 = none ∧ w0.tick TimeLRUCache.fire c = none) := by
  have hinv := hr.winv
  refine ⟨hinv.2.1, ?_, ?_, ?_⟩
  · obtain ⟨slot, c2, -, h2, -⟩ := s.tick_spec hinv hS
    exact ⟨_, h2, by simp [hinv.2.1]⟩
  · intro w hlen
    have hidx : ∀ n : Nat, n % SlotNum < w.slots.length := by
      intro n
      rw [hlen]
      exact Nat.mod_lt _ hS
    refine ⟨fun task i hi => ⟨hidx _, ?_⟩, hidx _, fun log => ?_⟩
    · obtain ⟨slot, -, h2⟩ := w.AddTask_eq task i hlen hi hS
      exact ⟨_, h2, by simp [hlen]⟩
    · obtain ⟨slot, -, h2⟩ := w.tick_record log hlen hS
      exact ⟨_, h2, by simp [hlen]⟩
  · intro w0 task c
    simp [TimeWheel.AddTask, TimeWheel.tick]

/-- Instance of C30 with ten slots, on the timed cache after `Put("a", "x", 2)`. -/
theorem C30_slot_index_total_witness :
    timedOne.timeWheel.slots.length = 10 ∧
    (∃ s2, timedOne.tick = some s2 ∧ s2.timeWheel.slots.length = 10) ∧
    (∀ w : TimeWheel (TimerTask String) 10, w.slots.length = 10 →
      (∀ task i, i ≤ 10 →
        (w.times + i + (WORD - 1)) % WORD % 10 < w.slots.length ∧
        ∃ w2, w.AddTask task i = some w2 ∧ w2.slots.length = 10) ∧
      w.times % 10 < w.slots.length ∧
      ∀ log, ∃ r, w.tick TimeWheel.record log = some r ∧ r.1.slots.length = 10) ∧
    (∀ (w0 : TimeWheel (TimerTask String) 0) (task : TimerTask String)
      (c : LRUCache String String),
      w0.AddTask task 0 = none ∧ w0.tick TimeLRUCache.fire c = none) :=
  C30_slot_index_total timedOne ⟨[.put "a" "x" 2], rfl⟩ (by decide)

/-- C31: without intervening `Get`, entries inserted by `Put` leave in
insertion order. For every list of entries with pairwise distinct keys
`k1 .. kn`, put one after the other into the empty cache, and every `m ≤ n`,
the `m` calls of `Evict()` that follow return normally and leave the recency
sequence `kn .. k(m+1)` with the values put: `Size() == n - m`, the index holds
exactly `k(m+1) .. kn`, none of `k1 .. km`, and `Get` of each remaining key
returns its value. -/
theorem C31_put_then_evict_fifo [Inhabited K] [Inhabited V] (kvs : List (K × V)) (m : Nat)
    (hnd : (kvs.map Prod.fst).Nodup) (hm : m ≤ kvs.length) :
    ∃ c, (LRUCache.new : LRUCache K V).run
        (kvs.map (fun e => Op.put e.1 e.2) ++ List.replicate m .evict) = some c ∧
      c.entries = (kvs.drop m).reverse ∧ c.Size = kvs.length - m ∧
      (∀ k, k ∈ c.keys ↔ k ∈ (kvs.drop m).map Prod.fst) ∧
      (∀ e ∈ kvs.take m, e.1 ∉ c.keys) ∧
      (∀ e ∈ kvs.drop m, ∃ c2, c.Get e.1 = some (some e.2, c2)) := by
  obtain ⟨c1, cells1, h1, hinv1, hc1⟩ :=
    (LRUCache.new : LRUCache K V).run_puts 1 default [] kvs LRUCache.new_inv hnd (by simp)
  obtain ⟨c2, h2, hinv2⟩ := c1.run_evicts 1 default cells1 m hinv1
  have hlen : cells1.length = kvs.length := by
    have := congrArg List.length hc1
    simpa using this
  have hent : c2.entries = (kvs.drop m).reverse := by
    rw [hinv2.entries_eq, List.map_take, hc1, hlen, List.map_nil, List.append_nil,
      List.reverse_drop]
  have hkeys : ∀ k, k ∈ c2.keys ↔ k ∈ (kvs.drop m).map Prod.fst := by
    intro k
    rw [(LRUCache.Inv.mem_keys_iff_entries ⟨_, _, _, hinv2⟩ k), hent, List.map_reverse,
      List.mem_reverse]
  refine ⟨c2, ?_, hent, ?_, hkeys, ?_, ?_⟩
  · rw [LRUCache.run_append, h1, Option.some_bind, h2]
  · rw [hinv2.Size_eq, List.length_take, hlen]
    omega
  · intro e he hk
    rw [hkeys] at hk
    have hsplit : kvs.map Prod.fst = (kvs.take m).map Prod.fst ++ (kvs.drop m).map Prod.fst := by
      rw [← List.map_append, List.take_append_drop]
    rw [hsplit, List.nodup_append] at hnd
    exact hnd.2.2 (List.mem_map_of_mem Prod.fst he) hk
  · intro e he
    have hmem : (e.1, e.2) ∈ c2.entries := by
      rw [hent, List.mem_reverse]
      exact he
    obtain ⟨c3, h3⟩ := (c2.Get_spec e.1 ⟨_, _, _, hinv2⟩).1 e.2 hmem
    exact ⟨c3, h3⟩

/-- Instance of C31: after `Put(1, 10); Put(2, 20); Put(3, 30)`, two calls of
`Evict()` remove the keys 1 and 2 and leave key 3. -/
theorem C31_put_then_evict_fifo_witness :
    ∃ c, (LRUCache.new : LRUCache Nat Nat).run
        ([(1, 10), (2, 20), (3, 30)].map (fun e => Op.put e.1 e.2) ++
          List.replicate 2 .evict) = some c ∧
      c.entries = ([(1, 10), (2, 20), (3, 30)].drop 2).reverse ∧
      c.Size = [(1, 10), (2, 20), (3, 30)].length - 2 ∧
      (∀ k, k ∈ c.keys ↔ k ∈ ([(1, 10), (2, 20), (3, 30)].drop 2).map Prod.fst) ∧
      (∀ e ∈ [(1, 10), (2, 20), (3, 30)].take 2, e.1 ∉ c.keys) ∧
      (∀ e ∈ [(1, 10), (2, 20), (3, 30)].drop 2, ∃ c2, c.Get e.1 = some (some e.2, c2)) :=
  C31_put_then_evict_fifo [(1, 10), (2, 20), (3, 30)] 2 (by decide) (by decide)

/-- C32, as stated, fails when the tick counter wraps around within the
revolution. The idle wheel with ten slots and `times = 2 ^ 64 - 6` is the
state after `2 ^ 64 - 6` ticks of the empty wheel. `AddTask` with interval 0
files a task in slot 9 there; the next ten ticks process the slots 0 to 5 and,
after the wrap, 0 to 3: the task is not fired and still stands in slot 9, and
`times` is 4. -/
theorem C32_fails_on_wraparound :
    (TimeWheel.new : TimeWheel Nat 10).ticksLog [] (WORD - 6) = some (wheelLate, []) ∧
      (wheelLate.AddTask 7 0).map (fun w1 => w1.slots) =
        some [[], [], [], [], [], [], [], [], [], [7]] ∧
      ((wheelLate.AddTask 7 0).bind (fun w1 => w1.ticksLog [] 10)).map
        (fun r => (r.1.slots, r.1.times, r.2)) =
        some ([[], [], [], [], [], [], [], [], [], [7]], 4, []) := by
  refine ⟨?_, by decide, by decide⟩
  exact TimeWheel.ticksLog_idle [] 0 (WORD - 6) false (by decide) (by decide)

/-- C32, amended: the wheel drains in one revolution unless the tick counter
wraps around. Take a wheel with `SlotNum ≥ 1` slots and a `size_t` counter
`times` such that `times + SlotNum ≤ 2 ^ 64` (or `SlotNum` divides `2 ^ 64`).
`SlotNum` consecutive ticks with no `AddTask` in between run, leave every slot
empty, fire every task pending at the start exactly once (the log of the
tasks fired is a rearrangement of the tasks pending at the start), and
advance `times` by `SlotNum` modulo `2 ^ 64`, that is by exactly `SlotNum`
when `times + SlotNum < 2 ^ 64`. -/
theorem C32_wheel_drains {T : Type} (w : TimeWheel T SlotNum)
    (hlen : w.slots.length = SlotNum) (hT : w.times < WORD) (hS : 1 ≤ SlotNum)
    (hnw : w.times + SlotNum ≤ WORD ∨ SlotNum ∣ WORD) :
    ∃ wn logn, w.ticksLog [] SlotNum = some (wn, logn) ∧
      wn.slots = List.replicate SlotNum [] ∧ logn.Perm w.slots.flatten ∧
      wn.times = (w.times + SlotNum) % WORD ∧
      (w.times + SlotNum < WORD → wn.times = w.times + SlotNum) ∧ wn.stop = w.stop := by
  obtain ⟨wn, logn, e1, e2, e3, e4, e5, -, e7⟩ := w.ticksLog_sweep [] SlotNum hlen hS hT
  have hall : wn.slots = List.replicate SlotNum [] := by
    apply List.ext_getElem?
    intro idx
    rw [List.getElem?_replicate]
    split
    · rename_i hidx
      obtain ⟨i, hi, hcov⟩ := slot_cover w.times SlotNum idx hidx hnw
      rw [← hcov]
      exact e7 i hi
    · rename_i hidx
      exact List.getElem?_eq_none (by rw [e2]; exact Nat.le_of_not_lt hidx)
  have hflat : wn.slots.flatten = [] := by
    rw [hall]
    simp
  refine ⟨wn, logn, e1, hall, ?_, e3, fun hlt => by rw [e3, Nat.mod_eq_of_lt hlt], e4⟩
  simpa [hflat] using e5

/-- Instance of C32 (amended) with ten slots and `times = 0`: tasks pending in
the slots 2 and 7. -/
theorem C32_wheel_drains_witness :
    ∃ wn logn,
      ({ slots := [[], [], [1, 2], [], [], [], [], [3], [], []], times := 0, stop := false } :
        TimeWheel Nat 10).ticksLog [] 10 = some (wn, logn) ∧
      wn.slots = List.replicate 10 [] ∧
      logn.Perm ([[], [], [1, 2], [], [], [], [], [3], [], []] : List (List Nat)).flatten ∧
      wn.times = (0 + 10) % WORD ∧ (0 + 10 < WORD → wn.times = 0 + 10) ∧ wn.stop = false :=
  C32_wheel_drains
    ({ slots := [[], [], [1, 2], [], [], [], [], [3], [], []], times := 0, stop := false } :
      TimeWheel Nat 10) (by decide) (by decide) (by decide) (Or.inl (by decide))

/-- The timed cache after one revolution: on a consistent timed cache with
`SlotNum ≥ 1` whose counter does not wrap within the revolution (or with
`SlotNum` dividing `2 ^ 64`), `SlotNum` ticks run and leave a wheel without
any pending task. -/
theorem timed_wheel_drains (s : TimeLRUCache K V SlotNum) (hinv : s.WInv) (hS : 1 ≤ SlotNum)
    (hnw : s.timeWheel.times + SlotNum ≤ WORD ∨ SlotNum ∣ WORD) :
    ∃ s2, s.ticks SlotNum = some s2 ∧ s2.timeWheel.slots = List.replicate SlotNum [] ∧
      ∀ k, s2.NoPending k := by
  obtain ⟨s2, h1, -, -⟩ := s.ticks_total hinv hS SlotNum
  obtain ⟨wn, logn, e1, e2, -, -, -, -, e7⟩ :=
    s.timeWheel.ticksLog_sweep [] SlotNum hinv.2.1 hS hinv.2.2
  have hw := s.ticks_wheel_record [] SlotNum hinv hS
  rw [h1, e1] at hw
  simp only [Option.map_some', Option.some.injEq] at hw
  have hall : s2.timeWheel.slots = List.replicate SlotNum [] := by
    rw [hw]
    apply List.ext_getElem?
    intro idx
    rw [List.getElem?_replicate]
    split
    · rename_i hidx
      obtain ⟨i, hi, hcov⟩ := slot_cover s.timeWheel.times SlotNum idx hidx hnw
      rw [← hcov]
      exact e7 i hi
    · rename_i hidx
      exact List.getElem?_eq_none (by rw [e2]; exact Nat.le_of_not_lt hidx)
  refine ⟨s2, h1, hall, fun k slot hslot task htask => ?_⟩
  rw [hall] at hslot
  rw [List.eq_of_mem_replicate hslot] at htask
  cases htask

end Claims

end TimeWheelLRU
